import Mathlib

/-!
Huffman compression (`src/huffm.hpp`): model and verified properties.

The first half of the file holds the definitions: the model of the C++ code
and the notions used to state its properties. The second half holds the
theorems.
-/

/-! ## Definitions -/

namespace Huffman

/-- One `unsigned char`. -/
abbrev Byte := Fin 256

/-- A `std::string` (also: the contents of a file). -/
abbrev Str := List Byte

def MAX_SIZE : Nat := 270

def WRITE_BUFF_SIZE : Nat := 10

def PSEUDO_EOF : Nat := 256

/-- The character `'0'`. -/
def chr0 : Byte := 48

/-- The character `'1'`. -/
def chr1 : Byte := 49

/-- The character `'\n'` written by `endl`. -/
def chrNL : Byte := 10

/-- The character `' '`. -/
def chrSP : Byte := 32

/-- The character `'-'`. -/
def chrMinus : Byte := 45

/-- The character `'+'`. -/
def chrPlus : Byte := 43

def INT_MAX : Int := 2147483647

def INT_MIN : Int := -2147483648

/-- A 32-bit `int` after an arithmetic step: two's-complement wraparound. -/
def wrap_int (x : Int) : Int := (x + 2147483648) % 4294967296 - 2147483648

/-- A 32-bit `unsigned int` after an arithmetic step. -/
def wrap_uint (x : Nat) : Nat := x % 4294967296

/-- The inner `for (j = 0; j < 8; j++)` loop: `out_ += temp_ << (7 - j)` on an
`unsigned char`, where `temp_` is 0 for the character `'0'` and 1 otherwise. -/
def pack_byte (input : Str) (i : Nat) : Byte :=
  Fin.ofNat ((List.range 8).foldl
    (fun out_ j =>
      let temp_ := if input.getD (i + j) 0 = chr0 then 0 else 1
      (out_ + temp_ <<< (7 - j)) % 256) 0)

/-- The outer `for (i = 0; i + 7 < length; i += 8, flag = i)` loop; at most
`fuel` iterations. State: `i`, `out_string`, `flag`. -/
def uchar_to_binary_loop (input : Str) (length : Nat) :
    Nat → Nat → Str → Nat → Str × Nat
  | 0, _, out_string, flag => (out_string, flag)
  | fuel + 1, i, out_string, flag =>
    if i + 7 < length then
      uchar_to_binary_loop input length fuel (i + 8) (out_string ++ [pack_byte input i]) (i + 8)
    else (out_string, flag)

/-- `uchar_to_binary(input, length, flag)`: returns `out_string` and the new
value of `flag`. The loop runs fewer than `length` times. -/
def uchar_to_binary (input : Str) (length : Nat) (flag : Nat) : Str × Nat :=
  uchar_to_binary_loop input length length 0 [] flag

/-- A `Node_ptr`: `NULL` or a pointer to a node with fields `id`, `freq`,
`left`, `right`. -/
inductive Node_ptr where
  | NULL : Node_ptr
  | node (id : Int) (freq : Nat) (left right : Node_ptr) : Node_ptr
  deriving DecidableEq, Repr

namespace Node_ptr

/-- `p->freq` (0 for the null pointer, which the program never dereferences). -/
def freq : Node_ptr → Nat
  | NULL => 0
  | node _ f _ _ => f

/-- `p->id`. -/
def id : Node_ptr → Int
  | NULL => 0
  | node i _ _ _ => i

/-- `p->left`. -/
def left : Node_ptr → Node_ptr
  | NULL => NULL
  | node _ _ l _ => l

/-- `p->right`. -/
def right : Node_ptr → Node_ptr
  | NULL => NULL
  | node _ _ _ r => r

/-- `p->isleaf()`: `left == NULL && right == NULL`. -/
def isleaf (p : Node_ptr) : Bool :=
  decide (p.left = NULL) && decide (p.right = NULL)

/-- `new Huffman_node(id, freq)`. -/
def leaf (id : Int) (freq : Nat) : Node_ptr := node id freq NULL NULL

/-- `new Huffman_node()`: every field value-initialised. -/
def fresh : Node_ptr := node 0 0 NULL NULL

end Node_ptr

/-- The member `table`: entries in ascending key order, one per key. -/
abbrev Table := List (Int × Str)

/-- The assignment `table[k] = v`. -/
def Table.assign : Table → Int → Str → Table
  | [], k, v => [(k, v)]
  | (k', v') :: r, k, v =>
    if k < k' then (k, v) :: (k', v') :: r
    else if k = k' then (k, v) :: r
    else (k', v') :: Table.assign r k v

/-- The lookup `table.find(k)`: `none` stands for `table.end()`. -/
def Table.find : Table → Int → Option Str
  | [], _ => none
  | (k', v') :: r, k => if k = k' then some v' else Table.find r k

/-- `Compare::operator()`: `(*c1).freq > (*c2).freq`. -/
def Compare (c1 c2 : Node_ptr) : Bool := decide (c1.freq > c2.freq)

/-- A `std::priority_queue<Node_ptr, vector<Node_ptr>, Compare>`. The library
is not part of the repository, so the queue is a parameter: any state type with
`push`, `top`, `pop` and `size` that keeps a multiset of elements and whose
`top` is an element that `Compare` puts before no other one. How ties are
broken is left open, as in the C++ standard. -/
structure PriorityQueue where
  Q : Type
  init : Q
  push : Q → Node_ptr → Q
  top : Q → Node_ptr
  pop : Q → Q
  size : Q → Nat
  contents : Q → Multiset Node_ptr
  contents_init : contents init = 0
  contents_push : ∀ q x, contents (push q x) = x ::ₘ contents q
  size_eq : ∀ q, size q = Multiset.card (contents q)
  top_mem : ∀ q, contents q ≠ 0 → top q ∈ contents q
  top_first : ∀ q, ∀ y ∈ contents q, Compare (top q) y = false
  contents_pop : ∀ q, contents q ≠ 0 → contents (pop q) = (contents q).erase (top q)

/-- `pq.empty()`. -/
def PriorityQueue.isEmpty (P : PriorityQueue) (q : P.Q) : Bool := decide (P.size q = 0)

/-- The messages printed before `exit(1)`. -/
inductive ExitMsg where
  /-- the message "Build the huffman tree failed or no characters are counted" -/
  | build_failed
  /-- the message "Can't find the huffman code of character %X" -/
  | no_code_of_character (c : Byte)
  /-- the message "Can't find the huffman code of pseudo-EOF" -/
  | no_code_of_pseudo_eof
  /-- the message "The number of nodes is not valid, maybe the compressed file has been broken." -/
  | node_count_not_valid
  /-- the message "Decode error, huffman code is not made up with 0 or 1" -/
  | code_not_binary
  /-- the message "Huffman code is not valid, maybe the compressed file has been broken." -/
  | code_not_valid
  deriving DecidableEq, Repr

/-- How a run ends. -/
inductive Status where
  /-- the function returned -/
  | finished
  /-- `exit(1)` after the message -/
  | exited (msg : ExitMsg)
  /-- a null pointer was dereferenced, or an uninitialised variable was read -/
  | undefined
  /-- the loop was still running when the model's iteration budget ended -/
  | running
  deriving DecidableEq, Repr

/-- What a run leaves behind: the bytes written to `out_file` and its status. -/
structure Outcome where
  out : Str
  status : Status
  deriving DecidableEq, Repr

/-- The counting loop of `create_node_array` (lines 128-140): `int freq[MAX_SIZE]`
starts at zero and `freq[(unsigned char)in_char]++` runs once per byte read. -/
def count_freq (S : Str) : List Int :=
  S.foldl (fun freq c => freq.set c.val (wrap_int (freq.getD c.val 0 + 1)))
    (List.replicate MAX_SIZE 0)

/-- The collecting loop of `create_node_array` (lines 142-150): the slots with
`freq[i] <= 0` are skipped, the others give `new Huffman_node(i, freq[i])`. -/
def collect_nodes (freq : List Int) : List Node_ptr :=
  (List.range MAX_SIZE).foldl
    (fun node_array i =>
      if freq.getD i 0 ≤ 0 then node_array
      else node_array ++ [Node_ptr.leaf i (freq.getD i 0).toNat]) []

/-- `create_node_array()`: the filled part of `node_array`; `size` is its length. -/
def create_node_array (S : Str) : List Node_ptr :=
  collect_nodes (count_freq S) ++ [Node_ptr.leaf PSEUDO_EOF 1]

/-- `create_pq()` after `create_node_array()`: pushes `node_array[0..size-1]` in order. -/
def create_pq (P : PriorityQueue) (node_array : List Node_ptr) : P.Q :=
  node_array.foldl P.push P.init

/-- The `while (!pq.empty())` loop of `create_huffman_tree` (lines 172-189), at
most `fuel` iterations; the state is the queue and `root`. -/
def create_huffman_tree_loop (P : PriorityQueue) : Nat → P.Q → Node_ptr → Node_ptr
  | 0, _, root => root
  | fuel + 1, pq, root =>
    if P.isEmpty pq then root
    else
      let first := P.top pq
      let pq1 := P.pop pq
      if P.isEmpty pq1 then first
      else
        let second := P.top pq1
        let pq2 := P.pop pq1
        let parent := Node_ptr.node 0 (wrap_uint (first.freq + second.freq)) first second
        create_huffman_tree_loop P fuel (P.push pq2 parent) root

/-- `create_huffman_tree()`: the value left in `root`. Every iteration but the
last shrinks the queue by one, so `size + 1` iterations are enough. -/
def create_huffman_tree (P : PriorityQueue) (pq : P.Q) : Node_ptr :=
  create_huffman_tree_loop P (P.size pq + 1) pq Node_ptr.NULL

/-- `create_map_table(node, s)` acting on `table`; `none` when it would
dereference a null pointer. -/
def create_map_table : Node_ptr → Str → Table → Option Table
  | Node_ptr.NULL, _, _ => none
  | Node_ptr.node id _ l r, s, table =>
    if l = Node_ptr.NULL ∧ r = Node_ptr.NULL then some (table.assign id s)
    else
      match create_map_table l (s ++ [chr0]) table with
      | none => none
      | some table1 => create_map_table r (s ++ [chr1]) table1

/-- `calculate_huffman_codes()`: the filled `table`, or how the run ended. -/
def calculate_huffman_codes (root : Node_ptr) : Except Status Table :=
  if root = Node_ptr.NULL then .error (.exited .build_failed)
  else
    match create_map_table root [] [] with
    | none => .error .undefined
    | some table => .ok table

/-- The decimal digit `d` as a character. -/
def digit_char (d : Nat) : Byte := Fin.ofNat (48 + d)

/-- Decimal digits of `n` in front of `acc`. -/
def show_nat_aux : Nat → Nat → Str → Str
  | 0, _, acc => acc
  | fuel + 1, n, acc =>
    if n < 10 then digit_char n :: acc
    else show_nat_aux fuel (n / 10) (digit_char (n % 10) :: acc)

/-- What `out_file << n` writes for a non-negative `n`. -/
def show_nat (n : Nat) : Str := show_nat_aux (n + 1) n []

/-- What `out_file << x` writes for an `int`. -/
def show_int : Int → Str
  | Int.ofNat n => show_nat n
  | Int.negSucc n => chrMinus :: show_nat (n + 1)

/-- One header line: `out_file << first << " " << second << endl`. -/
def header_line (e : Int × Str) : Str := show_int e.1 ++ [chrSP] ++ e.2 ++ [chrNL]

/-- The header written by `do_compress` (lines 229-235). -/
def write_header (size : Nat) (table : Table) : Str :=
  show_int size ++ [chrNL] ++ (table.map header_line).flatten

/-- The encoding loop of `do_compress` (lines 241-267) over the bytes still to
read. State: `code` and the bytes written so far. An `exit(1)` keeps what was
written. -/
def encode_loop (table : Table) : Str → Str → Str → Except (ExitMsg × Str) (Str × Str)
  | [], code, out => .ok (code, out)
  | c :: rest, code, out =>
    match table.find c.val with
    | none => .error (.no_code_of_character c, out)
    | some s =>
      let code := code ++ s
      let length := code.length
      if length > WRITE_BUFF_SIZE then
        let r := uchar_to_binary code length 0
        encode_loop table rest ((code.drop r.2).take (length - r.2)) (out ++ r.1)
      else encode_loop table rest code out

/-- The tail loop of `do_compress` (lines 279-295): the bytes it writes. The
state of the fold is `out_c` and the bytes written. -/
def flush_tail (code : Str) : Str :=
  let length := code.length
  ((List.range length).foldl
    (fun (st : Nat × Str) i =>
      let tmp_c := if code.getD i 0 = chr0 then 0 else 1
      let out_c := (st.1 + tmp_c <<< (7 - i % 8)) % 256
      if (i + 1) % 8 = 0 ∨ i = length - 1 then (0, st.2 ++ [Fin.ofNat out_c])
      else (out_c, st.2)) (0, [])).2

/-- `do_compress()` on the input bytes `S` with the members `size`, `table`. -/
def do_compress (S : Str) (size : Nat) (table : Table) : Outcome :=
  let hdr := write_header size table
  match encode_loop table S [] hdr with
  | .error (msg, out) => ⟨out, .exited msg⟩
  | .ok (code, out) =>
    match table.find PSEUDO_EOF with
    | none => ⟨out, .exited .no_code_of_pseudo_eof⟩
    | some s => ⟨out ++ flush_tail (code ++ s), .finished⟩

/-- `compress()` on an input file with contents `S`. -/
def compress (P : PriorityQueue) (S : Str) : Outcome :=
  let node_array := create_node_array S
  let size := node_array.length
  let root := create_huffman_tree P (create_pq P node_array)
  match calculate_huffman_codes root with
  | .error st => ⟨[], st⟩
  | .ok table => do_compress S size table

/-- The state of `in_file`: the bytes not yet read, `eofbit` and `failbit`. -/
structure IStream where
  rest : Str
  eofbit : Bool
  failbit : Bool
  deriving DecidableEq, Repr

/-- A freshly opened file. -/
def IStream.open (file : Str) : IStream := ⟨file, false, false⟩

/-- `in_file.good()`. -/
def IStream.good (s : IStream) : Bool := !s.eofbit && !s.failbit

/-- `isspace` in the "C" locale. -/
def isspace (c : Byte) : Bool := decide (c.val = 32) || (decide (9 ≤ c.val) && decide (c.val ≤ 13))

/-- `isdigit`. -/
def isdigit (c : Byte) : Bool := decide (48 ≤ c.val) && decide (c.val ≤ 57)

/-- `in_file.get(in_char)`: the new value of `in_char` (unchanged when nothing
is read) and the new stream state. -/
def IStream.get (s : IStream) (in_char : Byte) : Byte × IStream :=
  if s.good then
    match s.rest with
    | [] => (in_char, { s with eofbit := true, failbit := true })
    | c :: r => (c, { s with rest := r })
  else (in_char, { s with failbit := true })

/-- The sentry of a formatted input: it needs a good stream, skips whitespace
and fails at the end of the file. -/
def IStream.sentry (s : IStream) : Bool × IStream :=
  if s.good then
    match s.rest.dropWhile isspace with
    | [] => (false, ⟨[], true, true⟩)
    | c :: r => (true, { s with rest := c :: r })
  else (false, { s with failbit := true })

/-- `in_file >> code` for a `std::string`: after the sentry, the characters up
to the next whitespace. A failed sentry leaves the string as it was. -/
def IStream.read_string (s : IStream) (old : Str) : Str × IStream :=
  match s.sentry with
  | (false, s1) => (old, s1)
  | (true, s1) =>
    let r := s1.rest.dropWhile (fun c => !isspace c)
    (s1.rest.takeWhile (fun c => !isspace c), { s1 with rest := r, eofbit := r.isEmpty })

/-- The value of a string of decimal digits. -/
def digits_value (ds : Str) : Nat := ds.foldl (fun acc d => 10 * acc + (d.val - 48)) 0

/-- `in_file >> x` for an `int`: after the sentry, an optional sign and the
decimal digits that follow; no digit gives 0 and `failbit`, a value outside
`int` gives the nearest bound and `failbit`. A failed sentry leaves the
variable as it was. -/
def IStream.read_int (s : IStream) (old : Int) : Int × IStream :=
  match s.sentry with
  | (false, s1) => (old, s1)
  | (true, s1) =>
    let signed : Bool × Str :=
      match s1.rest with
      | [] => (false, [])
      | c :: r => if c = chrMinus then (true, r) else if c = chrPlus then (false, r) else (false, c :: r)
    let ds := signed.2.takeWhile isdigit
    let r := signed.2.dropWhile isdigit
    let v : Int := if signed.1 then - (digits_value ds : Int) else (digits_value ds : Int)
    if ds = [] then (0, ⟨r, r.isEmpty, true⟩)
    else if v < INT_MIN then (INT_MIN, ⟨r, r.isEmpty, true⟩)
    else if INT_MAX < v then (INT_MAX, ⟨r, r.isEmpty, true⟩)
    else (v, ⟨r, r.isEmpty, false⟩)

/-- The inner loop of `rebuild_huffman_tree` (lines 322-371) from position `j`
on: `code` is the whole string, `rem` its characters from `j`, `node` the node
the walk stands on. It returns that node with the new nodes attached below it,
and `table`. -/
def rebuild_walk (id : Int) (code : Str) : Str → Node_ptr → Table → Except Status (Node_ptr × Table)
  | [], node, table => .ok (node, table)
  | c :: rem, node, table =>
    match node with
    | Node_ptr.NULL => .error .undefined
    | Node_ptr.node nid nfreq l r =>
      if c ≠ chr0 ∧ c ≠ chr1 then .error (.exited .code_not_binary)
      else
        let tmp := if c = chr0 then l else r
        let last : Bool := rem.isEmpty
        if tmp = Node_ptr.NULL then
          let new_node := if last then Node_ptr.node id 0 Node_ptr.NULL Node_ptr.NULL else Node_ptr.fresh
          let table1 := if last then table.assign id code else table
          match rebuild_walk id code rem new_node table1 with
          | .error e => .error e
          | .ok (sub, table2) =>
            .ok (if c = chr0 then Node_ptr.node nid nfreq sub r else Node_ptr.node nid nfreq l sub, table2)
        else if last then .error (.exited .code_not_valid)
        else if tmp.isleaf then .error (.exited .code_not_valid)
        else
          match rebuild_walk id code rem tmp table with
          | .error e => .error e
          | .ok (sub, table2) =>
            .ok (if c = chr0 then Node_ptr.node nid nfreq sub r else Node_ptr.node nid nfreq l sub, table2)

/-- The state of `rebuild_huffman_tree` between two header lines. -/
structure RebuildState where
  in_file : IStream
  id : Int
  code : Str
  root : Node_ptr
  table : Table
  deriving DecidableEq, Repr

/-- The outer loop of `rebuild_huffman_tree` (lines 316-372): `n` more
iterations. -/
def rebuild_loop : Nat → RebuildState → Except Status RebuildState
  | 0, st => .ok st
  | n + 1, st =>
    let r1 := st.in_file.read_int st.id
    let r2 := r1.2.read_string st.code
    match rebuild_walk r1.1 r2.1 r2.1 st.root st.table with
    | .error e => .error e
    | .ok (root, table) => rebuild_loop n ⟨r2.2, r1.1, r2.1, root, table⟩

/-- `rebuild_huffman_tree()`. The member `size` is uninitialised before
`in_file >> size`; when that extraction stores nothing the comparison reads an
indeterminate value. The local `id` is only read after a successful extraction
(a leaf is created only for a non-empty `code`), so its initial value, taken
as 0, is never observed. -/
def rebuild_huffman_tree (in_file : IStream) : Except Status RebuildState :=
  if (in_file.sentry).1 = false then .error .undefined
  else
    let r := in_file.read_int 0
    if r.1 > MAX_SIZE then .error (.exited .node_count_not_valid)
    else rebuild_loop r.1.toNat ⟨r.2, 0, [], Node_ptr.fresh, []⟩

/-- The eight bits of a byte, most significant first (`flag = 0x80`, then
`flag >> 1`). -/
def byte_bits (u_char : Byte) : List Bool :=
  (List.range 8).map (fun i => u_char.val.testBit (7 - i))

/-- Where the inner loop of `decode_huffman` stands after a byte. -/
inductive BitsResult where
  /-- all eight bits were consumed: `node` and `out_string` -/
  | more (node : Node_ptr) (out_string : Str)
  /-- the pseudo-EOF leaf was reached: `out_string` -/
  | pseudo_eof (out_string : Str)
  /-- a null pointer was dereferenced -/
  | null_deref
  deriving DecidableEq, Repr

/-- The inner `for (i = 0; i < 8; ++i)` loop of `decode_huffman` (lines 393-417)
over the bits still to process. -/
def decode_bits (root : Node_ptr) : List Bool → Node_ptr → Str → BitsResult
  | [], node, out_string => .more node out_string
  | b :: bs, node, out_string =>
    match node with
    | Node_ptr.NULL => .null_deref
    | Node_ptr.node _ _ l r =>
      match (if b then r else l) with
      | Node_ptr.NULL => .null_deref
      | Node_ptr.node id f l1 r1 =>
        if l1 = Node_ptr.NULL ∧ r1 = Node_ptr.NULL then
          if id = PSEUDO_EOF then .pseudo_eof out_string
          else decode_bits root bs root (out_string ++ [Fin.ofNat (id % 256).toNat])
        else decode_bits root bs (Node_ptr.node id f l1 r1) out_string

/-- The `while (!in_file.eof())` loop of `decode_huffman` (lines 388-426) and
the final flush, at most `fuel` iterations. `written` is what `out_file` has
received so far. -/
def decode_loop (root : Node_ptr) : Nat → IStream → Byte → Node_ptr → Str → Str → Outcome
  | 0, _, _, _, _, written => ⟨written, .running⟩
  | fuel + 1, in_file, in_char, node, out_string, written =>
    if in_file.eofbit then ⟨written ++ out_string, .finished⟩
    else
      let g := in_file.get in_char
      match decode_bits root (byte_bits g.1) node out_string with
      | .null_deref => ⟨written, .undefined⟩
      | .pseudo_eof out_string1 => ⟨written ++ out_string1, .finished⟩
      | .more node1 out_string1 =>
        if WRITE_BUFF_SIZE < out_string1.length then
          decode_loop root fuel g.2 g.1 node1 [] (written ++ out_string1)
        else decode_loop root fuel g.2 g.1 node1 out_string1 written

/-- `decode_huffman()`. Every iteration but the last two consumes a byte of a
good stream, so `rest.length + 2` iterations are enough unless `failbit` is set
without `eofbit`. The local `in_char` is uninitialised at first; it is read
before being assigned only when the first two `get` calls store nothing. -/
def decode_huffman (root : Node_ptr) (in_file : IStream) : Outcome :=
  let g := in_file.get 0
  decode_loop root (g.2.rest.length + 2) g.2 g.1 root [] []

/-- `decompress()` on an input file with contents `file`. -/
def decompress (file : Str) : Outcome :=
  match rebuild_huffman_tree (IStream.open file) with
  | .error st => ⟨[], st⟩
  | .ok st => decode_huffman st.root st.in_file

/-- The first element of `x :: xs` that `Compare` puts before no other one. -/
def list_top : Node_ptr → List Node_ptr → Node_ptr
  | x, [] => x
  | x, y :: ys => if Compare x y then list_top y ys else list_top x ys

/-- A queue kept as a list: `top` is the earliest-listed element of least
`freq`, `pop` removes it. -/
def ListQueue.top (q : List Node_ptr) : Node_ptr :=
  match q with
  | [] => Node_ptr.NULL
  | x :: xs => list_top x xs

theorem list_top_mem (x : Node_ptr) (xs : List Node_ptr) : list_top x xs ∈ x :: xs := by
  induction xs generalizing x with
  | nil => simp [list_top]
  | cons y ys ih =>
    unfold list_top
    split
    · exact List.mem_cons_of_mem _ (ih y)
    · have h := ih x
      simp only [List.mem_cons] at h ⊢
      rcases h with h | h
      · exact Or.inl h
      · exact Or.inr (Or.inr h)

theorem list_top_freq_le (x : Node_ptr) (xs : List Node_ptr) :
    (list_top x xs).freq ≤ x.freq ∧ ∀ y ∈ xs, (list_top x xs).freq ≤ y.freq := by
  induction xs generalizing x with
  | nil => simp [list_top]
  | cons y ys ih =>
    unfold list_top
    split
    · rename_i h
      have hxy : y.freq < x.freq := by simpa [Compare] using h
      obtain ⟨h1, h2⟩ := ih y
      refine ⟨by omega, ?_⟩
      intro z hz
      simp only [List.mem_cons] at hz
      rcases hz with rfl | hz
      · exact h1
      · exact h2 z hz
    · rename_i h
      have hxy : x.freq ≤ y.freq := by simpa [Compare] using h
      obtain ⟨h1, h2⟩ := ih x
      refine ⟨h1, ?_⟩
      intro z hz
      simp only [List.mem_cons] at hz
      rcases hz with rfl | hz
      · omega
      · exact h2 z hz

/-- The list queue satisfies the laws of `PriorityQueue`. -/
def ListQueue : PriorityQueue where
  Q := List Node_ptr
  init := []
  push q x := x :: q
  top := ListQueue.top
  pop q := q.erase (ListQueue.top q)
  size q := q.length
  contents q := (q : Multiset Node_ptr)
  contents_init := rfl
  contents_push _ _ := rfl
  size_eq _ := rfl
  top_mem q h := by
    cases q with
    | nil => exact absurd rfl h
    | cons x xs => exact Multiset.mem_coe.2 (list_top_mem x xs)
  top_first q y hy := by
    cases q with
    | nil => simp at hy
    | cons x xs =>
      have hy1 : y ∈ x :: xs := Multiset.mem_coe.1 hy
      have h := list_top_freq_le x xs
      simp only [List.mem_cons] at hy1
      have : (list_top x xs).freq ≤ y.freq := by
        rcases hy1 with rfl | hy1
        · exact h.1
        · exact h.2 y hy1
      simp [Compare, ListQueue.top]
      exact this
  contents_pop q _ := (Multiset.coe_erase q (ListQueue.top q)).symm

/-- The value of bit `i` of a code string: 0 for the character `'0'`, 1 otherwise. -/
def bit_at (input : Str) (i : Nat) : Nat := if input.getD i 0 = chr0 then 0 else 1

/-- The byte value of the eight bits that start at position `i`, first bit
most significant. -/
def byte_value (input : Str) (i : Nat) : Nat :=
  ∑ j in Finset.range 8, bit_at input (i + j) * 2 ^ (7 - j)

/-- The number of bytes of `S` with value `i`. -/
def occurrences (S : Str) (i : Nat) : Nat := (S.map Fin.val).count i

/-- The entry of slot `i` in `node_array`, if any, for the counter value `f`. -/
def slot_entry (f : Int) (i : Nat) : Option Node_ptr :=
  if f ≤ 0 then none else some (Node_ptr.leaf i f.toNat)

/-- The byte values that occur in `S`, ascending. -/
def present_bytes (S : Str) : List Nat :=
  (List.range 256).filter (fun i => decide (0 < occurrences S i))

/-- The node made by one iteration of `create_huffman_tree` from the two
extracted nodes. -/
def merge_nodes (first second : Node_ptr) : Node_ptr :=
  Node_ptr.node 0 (wrap_uint (first.freq + second.freq)) first second

/-- The multisets of leaf depths of full binary trees: a single leaf has depth
0; two trees side by side under a new root have all their depths raised by one. -/
inductive TreeDepths : Multiset Nat → Prop where
  | single : TreeDepths {0}
  | join (D1 D2 : Multiset Nat) : TreeDepths D1 → TreeDepths D2 →
      TreeDepths ((D1 + D2).map Nat.succ)

/-- The weighted path length of an assignment of depths to weights: the sum of
`weight * depth` over its (weight, depth) pairs. -/
def wsum (A : Multiset (Nat × Nat)) : Nat := (A.map (fun p => p.1 * p.2)).sum

/-- The deepest depth `h` of a tree with at least two leaves occurs twice, and
replacing two leaves of depth `h` by one of depth `h - 1` gives a tree again. -/
def HasDeepestPair (D : Multiset Nat) : Prop :=
  ∃ h, 1 ≤ h ∧ (∀ d ∈ D, d ≤ h) ∧ h ∈ D ∧ h ∈ D.erase h
    ∧ TreeDepths ((h - 1) ::ₘ (D.erase h).erase h)

/-- `LowerBound W c`: every assignment of the leaf depths of a full binary tree
to the weights `W` has weighted path length at least `c`. -/
def LowerBound (W : Multiset Nat) (c : Nat) : Prop :=
  ∀ A : Multiset (Nat × Nat), A.map Prod.fst = W → TreeDepths (A.map Prod.snd) → c ≤ wsum A

namespace Node_ptr

/-- A full binary tree: not null, and every node is a leaf or has two children
that are full binary trees. -/
def Full : Node_ptr → Prop
  | NULL => False
  | node _ _ l r => (l = NULL ∧ r = NULL) ∨ (Full l ∧ Full r)

/-- The leaf nodes, left to right. -/
def leaves : Node_ptr → List Node_ptr
  | NULL => []
  | node i f l r => if l = NULL ∧ r = NULL then [node i f NULL NULL] else leaves l ++ leaves r

/-- The sum of the `freq` of the leaves. -/
def weight : Node_ptr → Nat
  | NULL => 0
  | node _ f l r => if l = NULL ∧ r = NULL then f else weight l + weight r

/-- The (freq, depth) pair of every leaf. -/
def wdepths : Node_ptr → Multiset (Nat × Nat)
  | NULL => 0
  | node _ f l r =>
    if l = NULL ∧ r = NULL then {(f, 0)}
    else (wdepths l + wdepths r).map (fun p => (p.1, p.2 + 1))

/-- The weighted path length: the sum over the leaves of `freq * depth`. -/
def cost (t : Node_ptr) : Nat := wsum (wdepths t)

/-- Every internal node has a `freq` equal to the sum (as `unsigned int`) of its
children's, and its left child has the smaller or equal `freq`. -/
def MergeOrdered : Node_ptr → Prop
  | NULL => True
  | node _ f l r =>
    (l = NULL ∧ r = NULL)
      ∨ (f = wrap_uint (l.freq + r.freq) ∧ l.freq ≤ r.freq ∧ MergeOrdered l ∧ MergeOrdered r)

end Node_ptr

/-- A node is a leaf made by `new Huffman_node(id, freq)`. -/
def IsLeafNode (t : Node_ptr) : Prop := ∃ i f, t = Node_ptr.leaf i f

/-- Shape invariant of the queue contents: full, merge-ordered trees whose
leaves together are the multiset `L0`. -/
def ShapeInv (L0 : Multiset Node_ptr) (F : Multiset Node_ptr) : Prop :=
  (∀ t ∈ F, t.Full ∧ t.MergeOrdered)
    ∧ (F.map (fun t => (t.leaves : Multiset Node_ptr))).sum = L0

/-- Weight invariant of the queue contents when the total weight fits an
`unsigned int`: every `freq` is the weight of its tree, and a lower bound for
the weights of the queue gives one for the initial weights `W0`. -/
def WeightInv (W0 : Multiset Nat) (F : Multiset Node_ptr) : Prop :=
  (∀ t ∈ F, t.Full ∧ t.freq = t.weight)
    ∧ (F.map Node_ptr.weight).sum = W0.sum
    ∧ ∀ c, LowerBound (F.map Node_ptr.weight) c →
        LowerBound W0 (c + (F.map Node_ptr.cost).sum)

/-- The keys of a table are strictly ascending. -/
def Table.Ascending (t : Table) : Prop := (t.map Prod.fst).Sorted (· < ·)

/-- Assigning a list of entries in order. -/
def Table.assign_all (t : Table) (es : List (Int × Str)) : Table :=
  es.foldl (fun tb e => tb.assign e.1 e.2) t

namespace Node_ptr

/-- The (id, freq, code) of every leaf, left to right, where the code is the
string accumulated by `create_map_table` started with `s`. -/
def leaf_codes : Node_ptr → Str → List (Int × Nat × Str)
  | NULL, _ => []
  | node i f l r, s =>
    if l = NULL ∧ r = NULL then [(i, f, s)]
    else leaf_codes l (s ++ [chr0]) ++ leaf_codes r (s ++ [chr1])

/-- The (id, code) pairs of the leaves. -/
def code_list (t : Node_ptr) (s : Str) : List (Int × Str) :=
  (leaf_codes t s).map (fun e => (e.1, e.2.2))

/-- The (id, freq, path) of every leaf, left to right; the path from the root
has `'0'` for a step to the left child and `'1'` for a step to the right. -/
def leaf_paths : Node_ptr → List (Int × Nat × Str)
  | NULL => []
  | node i f l r =>
    if l = NULL ∧ r = NULL then [(i, f, [])]
    else (leaf_paths l).map (fun e => (e.1, e.2.1, chr0 :: e.2.2))
      ++ (leaf_paths r).map (fun e => (e.1, e.2.1, chr1 :: e.2.2))

/-- Following a string from a node: `'0'` goes to `left`, any other character
to `right`. -/
def walk : Node_ptr → Str → Node_ptr
  | n, [] => n
  | n, c :: cs => walk (if c = chr0 then n.left else n.right) cs

/-- Neither string is a prefix of the other. -/
def Incomparable (a b : Str) : Prop := ¬ a <+: b ∧ ¬ b <+: a

end Node_ptr

/-- The byte values whose counter is positive when the counting loop ends. -/
def counted_bytes (S : Str) : List Nat :=
  (List.range 256).filter (fun i => decide (0 < wrap_int (occurrences S i)))

/-- The value of `root` after `create_pq` and `create_huffman_tree`. -/
def huffman_root (P : PriorityQueue) (S : Str) : Node_ptr :=
  create_huffman_tree P (create_pq P (create_node_array S))

/-- The value of `table` after `calculate_huffman_codes`. -/
def code_table (P : PriorityQueue) (S : Str) : Table :=
  Table.assign_all [] ((huffman_root P S).code_list [])

/-- A bit string padded on the right with `'0'` to a multiple of 8. -/
def pad_bits (B : Str) : Str := B ++ List.replicate ((8 - B.length % 8) % 8) chr0

/-- Packing, most significant bit first, of the complete groups of 8. -/
def pack_groups (X : Str) : Str := (List.range (X.length / 8)).map (fun k => pack_byte X (8 * k))

/-- The value of the first `r` bits of group `k`, placed from the most
significant bit of a byte on. -/
def partial_value (X : Str) (k r : Nat) : Nat :=
  ∑ j in Finset.range r, bit_at X (8 * k + j) * 2 ^ (7 - j)

/-- The step of the tail loop of `do_compress`. -/
def tail_step (code : Str) (st : Nat × Str) (i : Nat) : Nat × Str :=
  let tmp_c := if code.getD i 0 = chr0 then 0 else 1
  let out_c := (st.1 + tmp_c <<< (7 - i % 8)) % 256
  if (i + 1) % 8 = 0 ∨ i = code.length - 1 then (0, st.2 ++ [Fin.ofNat out_c])
  else (out_c, st.2)

/-- The bytes of the first `m` complete groups. -/
def group_bytes (X : Str) (m : Nat) : Str :=
  (List.range m).map (fun k => (Fin.ofNat (partial_value X k 8) : Byte))

/-- The codes of the bytes of `S`, one after the other. -/
def bit_string (table : Table) (S : Str) : Str :=
  (S.map (fun c => (table.find c.val).getD [])).flatten

/-- The whole bit string that `do_compress` packs: the codes of the bytes of
`S`, then the code of the pseudo-EOF. -/
def full_bit_string (table : Table) (S : Str) : Str :=
  bit_string table S ++ (table.find PSEUDO_EOF).getD []

/-- The bits of a code string: `'0'` is the bit 0, any other character the bit 1. -/
def code_bits (code : Str) : List Bool := code.map (fun c => decide (c ≠ chr0))

/-- The byte written for a leaf id: `(char)node->id`. -/
def id_byte (id : Int) : Byte := Fin.ofNat (id % 256).toNat

/-- Putting `pre` in front of the output of a result. -/
def BitsResult.prepend (pre : Str) : BitsResult → BitsResult
  | .more n o => .more n (pre ++ o)
  | .pseudo_eof o => .pseudo_eof (pre ++ o)
  | .null_deref => .null_deref

/-- `root` decodes the code that `table` gives to `k`: the code is not empty and
leads from the root to a leaf with identifier `k`. -/
def Decodes (root : Node_ptr) (table : Table) (k : Int) : Prop :=
  ∃ code f, table.find k = some code ∧ code ≠ []
    ∧ root.walk code = Node_ptr.node k f Node_ptr.NULL Node_ptr.NULL

/-- A string of `'0'` and `'1'` characters. -/
def Binary (p : Str) : Prop := ∀ c ∈ p, c = chr0 ∨ c = chr1

namespace Node_ptr

/-- The `id` and `freq` of a node, `none` for the null pointer. -/
def label : Node_ptr → Option (Int × Nat)
  | NULL => none
  | node i f _ _ => some (i, f)

/-- The node exists and has no child. -/
def ShapedLeaf (n : Node_ptr) : Prop := ∃ i f, n = node i f NULL NULL

end Node_ptr

/-- The labels of the tree after a successful insertion of `rem` below `n`:
the new leaf, the nodes on the way (kept, or new with label `(0, 0)`), and
everything else unchanged. -/
def inserted_label (n : Node_ptr) (rem : Str) (id : Int) (q : Str) : Option (Int × Nat) :=
  if q = rem then some (id, 0)
  else if q <+: rem then (if n.walk q = Node_ptr.NULL then some (0, 0) else (n.walk q).label)
  else (n.walk q).label

/-- The insertion of `rem` below `n` is not blocked: nothing is at `rem` yet, and
no node strictly between is a leaf. -/
def Insertable (n : Node_ptr) (rem : Str) : Prop :=
  n.walk rem = Node_ptr.NULL
    ∧ ∀ p, p <+: rem → p ≠ [] → p ≠ rem → ¬ (n.walk p).ShapedLeaf

/-- The loop of `rebuild_huffman_tree` over code lines already read. -/
def rebuild_lines : List (Int × Str) → Node_ptr → Table → Except Status (Node_ptr × Table)
  | [], root, table => .ok (root, table)
  | e :: es, root, table =>
    match rebuild_walk e.1 e.2 e.2 root table with
    | .error st => .error st
    | .ok (root1, table1) => rebuild_lines es root1 table1

/-- No code of the list is a prefix of, or equal to, the code at another
position. -/
def PrefixFree (L : List (Int × Str)) : Prop :=
  L.Pairwise (fun e1 e2 => Node_ptr.Incomparable e1.2 e2.2)

/-- Every code of the list is a non-empty string of `'0'` and `'1'`. -/
def BinaryCodes (L : List (Int × Str)) : Prop := ∀ e ∈ L, e.2 ≠ [] ∧ Binary e.2

/-- The labels of the empty tree `root = new Huffman_node()`. -/
def root_label (q : Str) : Option (Int × Nat) := if q = [] then some (0, 0) else none

/-- The change of the labels made by inserting one line. -/
def label_step (lab : Str → Option (Int × Nat)) (e : Int × Str) : Str → Option (Int × Nat) :=
  fun q =>
    if q = e.2 then some (e.1, 0)
    else if q <+: e.2 then (if lab q = none then some (0, 0) else lab q)
    else lab q

/-- The labels of the tree after inserting the lines `L` in order. -/
def labels_after (L : List (Int × Str)) : Str → Option (Int × Nat) :=
  L.foldl label_step root_label

/-- `T` is the tree whose labels are those of the lines `L`. -/
def TrieInv (T : Node_ptr) (L : List (Int × Str)) : Prop :=
  T ≠ Node_ptr.NULL ∧ ∀ q, Binary q → (T.walk q).label = labels_after L q

/-- A header line that reads back as written: an identifier that fits an `int`
(from `INT_MIN` to `INT_MAX`) and a non-empty code without whitespace. -/
def ValidLine (e : Int × Str) : Prop :=
  INT_MIN ≤ e.1 ∧ e.1 ≤ INT_MAX ∧ e.2 ≠ [] ∧ ∀ c ∈ e.2, isspace c = false

namespace Node_ptr

/-- Every node with a child has `id` 0 (it was made by `new Huffman_node()`). -/
def ZeroInternal : Node_ptr → Prop
  | NULL => True
  | node i _ l r => (l = NULL ∧ r = NULL) ∨ (i = 0 ∧ ZeroInternal l ∧ ZeroInternal r)

/-- Every node with children has a `freq` equal to the sum of its two
children's `freq`. -/
def ExactSums : Node_ptr → Prop
  | NULL => True
  | node _ f l r => (l = NULL ∧ r = NULL) ∨ (f = l.freq + r.freq ∧ ExactSums l ∧ ExactSums r)

/-- Every node with children has a left child whose `freq` is at most the
`freq` of its right child. -/
def LeftLighter : Node_ptr → Prop
  | NULL => True
  | node _ _ l r => (l = NULL ∧ r = NULL) ∨ (l.freq ≤ r.freq ∧ LeftLighter l ∧ LeftLighter r)

end Node_ptr

/-- Invariant: internal nodes have `id` 0. -/
def ZeroInv (F : Multiset Node_ptr) : Prop := ∀ t ∈ F, t.ZeroInternal

/-- Invariant when the weights add up to less than `2^32`: no sum wraps. -/
def SumInv (W0 : Nat) (F : Multiset Node_ptr) : Prop :=
  (∀ t ∈ F, t.Full ∧ t.freq = t.weight ∧ t.ExactSums) ∧ (F.map Node_ptr.weight).sum = W0

namespace Node_ptr

/-- The same tree with every `freq` set to 0, the value `rebuild_huffman_tree`
leaves in the nodes it makes. -/
def erase_freq : Node_ptr → Node_ptr
  | NULL => NULL
  | node i _ l r => node i 0 (erase_freq l) (erase_freq r)

/-- A node with two children that are full binary trees. -/
def Inner (n : Node_ptr) : Prop := ∃ i f l r, n = node i f l r ∧ l.Full ∧ r.Full

end Node_ptr

/-- The header written when only the pseudo-EOF has an entry: `"1\n256 \n"`. -/
def sentinel_header : Str := [49, 10, 50, 53, 54, 32, 10]

namespace Node_ptr

/-- The weighted path length read off the codes: the sum over the leaves of
`freq` times the length of the leaf's code. -/
def wpl (t : Node_ptr) : Nat := ((leaf_paths t).map (fun e => e.2.1 * e.2.2.length)).sum

/-- The tree without its nodes that have one child only. -/
def contract : Node_ptr → Node_ptr
  | NULL => NULL
  | node i f l r =>
    if l = NULL then (if r = NULL then node i f NULL NULL else contract r)
    else if r = NULL then contract l else node i f (contract l) (contract r)

end Node_ptr

/-- The sum over the entries of `count * length(code)`, the code looked up in
`table` (the empty string when the symbol has no code). -/
def table_cost (entries : List (Int × Nat)) (table : Table) : Nat :=
  (entries.map (fun e => e.2 * ((table.find e.1).getD []).length)).sum

/-- The leaf nodes `new Huffman_node(symbol, count)` of a list of entries. -/
def entry_nodes (entries : List (Int × Nat)) : List Node_ptr :=
  entries.map (fun e => Node_ptr.leaf e.1 e.2)

deriving instance DecidableEq for Except

/-- The nine binary digits of `i`, most significant first. -/
def nine_bits (i : Nat) : Str :=
  (List.range 9).map (fun j => if i.testBit (8 - j) then chr1 else chr0)

/-- A list of `n` header lines with nine-digit codes: line `i` gives the symbol
`i mod 257` the nine binary digits of `i`. -/
def nine_bit_lines (n : Nat) : List (Int × Str) :=
  (List.range n).map (fun i => (((i % 257 : Nat) : Int), nine_bits i))

/-- Seven byte values with about `2^30` and `2^31 - 1` occurrences, and the
pseudo-EOF: the entries of `node_array` for `big_input`. -/
def big_entries : List (Int × Nat) :=
  [(0, 1073741824), (1, 1073741834), (2, 1073741844), (3, 1073741854), (4, 1073741864),
   (5, 1073741874), (6, 2147483647), (256, 1)]

/-- An input of 8589934741 bytes in which no byte value occurs `2^31` times. -/
def big_input : Str :=
  List.replicate 1073741824 0 ++ (List.replicate 1073741834 1 ++ (List.replicate 1073741844 2
    ++ (List.replicate 1073741854 3 ++ (List.replicate 1073741864 4
    ++ (List.replicate 1073741874 5 ++ List.replicate 2147483647 6)))))

/-- How often the byte value `i` occurs in `big_input`. -/
def big_count (i : Nat) : Nat :=
  (if 0 = i then 1073741824 else 0) + ((if 1 = i then 1073741834 else 0)
    + ((if 2 = i then 1073741844 else 0) + ((if 3 = i then 1073741854 else 0)
    + ((if 4 = i then 1073741864 else 0) + ((if 5 = i then 1073741874 else 0)
    + (if 6 = i then 2147483647 else 0))))))

/-- A tree of depth 3 with the leaves of `big_entries`, left to right. -/
def balanced_tree : Node_ptr :=
  .node 0 0
    (.node 0 0 (.node 0 0 (.leaf 0 1073741824) (.leaf 1 1073741834))
               (.node 0 0 (.leaf 2 1073741844) (.leaf 3 1073741854)))
    (.node 0 0 (.node 0 0 (.leaf 4 1073741864) (.leaf 5 1073741874))
               (.node 0 0 (.leaf 6 2147483647) (.leaf 256 1)))

instance : DecidablePred BinaryCodes := fun L => by
  unfold BinaryCodes Binary
  infer_instance

instance : DecidablePred PrefixFree := fun L => by
  unfold PrefixFree Node_ptr.Incomparable
  infer_instance

instance (e : Int × Str) : Decidable (ValidLine e) := by
  unfold ValidLine
  infer_instance

/-- The tree left in `root` for a collection of (symbol, count) entries: the
entries become leaf nodes, are pushed into the queue, and merged. -/
def huffman_tree_of (P : PriorityQueue) (entries : List (Int × Nat)) : Node_ptr :=
  create_huffman_tree P (create_pq P (entry_nodes entries))

/-- The count of a symbol of the code table of `S`: 1 for the pseudo-EOF 256,
the number of occurrences in `S` for a byte value. -/
def symbol_count (S : Str) (k : Int) : Nat :=
  if k = 256 then 1 else (S.map Fin.val).count k.toNat

/-- One-shot packing as the specification words it: the bit string is padded on
the right with `'0'` bits to a multiple of 8 (a position past its end reads as
`'0'`), and group `k` of 8 bits is one byte, first bit most significant. -/
def one_shot_pack (B : Str) : Str :=
  (List.range ((B.length + 7) / 8)).map (fun k =>
    Fin.ofNat (((List.range 8).map
      (fun j => (if B.getD (8 * k + j) chr0 = chr0 then 0 else 1) * 2 ^ (7 - j))).sum))

end Huffman

/-! ## Theorems -/

namespace Huffman

theorem bit_at_le_one (input : Str) (i : Nat) : bit_at input i ≤ 1 := by
  unfold bit_at; split <;> omega

theorem fold_bits_eq (t : Nat → Nat) (ht : ∀ j, t j ≤ 1) :
    (List.range 8).foldl (fun out_ j => (out_ + t j <<< (7 - j)) % 256) 0
      = ∑ j in Finset.range 8, t j * 2 ^ (7 - j) := by
  have h0 := ht 0
  have h1 := ht 1
  have h2 := ht 2
  have h3 := ht 3
  have h4 := ht 4
  have h5 := ht 5
  have h6 := ht 6
  have h7 := ht 7
  have hr : List.range 8 = [0, 1, 2, 3, 4, 5, 6, 7] := by decide
  rw [hr]
  simp only [List.foldl_cons, List.foldl_nil, Finset.sum_range_succ, Finset.sum_range_zero,
    Nat.shiftLeft_eq]
  norm_num
  omega

theorem byte_value_lt (input : Str) (i : Nat) : byte_value input i < 256 := by
  unfold byte_value
  have h0 := bit_at_le_one input i
  have h1 := bit_at_le_one input (i + 1)
  have h2 := bit_at_le_one input (i + 2)
  have h3 := bit_at_le_one input (i + 3)
  have h4 := bit_at_le_one input (i + 4)
  have h5 := bit_at_le_one input (i + 5)
  have h6 := bit_at_le_one input (i + 6)
  have h7 := bit_at_le_one input (i + 7)
  simp only [Finset.sum_range_succ, Finset.sum_range_zero]
  norm_num
  omega

theorem pack_byte_val (input : Str) (i : Nat) : (pack_byte input i).val = byte_value input i := by
  have h := fold_bits_eq (fun j => bit_at input (i + j)) (fun j => bit_at_le_one input (i + j))
  have hlt := byte_value_lt input i
  unfold pack_byte
  simp only [bit_at] at h
  rw [h]
  show (∑ j in Finset.range 8, bit_at input (i + j) * 2 ^ (7 - j)) % 256 = byte_value input i
  unfold byte_value at hlt ⊢
  exact Nat.mod_eq_of_lt hlt

/-- The closed form of the outer loop of `uchar_to_binary`. -/
theorem uchar_to_binary_loop_eq (input : Str) (length : Nat) :
    ∀ (fuel i : Nat) (out : Str) (flag : Nat), (length - i) / 8 ≤ fuel →
      uchar_to_binary_loop input length fuel i out flag
        = (out ++ (List.range ((length - i) / 8)).map (fun k => pack_byte input (i + 8 * k)),
           if i + 7 < length then i + 8 * ((length - i) / 8) else flag) := by
  intro fuel
  induction fuel with
  | zero =>
    intro i out flag h
    have h0 : (length - i) / 8 = 0 := by omega
    have hlt : ¬ (i + 7 < length) := by omega
    simp [uchar_to_binary_loop, h0, hlt]
  | succ n ih =>
    intro i out flag h
    unfold uchar_to_binary_loop
    by_cases hlt : i + 7 < length
    · have hq : (length - i) / 8 = (length - (i + 8)) / 8 + 1 := by omega
      rw [if_pos hlt, ih (i + 8) _ _ (by omega), if_pos hlt, hq, List.range_succ_eq_map]
      simp only [List.map_cons, List.map_map, List.append_assoc, List.singleton_append,
        Nat.mul_zero, Nat.add_zero]
      refine Prod.ext ?_ ?_
      · simp only
        congr 2
        apply List.map_congr_left
        intro k _
        simp only [Function.comp]
        congr 1
        omega
      · simp only
        split <;> omega
    · have h0 : (length - i) / 8 = 0 := by omega
      simp [hlt, h0]

theorem uchar_to_binary_eq (input : Str) (length : Nat) (flag : Nat) :
    uchar_to_binary input length flag
      = ((List.range (length / 8)).map (fun k => pack_byte input (8 * k)),
         if 7 < length then 8 * (length / 8) else flag) := by
  unfold uchar_to_binary
  rw [uchar_to_binary_loop_eq input length length 0 [] flag (by omega)]
  simp

theorem bit_at_binary (input : Str) (h : ∀ c ∈ input, c = chr0 ∨ c = chr1) (i : Nat)
    (hi : i < input.length) :
    bit_at input i = if input.getD i 0 = chr1 then 1 else 0 := by
  have hm : input.getD i 0 ∈ input := by
    rw [List.getD_eq_getElem input 0 hi]
    exact List.getElem_mem hi
  unfold bit_at
  rcases h _ hm with h0 | h1
  · rw [h0]; decide
  · rw [h1]; decide

/-- C10. Bit packing, most significant bit first: for a string of `'0'`/`'1'`
characters of length `L`, `uchar_to_binary` called with `length = L` and
`flag = 0` returns `L / 8` bytes, byte `k` has the value
`sum over j < 8 of bit(8k+j) * 2^(7-j)`, `flag` becomes `8 * (L / 8)`, and the
remainder `code.substr(flag, length - flag)` kept by the caller is the last
`L mod 8` characters, fewer than 8. -/
theorem C10_uchar_to_binary_msb_first (input : Str)
    (h : ∀ c ∈ input, c = chr0 ∨ c = chr1) :
    (uchar_to_binary input input.length 0).1.length = input.length / 8
    ∧ (∀ k, k < input.length / 8 →
        ((uchar_to_binary input input.length 0).1.getD k 0).val
          = ∑ j in Finset.range 8,
              (if input.getD (8 * k + j) 0 = chr1 then 1 else 0) * 2 ^ (7 - j))
    ∧ (uchar_to_binary input input.length 0).2 = 8 * (input.length / 8)
    ∧ (input.drop (uchar_to_binary input input.length 0).2).take
          (input.length - (uchar_to_binary input input.length 0).2)
        = input.drop (input.length - input.length % 8)
    ∧ ((input.drop (uchar_to_binary input input.length 0).2).take
          (input.length - (uchar_to_binary input input.length 0).2)).length
        = input.length % 8
    ∧ input.length % 8 < 8 := by
  rw [uchar_to_binary_eq]
  have hflag : (if 7 < input.length then 8 * (input.length / 8) else 0) = 8 * (input.length / 8) := by
    split <;> omega
  simp only [hflag, List.length_map, List.length_range]
  have hsub : input.length - input.length % 8 = 8 * (input.length / 8) := by omega
  refine ⟨trivial, ?_, trivial, ?_, ?_, by omega⟩
  · intro k hk
    rw [List.getD_eq_getElem _ 0 (by simpa using hk)]
    simp only [List.getElem_map, List.getElem_range]
    rw [pack_byte_val, byte_value]
    apply Finset.sum_congr rfl
    intro j hj
    rw [bit_at_binary input h (8 * k + j) (by have := Finset.mem_range.1 hj; omega)]
  · rw [hsub, List.take_of_length_le]
    simp
  · simp only [List.length_take, List.length_drop]
    omega

set_option maxRecDepth 100000 in
theorem C10_witness :
    (∀ c ∈ ([49, 48, 48, 48, 48, 48, 48, 49, 49, 48] : Str), c = chr0 ∨ c = chr1)
    ∧ (uchar_to_binary ([49, 48, 48, 48, 48, 48, 48, 49, 49, 48] : Str) 10 0).1.length = 10 / 8
    ∧ (uchar_to_binary ([49, 48, 48, 48, 48, 48, 48, 49, 49, 48] : Str) 10 0).2 = 8 :=
  ⟨by decide,
   (C10_uchar_to_binary_msb_first [49, 48, 48, 48, 48, 48, 48, 49, 49, 48] (by decide)).1,
   (C10_uchar_to_binary_msb_first [49, 48, 48, 48, 48, 48, 48, 49, 49, 48] (by decide)).2.2.1⟩

theorem wrap_int_succ (x : Int) : wrap_int (wrap_int x + 1) = wrap_int (x + 1) := by
  unfold wrap_int; omega

theorem wrap_int_of_small (x : Int) (h0 : 0 ≤ x) (h1 : x < 2147483648) : wrap_int x = x := by
  unfold wrap_int; omega

theorem count_freq_step_length (S : Str) (freq : List Int) :
    (S.foldl (fun freq c => freq.set c.val (wrap_int (freq.getD c.val 0 + 1))) freq).length
      = freq.length := by
  induction S generalizing freq with
  | nil => rfl
  | cons c S ih => rw [List.foldl_cons, ih, List.length_set]

theorem count_freq_step_getD (S : Str) (freq : List Int) (hlen : 256 ≤ freq.length) (i : Nat)
    (n : Nat) (hn : freq.getD i 0 = wrap_int n) :
    (S.foldl (fun freq c => freq.set c.val (wrap_int (freq.getD c.val 0 + 1))) freq).getD i 0
      = wrap_int ((n + occurrences S i : Nat) : Int) := by
  induction S generalizing freq n with
  | nil =>
    rw [List.foldl_nil, hn]
    simp [occurrences]
  | cons c S ih =>
    rw [List.foldl_cons]
    have hc : c.val < freq.length := by have := c.isLt; omega
    by_cases hci : c.val = i
    · have h1 : (freq.set c.val (wrap_int (freq.getD c.val 0 + 1))).getD i 0
          = wrap_int ((n + 1 : Nat) : Int) := by
        subst hci
        rw [List.getD_eq_getElem _ 0 (by rw [List.length_set]; exact hc)]
        rw [List.getElem_set_self, hn, wrap_int_succ]
        norm_cast
      rw [ih _ (by rw [List.length_set]; exact hlen) (n + 1) h1]
      congr 2
      simp only [occurrences, List.map_cons, List.count_cons, hci, beq_self_eq_true, if_true]
      omega
    · have h1 : (freq.set c.val (wrap_int (freq.getD c.val 0 + 1))).getD i 0 = wrap_int n := by
        rw [← hn]
        simp only [List.getD_eq_getElem?_getD]
        rw [List.getElem?_set_ne hci]
      rw [ih _ (by rw [List.length_set]; exact hlen) n h1]
      congr 2
      have hne : (c.val == i) = false := by simpa using hci
      simp only [occurrences, List.map_cons, List.count_cons, hne]
      simp

theorem count_freq_length (S : Str) : (count_freq S).length = MAX_SIZE := by
  unfold count_freq
  rw [count_freq_step_length, List.length_replicate]

theorem wrap_int_zero : wrap_int 0 = 0 := by decide

theorem replicate_getD_zero (n i : Nat) : (List.replicate n (0 : Int)).getD i 0 = 0 := by
  by_cases hi : i < n
  · rw [List.getD_eq_getElem _ 0 (by rw [List.length_replicate]; exact hi), List.getElem_replicate]
  · rw [List.getD_eq_default _ 0 (by rw [List.length_replicate]; omega)]

theorem count_freq_getD (S : Str) (i : Nat) :
    (count_freq S).getD i 0 = wrap_int (occurrences S i) := by
  unfold count_freq
  have hlen : 256 ≤ (List.replicate MAX_SIZE (0 : Int)).length := by
    rw [List.length_replicate]; decide
  have h := count_freq_step_getD S (List.replicate MAX_SIZE 0) hlen i 0
    (by rw [replicate_getD_zero]; exact wrap_int_zero.symm)
  rw [h, Nat.zero_add]

theorem occurrences_eq_zero_of_ge (S : Str) (i : Nat) (hi : 256 ≤ i) : occurrences S i = 0 := by
  unfold occurrences
  rw [List.count_eq_zero]
  intro h
  obtain ⟨b, _, hb⟩ := List.mem_map.1 h
  have := b.isLt
  omega

theorem collect_nodes_fold (freq : List Int) (l : List Nat) (acc : List Node_ptr) :
    l.foldl (fun node_array i =>
        if freq.getD i 0 ≤ 0 then node_array
        else node_array ++ [Node_ptr.leaf i (freq.getD i 0).toNat]) acc
      = acc ++ l.filterMap (fun i =>
          if freq.getD i 0 ≤ 0 then none else some (Node_ptr.leaf i (freq.getD i 0).toNat)) := by
  induction l generalizing acc with
  | nil => simp
  | cons i l ih =>
    rw [List.foldl_cons, ih]
    by_cases h : freq.getD i 0 ≤ 0
    · rw [if_pos h, List.filterMap_cons, if_pos h]
    · rw [if_neg h, List.filterMap_cons, if_neg h, List.append_assoc, List.singleton_append]

theorem create_node_array_eq (S : Str) :
    create_node_array S
      = (List.range MAX_SIZE).filterMap (fun i => slot_entry (wrap_int (occurrences S i)) i)
        ++ [Node_ptr.leaf PSEUDO_EOF 1] := by
  unfold create_node_array collect_nodes
  rw [collect_nodes_fold, List.nil_append]
  simp only [count_freq_getD, slot_entry]

theorem filterMap_none {α β : Type} (f : α → Option β) (l : List α)
    (h : ∀ i ∈ l, f i = none) : l.filterMap f = [] := by
  induction l with
  | nil => rfl
  | cons a l ih =>
    rw [List.filterMap_cons, h a (List.mem_cons_self a l)]
    exact ih (fun i hi => h i (List.mem_cons_of_mem a hi))

theorem filterMap_range_add {β : Type} (f : Nat → Option β) (n k : Nat)
    (h : ∀ i, n ≤ i → f i = none) :
    (List.range (n + k)).filterMap f = (List.range n).filterMap f := by
  induction k with
  | zero => rfl
  | succ k ih =>
    rw [← Nat.add_assoc, List.range_succ, List.filterMap_append, ih]
    simp [h (n + k) (by omega)]

theorem filterMap_eq_filter_map {α β : Type} (f : α → Option β) (p : α → Bool) (g : α → β)
    (l : List α) (h : ∀ i ∈ l, f i = if p i then some (g i) else none) :
    l.filterMap f = (l.filter p).map g := by
  induction l with
  | nil => rfl
  | cons a l ih =>
    rw [List.filterMap_cons, h a (List.mem_cons_self a l), List.filter_cons]
    have ih' := ih (fun i hi => h i (List.mem_cons_of_mem a hi))
    cases hp : p a
    · simpa using ih'
    · simpa using ih'

theorem slot_entry_of_nonpos (f : Int) (i : Nat) (h : f ≤ 0) : slot_entry f i = none := by
  unfold slot_entry; rw [if_pos h]

/-- Closed form of `create_node_array` when no counter overflows. -/
theorem create_node_array_of_bounded (S : Str) (hb : ∀ i, occurrences S i < 2147483648) :
    create_node_array S
      = (present_bytes S).map (fun (i : Nat) => Node_ptr.leaf (i : Int) (occurrences S i))
        ++ [Node_ptr.leaf PSEUDO_EOF 1] := by
  rw [create_node_array_eq]
  refine congrArg (fun l => l ++ [Node_ptr.leaf PSEUDO_EOF 1]) ?_
  have h270 : MAX_SIZE = 256 + 14 := by unfold MAX_SIZE; norm_num
  rw [h270, filterMap_range_add]
  · apply filterMap_eq_filter_map
    intro i _
    have hw := wrap_int_of_small (occurrences S i) (by omega) (by have := hb i; omega)
    rw [hw]
    unfold slot_entry
    by_cases h0 : occurrences S i = 0
    · simp [h0]
    · have : 0 < occurrences S i := Nat.pos_of_ne_zero h0
      simp [this]
      omega
  · intro i hi
    rw [occurrences_eq_zero_of_ge S i hi]
    rfl

theorem mem_present_bytes (S : Str) (i : Nat) :
    i ∈ present_bytes S ↔ ∃ b ∈ S, b.val = i := by
  unfold present_bytes occurrences
  rw [List.mem_filter, List.mem_range, decide_eq_true_iff, List.count_pos_iff, List.mem_map]
  constructor
  · rintro ⟨_, b, hb, rfl⟩
    exact ⟨b, hb, rfl⟩
  · rintro ⟨b, hb, rfl⟩
    exact ⟨b.isLt, b, hb, rfl⟩

theorem present_bytes_nodup (S : Str) : (present_bytes S).Nodup :=
  List.Nodup.filter _ (List.nodup_range 256)

theorem present_bytes_sorted (S : Str) : (present_bytes S).Sorted (· < ·) :=
  List.Sorted.filter _ (List.sorted_lt_range 256)

theorem present_bytes_length (S : Str) : (present_bytes S).length = S.toFinset.card := by
  have h1 : (present_bytes S).toFinset = S.toFinset.image Fin.val := by
    ext i
    rw [List.mem_toFinset, mem_present_bytes, Finset.mem_image]
    simp only [List.mem_toFinset]
  rw [← List.toFinset_card_of_nodup (present_bytes_nodup S), h1,
    Finset.card_image_of_injective _ Fin.val_injective]

theorem present_bytes_length_le (S : Str) : (present_bytes S).length ≤ 256 := by
  unfold present_bytes
  calc ((List.range 256).filter _).length ≤ (List.range 256).length := List.length_filter_le _ _
    _ = 256 := List.length_range 256

theorem occurrences_replicate (n : Nat) (b : Byte) (i : Nat) :
    occurrences (List.replicate n b) i = if b.val = i then n else 0 := by
  unfold occurrences
  rw [List.map_replicate, List.count_replicate]
  by_cases h : b.val = i <;> simp [h]

/-- The node array for `n = 2^31` copies of one byte: the counter of that byte
has wrapped to `INT_MIN`, so only the pseudo-EOF entry is there. -/
theorem create_node_array_overflow (b : Byte) :
    create_node_array (List.replicate 2147483648 b) = [Node_ptr.leaf PSEUDO_EOF 1] := by
  rw [create_node_array_eq, filterMap_none]
  · rfl
  · intro i _
    rw [occurrences_replicate]
    by_cases h : b.val = i
    · rw [if_pos h]; exact slot_entry_of_nonpos _ _ (by decide)
    · rw [if_neg h]; exact slot_entry_of_nonpos _ _ (by decide)

theorem compare_false_iff (a y : Node_ptr) : Compare a y = false ↔ a.freq ≤ y.freq := by
  unfold Compare
  rw [decide_eq_false_iff_not]
  omega

theorem pq_isEmpty_iff (P : PriorityQueue) (q : P.Q) :
    P.isEmpty q = true ↔ P.contents q = 0 := by
  unfold PriorityQueue.isEmpty
  rw [decide_eq_true_iff, P.size_eq, Multiset.card_eq_zero]

/-- Invariant rule for `create_huffman_tree`: a property of the queue contents
that holds at the start and is kept by every merge of a least element `a` with
a least element `b` of the rest, holds for the singleton of the returned
root. -/
theorem create_huffman_tree_loop_rule (P : PriorityQueue) (Inv : Multiset Node_ptr → Prop)
    (hstep : ∀ (F : Multiset Node_ptr) (a b : Node_ptr), Inv F → a ∈ F →
      (∀ y ∈ F, a.freq ≤ y.freq) → b ∈ F.erase a → (∀ y ∈ F.erase a, b.freq ≤ y.freq) →
      Inv (merge_nodes a b ::ₘ (F.erase a).erase b)) :
    ∀ (fuel : Nat) (q : P.Q) (root : Node_ptr), P.contents q ≠ 0 →
      Multiset.card (P.contents q) ≤ fuel → Inv (P.contents q) →
      Inv {create_huffman_tree_loop P fuel q root} := by
  intro fuel
  induction fuel with
  | zero =>
    intro q root hne hcard _
    exact absurd (Multiset.card_eq_zero.1 (Nat.le_zero.1 hcard)) hne
  | succ n ih =>
    intro q root hne hcard hinv
    have he : P.isEmpty q = false := by
      rw [Bool.eq_false_iff, Ne, pq_isEmpty_iff]; exact hne
    have htop := P.top_mem q hne
    have hpop := P.contents_pop q hne
    unfold create_huffman_tree_loop
    simp only [he, Bool.false_eq_true, if_false]
    by_cases he1 : P.isEmpty (P.pop q) = true
    · simp only [he1, if_true]
      have h0 : (P.contents q).erase (P.top q) = 0 := by
        rw [← hpop]; exact (pq_isEmpty_iff P _).1 he1
      have hq : P.contents q = {P.top q} := by
        have := Multiset.cons_erase htop
        rw [h0] at this
        exact this.symm
      rw [← hq]; exact hinv
    · simp only [he1, Bool.false_eq_true, if_false]
      have hne1 : P.contents (P.pop q) ≠ 0 := fun h => he1 ((pq_isEmpty_iff P _).2 h)
      have htop1 := P.top_mem (P.pop q) hne1
      have hpop1 := P.contents_pop (P.pop q) hne1
      have hc : P.contents (P.push (P.pop (P.pop q)) (merge_nodes (P.top q) (P.top (P.pop q))))
          = merge_nodes (P.top q) (P.top (P.pop q))
              ::ₘ ((P.contents q).erase (P.top q)).erase (P.top (P.pop q)) := by
        rw [P.contents_push, hpop1, hpop]
      have hcard1 : Multiset.card (P.contents (P.pop q)) + 1 = Multiset.card (P.contents q) := by
        rw [hpop, Multiset.card_erase_of_mem htop, Nat.pred_eq_sub_one]
        have : 0 < Multiset.card (P.contents q) := Multiset.card_pos.2 hne
        omega
      have hcard2 : Multiset.card (P.contents (P.pop (P.pop q))) + 1
          = Multiset.card (P.contents (P.pop q)) := by
        rw [hpop1, Multiset.card_erase_of_mem htop1, Nat.pred_eq_sub_one]
        have : 0 < Multiset.card (P.contents (P.pop q)) := Multiset.card_pos.2 hne1
        omega
      change Inv {create_huffman_tree_loop P n
        (P.push (P.pop (P.pop q)) (merge_nodes (P.top q) (P.top (P.pop q)))) root}
      apply ih
      · rw [hc]; exact Multiset.cons_ne_zero
      · rw [P.contents_push, Multiset.card_cons]; omega
      · rw [hc]
        apply hstep _ _ _ hinv htop
        · intro y hy
          exact (compare_false_iff _ _).1 (P.top_first q y hy)
        · rw [← hpop]; exact htop1
        · intro y hy
          rw [← hpop] at hy
          exact (compare_false_iff _ _).1 (P.top_first (P.pop q) y hy)

theorem create_huffman_tree_rule (P : PriorityQueue) (Inv : Multiset Node_ptr → Prop)
    (hstep : ∀ (F : Multiset Node_ptr) (a b : Node_ptr), Inv F → a ∈ F →
      (∀ y ∈ F, a.freq ≤ y.freq) → b ∈ F.erase a → (∀ y ∈ F.erase a, b.freq ≤ y.freq) →
      Inv (merge_nodes a b ::ₘ (F.erase a).erase b))
    (q : P.Q) (hne : P.contents q ≠ 0) (hinv : Inv (P.contents q)) :
    Inv {create_huffman_tree P q} := by
  unfold create_huffman_tree
  exact create_huffman_tree_loop_rule P Inv hstep _ q _ hne (by rw [P.size_eq]; omega) hinv

theorem create_huffman_tree_of_empty (P : PriorityQueue) (q : P.Q) (h : P.contents q = 0) :
    create_huffman_tree P q = Node_ptr.NULL := by
  unfold create_huffman_tree create_huffman_tree_loop
  rw [if_pos ((pq_isEmpty_iff P q).2 h)]

theorem create_pq_contents (P : PriorityQueue) (node_array : List Node_ptr) :
    P.contents (create_pq P node_array) = (node_array : Multiset Node_ptr) := by
  unfold create_pq
  have h : ∀ (l : List Node_ptr) (q : P.Q),
      P.contents (l.foldl P.push q) = (l : Multiset Node_ptr) + P.contents q := by
    intro l
    induction l with
    | nil => intro q; simp
    | cons x l ih =>
      intro q
      rw [List.foldl_cons, ih, P.contents_push, ← Multiset.cons_coe]
      simp only [Multiset.cons_add, Multiset.add_cons]
  rw [h, P.contents_init, add_zero]

theorem wsum_cons (p : Nat × Nat) (A : Multiset (Nat × Nat)) :
    wsum (p ::ₘ A) = p.1 * p.2 + wsum A := by
  unfold wsum; rw [Multiset.map_cons, Multiset.sum_cons]

theorem wsum_add (A B : Multiset (Nat × Nat)) : wsum (A + B) = wsum A + wsum B := by
  unfold wsum; rw [Multiset.map_add, Multiset.sum_add]

theorem hasDeepestPair_join_left (D1 D2 : Multiset Nat) (h1 : HasDeepestPair D1)
    (h2 : TreeDepths D2) (hle : ∀ h, (∀ d ∈ D1, d ≤ h) → ∀ d ∈ D2, d ≤ h) :
    HasDeepestPair ((D1 + D2).map Nat.succ) := by
  obtain ⟨h, hh, hmax, hmem, hmem2, htree⟩ := h1
  have hinj : Function.Injective Nat.succ := Nat.succ_injective
  have e1 : ((D1 + D2).map Nat.succ).erase (h + 1) = ((D1.erase h) + D2).map Nat.succ := by
    rw [show h + 1 = Nat.succ h from rfl, ← Multiset.map_erase _ hinj,
      Multiset.erase_add_left_pos _ hmem]
  have e2 : (((D1.erase h) + D2).map Nat.succ).erase (h + 1)
      = (((D1.erase h).erase h) + D2).map Nat.succ := by
    rw [show h + 1 = Nat.succ h from rfl, ← Multiset.map_erase _ hinj,
      Multiset.erase_add_left_pos _ hmem2]
  refine ⟨h + 1, by omega, ?_, ?_, ?_, ?_⟩
  · intro d hd
    obtain ⟨d', hd', rfl⟩ := Multiset.mem_map.1 hd
    rcases Multiset.mem_add.1 hd' with hd1 | hd2
    · have := hmax d' hd1; omega
    · have := hle h hmax d' hd2; omega
  · exact Multiset.mem_map_of_mem _ (Multiset.mem_add.2 (Or.inl hmem))
  · rw [e1]
    exact Multiset.mem_map_of_mem _ (Multiset.mem_add.2 (Or.inl hmem2))
  · rw [e1, e2]
    have h3 := TreeDepths.join _ _ htree h2
    rw [Multiset.cons_add, Multiset.map_cons] at h3
    have e3 : Nat.succ (h - 1) = h + 1 - 1 := by omega
    rw [e3] at h3
    exact h3

theorem treeDepths_cases (D : Multiset Nat) (hD : TreeDepths D) :
    D = {0} ∨ HasDeepestPair D := by
  induction hD with
  | single => exact Or.inl rfl
  | join D1 D2 t1 t2 ih1 ih2 =>
    right
    rcases ih1 with e1 | p1
    · rcases ih2 with e2 | p2
      · subst e1 e2
        refine ⟨1, le_refl 1, ?_, ?_, ?_, ?_⟩
        · intro d hd
          have : d = 1 := by
            simpa using hd
          omega
        · decide
        · decide
        · exact TreeDepths.single
      · have := hasDeepestPair_join_left D2 D1 p2 t1 (by
          intro h _ d hd
          subst e1
          have : d = 0 := by simpa using hd
          omega)
        rwa [add_comm] at this
    · rcases ih2 with e2 | p2
      · exact hasDeepestPair_join_left D1 D2 p1 t2 (by
          intro h _ d hd
          subst e2
          have : d = 0 := by simpa using hd
          omega)
      · obtain ⟨h1, _, hmax1, hmem1, _, _⟩ := p1
        obtain ⟨h2, _, hmax2, hmem2, _, _⟩ := p2
        by_cases hle : h2 ≤ h1
        · exact hasDeepestPair_join_left D1 D2 ⟨h1, ‹_›, hmax1, hmem1, ‹_›, ‹_›⟩ t2 (by
            intro h hh d hd
            have a1 := hmax2 d hd
            have a2 := hh h1 hmem1
            omega)
        · have := hasDeepestPair_join_left D2 D1 ⟨h2, ‹_›, hmax2, hmem2, ‹_›, ‹_›⟩ t1 (by
            intro h hh d hd
            have a1 := hmax1 d hd
            have a2 := hh h2 hmem2
            omega)
          rwa [add_comm] at this

theorem treeDepths_card_pos (D : Multiset Nat) (hD : TreeDepths D) : 0 < Multiset.card D := by
  cases hD with
  | single => simp
  | join D1 D2 t1 t2 =>
    rcases treeDepths_cases D1 t1 with e | ⟨h, _, _, hm, _⟩
    · subst e; simp
    · rw [Multiset.card_map, Multiset.card_add]
      have := Multiset.card_pos_iff_exists_mem.2 ⟨h, hm⟩
      omega

theorem hasDeepestPair_of_card (D : Multiset Nat) (hD : TreeDepths D)
    (h2 : 2 ≤ Multiset.card D) : HasDeepestPair D := by
  rcases treeDepths_cases D hD with e | p
  · subst e; simp at h2
  · exact p

/-- One exchange: some assignment with the same weights and the same depths,
and no larger weighted path length, gives a least weight `a` a deepest
depth `h`. -/
theorem exchange_min_deepest (A : Multiset (Nat × Nat)) (a h : Nat)
    (ha : a ∈ A.map Prod.fst) (hmin : ∀ x ∈ A.map Prod.fst, a ≤ x)
    (hh : h ∈ A.map Prod.snd) (hmax : ∀ d ∈ A.map Prod.snd, d ≤ h) :
    ∃ A1 : Multiset (Nat × Nat), A1.map Prod.fst = A.map Prod.fst
      ∧ A1.map Prod.snd = A.map Prod.snd ∧ (a, h) ∈ A1 ∧ wsum A1 ≤ wsum A := by
  obtain ⟨⟨a', d⟩, hmem, hfst⟩ := Multiset.mem_map.1 ha
  simp only at hfst
  subst hfst
  obtain ⟨A0, rfl⟩ := Multiset.exists_cons_of_mem hmem
  rw [Multiset.map_cons, Multiset.mem_cons] at hh
  rcases hh with hd | hh0
  · simp only at hd
    subst hd
    exact ⟨(a', h) ::ₘ A0, rfl, rfl, Multiset.mem_cons_self _ _, le_refl _⟩
  · obtain ⟨⟨x, h'⟩, hmem0, hsnd⟩ := Multiset.mem_map.1 hh0
    simp only at hsnd
    subst hsnd
    obtain ⟨R, rfl⟩ := Multiset.exists_cons_of_mem hmem0
    refine ⟨(a', h') ::ₘ (x, d) ::ₘ R, ?_, ?_, Multiset.mem_cons_self _ _, ?_⟩
    · simp only [Multiset.map_cons]
    · simp only [Multiset.map_cons]
      exact Multiset.cons_swap _ _ _
    · have hax : a' ≤ x := hmin x (by simp)
      have hdh : d ≤ h' := hmax d (by simp)
      simp only [wsum_cons]
      obtain ⟨u, rfl⟩ := Nat.exists_eq_add_of_le hax
      obtain ⟨v, rfl⟩ := Nat.exists_eq_add_of_le hdh
      nlinarith [Nat.zero_le (u * v)]

theorem lowerBound_zero (W : Multiset Nat) : LowerBound W 0 := fun _ _ _ => Nat.zero_le _

/-- The step of Huffman's argument: merging the two least weights `a`, `b` into
`a + b` lowers the optimum by exactly `a + b`, so a lower bound for the merged
weights gives one for the original ones. -/
theorem lowerBound_step (W : Multiset Nat) (a b c : Nat)
    (ha : a ∈ W) (hamin : ∀ y ∈ W, a ≤ y) (hb : b ∈ W.erase a)
    (hbmin : ∀ y ∈ W.erase a, b ≤ y)
    (hL : LowerBound ((a + b) ::ₘ (W.erase a).erase b) c) :
    LowerBound W (c + a + b) := by
  intro A hfst htree
  have hcard : 2 ≤ Multiset.card (A.map Prod.snd) := by
    rw [Multiset.card_map, ← Multiset.card_map Prod.fst, hfst]
    obtain ⟨W0, rfl⟩ := Multiset.exists_cons_of_mem ha
    rw [Multiset.erase_cons_head] at hb
    obtain ⟨W1, rfl⟩ := Multiset.exists_cons_of_mem hb
    simp
  obtain ⟨h, hh1, hmax, hmem, hmem2, htree'⟩ := hasDeepestPair_of_card _ htree hcard
  obtain ⟨A1, hf1, hs1, ha1, hw1⟩ := exchange_min_deepest A a h (by rw [hfst]; exact ha)
    (by rw [hfst]; exact hamin) hmem hmax
  obtain ⟨B, rfl⟩ := Multiset.exists_cons_of_mem ha1
  have hfB : W.erase a = B.map Prod.fst := by
    rw [← hfst, ← hf1, Multiset.map_cons, Multiset.erase_cons_head]
  have hsB : (A.map Prod.snd).erase h = B.map Prod.snd := by
    rw [← hs1, Multiset.map_cons, Multiset.erase_cons_head]
  obtain ⟨B1, hf2, hs2, hb1, hw2⟩ := exchange_min_deepest B b h (by rw [← hfB]; exact hb)
    (by rw [← hfB]; exact hbmin) (by rw [← hsB]; exact hmem2)
    (by
      intro d hd
      rw [← hsB] at hd
      exact hmax d (Multiset.mem_of_mem_erase hd))
  obtain ⟨R, rfl⟩ := Multiset.exists_cons_of_mem hb1
  have key := hL ((a + b, h - 1) ::ₘ R) (by
      rw [Multiset.map_cons, hfB, ← hf2, Multiset.map_cons, Multiset.erase_cons_head]) (by
      have : ((A.map Prod.snd).erase h).erase h = R.map Prod.snd := by
        rw [hsB, ← hs2, Multiset.map_cons, Multiset.erase_cons_head]
      rw [Multiset.map_cons, ← this]
      exact htree')
  rw [wsum_cons] at key hw1 hw2
  simp only at key hw1 hw2
  obtain ⟨k, rfl⟩ := Nat.exists_eq_add_of_le hh1
  simp only [Nat.add_sub_cancel_left] at key
  nlinarith

namespace Node_ptr

theorem Full.ne_null {t : Node_ptr} (h : Full t) : t ≠ NULL := by
  intro e; subst e; exact h

theorem full_leaf (i : Int) (f : Nat) : Full (leaf i f) := Or.inl ⟨rfl, rfl⟩

theorem leaves_leaf (i : Int) (f : Nat) : leaves (leaf i f) = [leaf i f] := by
  simp [leaves, leaf]

theorem weight_leaf (i : Int) (f : Nat) : weight (leaf i f) = f := by
  simp [weight, leaf]

theorem wdepths_leaf (i : Int) (f : Nat) : wdepths (leaf i f) = {(f, 0)} := by
  simp [wdepths, leaf]

theorem cost_leaf (i : Int) (f : Nat) : cost (leaf i f) = 0 := by
  simp [cost, wdepths_leaf, wsum]

theorem mergeOrdered_leaf (i : Int) (f : Nat) : MergeOrdered (leaf i f) := Or.inl ⟨rfl, rfl⟩

theorem full_node {i : Int} {f : Nat} {l r : Node_ptr} (hl : Full l) (hr : Full r) :
    Full (node i f l r) := Or.inr ⟨hl, hr⟩

theorem leaves_node (i : Int) (f : Nat) {l r : Node_ptr} (hl : l ≠ NULL) :
    leaves (node i f l r) = leaves l ++ leaves r := by
  simp [leaves, hl]

theorem weight_node (i : Int) (f : Nat) {l r : Node_ptr} (hl : l ≠ NULL) :
    weight (node i f l r) = weight l + weight r := by
  simp [weight, hl]

theorem wdepths_node (i : Int) (f : Nat) {l r : Node_ptr} (hl : l ≠ NULL) :
    wdepths (node i f l r) = (wdepths l + wdepths r).map (fun p => (p.1, p.2 + 1)) := by
  simp [wdepths, hl]

theorem weight_eq_sum (t : Node_ptr) : weight t = ((wdepths t).map Prod.fst).sum := by
  induction t with
  | NULL => simp [weight, wdepths]
  | node i f l r ihl ihr =>
    by_cases h : l = NULL ∧ r = NULL
    · simp [weight, wdepths, h]
    · simp only [weight, wdepths, h, if_false, Multiset.map_map, Function.comp]
      rw [ihl, ihr, ← Multiset.sum_add, ← Multiset.map_add]

theorem wsum_raise (A : Multiset (Nat × Nat)) :
    wsum (A.map (fun p => (p.1, p.2 + 1))) = wsum A + (A.map Prod.fst).sum := by
  induction A using Multiset.induction_on with
  | empty => simp [wsum]
  | cons p A ih =>
    rw [Multiset.map_cons, wsum_cons, ih, wsum_cons, Multiset.map_cons, Multiset.sum_cons]
    simp only
    ring

theorem cost_node (i : Int) (f : Nat) {l r : Node_ptr} (hl : l ≠ NULL) :
    cost (node i f l r) = cost l + cost r + weight l + weight r := by
  unfold cost
  rw [wdepths_node i f hl, wsum_raise, wsum_add, Multiset.map_add, Multiset.sum_add,
    ← weight_eq_sum, ← weight_eq_sum]
  ring

theorem treeDepths_of_full (t : Node_ptr) (h : Full t) :
    TreeDepths ((wdepths t).map Prod.snd) := by
  induction t with
  | NULL => exact absurd h (by simp [Full])
  | node i f l r ihl ihr =>
    rcases h with ⟨rfl, rfl⟩ | ⟨hl, hr⟩
    · simp only [wdepths, and_self, if_true, Multiset.map_singleton]
      exact TreeDepths.single
    · rw [wdepths_node i f hl.ne_null, Multiset.map_map]
      have := TreeDepths.join _ _ (ihl hl) (ihr hr)
      rw [← Multiset.map_add, Multiset.map_map] at this
      exact this

theorem wdepths_fst (t : Node_ptr) :
    (wdepths t).map Prod.fst = ((leaves t).map freq : Multiset Nat) := by
  induction t with
  | NULL => simp [wdepths, leaves]
  | node i f l r ihl ihr =>
    by_cases h : l = NULL ∧ r = NULL
    · simp [wdepths, leaves, h, freq]
    · simp only [wdepths, leaves, h, if_false, Multiset.map_map, Function.comp]
      rw [Multiset.map_add, ihl, ihr, List.map_append, ← Multiset.coe_add]

end Node_ptr

theorem two_of_mem_erase {α : Type} [DecidableEq α] (F : Multiset α) (a b : α)
    (ha : a ∈ F) (hb : b ∈ F.erase a) :
    ∃ R, F = a ::ₘ b ::ₘ R ∧ (F.erase a).erase b = R := by
  obtain ⟨F0, rfl⟩ := Multiset.exists_cons_of_mem ha
  rw [Multiset.erase_cons_head] at hb ⊢
  obtain ⟨R, rfl⟩ := Multiset.exists_cons_of_mem hb
  exact ⟨R, rfl, Multiset.erase_cons_head _ _⟩

theorem shapeInv_step (L0 F : Multiset Node_ptr) (a b : Node_ptr) (hinv : ShapeInv L0 F)
    (ha : a ∈ F) (_hamin : ∀ y ∈ F, a.freq ≤ y.freq) (hb : b ∈ F.erase a)
    (_hbmin : ∀ y ∈ F.erase a, b.freq ≤ y.freq) :
    ShapeInv L0 (merge_nodes a b ::ₘ (F.erase a).erase b) := by
  have hab : a.freq ≤ b.freq := _hamin b (Multiset.mem_of_mem_erase hb)
  obtain ⟨R, rfl, hR⟩ := two_of_mem_erase F a b ha hb
  rw [hR]
  obtain ⟨hall, hsum⟩ := hinv
  have hfa := hall a (by simp)
  have hfb := hall b (by simp)
  refine ⟨?_, ?_⟩
  · intro t ht
    rw [Multiset.mem_cons] at ht
    rcases ht with rfl | ht
    · exact ⟨Node_ptr.full_node hfa.1 hfb.1, Or.inr ⟨rfl, hab, hfa.2, hfb.2⟩⟩
    · exact hall t (by simp [ht])
  · rw [← hsum]
    simp only [Multiset.map_cons, Multiset.sum_cons]
    rw [merge_nodes, Node_ptr.leaves_node _ _ hfa.1.ne_null, ← Multiset.coe_add, add_assoc]

theorem shapeInv_init (l : List Node_ptr) (hl : ∀ t ∈ l, IsLeafNode t) :
    ShapeInv (l : Multiset Node_ptr) (l : Multiset Node_ptr) := by
  refine ⟨?_, ?_⟩
  · intro t ht
    obtain ⟨i, f, rfl⟩ := hl t (Multiset.mem_coe.1 ht)
    exact ⟨Node_ptr.full_leaf i f, Node_ptr.mergeOrdered_leaf i f⟩
  · induction l with
    | nil => rfl
    | cons x l ih =>
      obtain ⟨i, f, rfl⟩ := hl _ (List.mem_cons_self _ _)
      rw [← Multiset.cons_coe, Multiset.map_cons, Multiset.sum_cons,
        ih (fun t ht => hl t (List.mem_cons_of_mem _ ht)), Node_ptr.leaves_leaf]
      rfl

/-- The tree built from a non-empty array of leaf nodes is a full binary tree,
merge-ordered, whose leaves are exactly the given nodes. -/
theorem create_huffman_tree_shape (P : PriorityQueue) (l : List Node_ptr)
    (hl : ∀ t ∈ l, IsLeafNode t) (hne : l ≠ []) :
    (create_huffman_tree P (create_pq P l)).Full
      ∧ (create_huffman_tree P (create_pq P l)).MergeOrdered
      ∧ ((create_huffman_tree P (create_pq P l)).leaves : Multiset Node_ptr) = l := by
  have hc := create_pq_contents P l
  have h := create_huffman_tree_rule P (ShapeInv (l : Multiset Node_ptr))
    (fun F a b => shapeInv_step _ F a b) (create_pq P l)
    (by rw [hc]; simpa using hne) (by rw [hc]; exact shapeInv_init l hl)
  obtain ⟨h1, h2⟩ := h
  have h3 := h1 _ (Multiset.mem_singleton_self _)
  refine ⟨h3.1, h3.2, ?_⟩
  simpa using h2

theorem weightInv_step (W0 : Multiset Nat) (hW : W0.sum < 4294967296)
    (F : Multiset Node_ptr) (a b : Node_ptr) (hinv : WeightInv W0 F)
    (ha : a ∈ F) (hamin : ∀ y ∈ F, a.freq ≤ y.freq) (hb : b ∈ F.erase a)
    (hbmin : ∀ y ∈ F.erase a, b.freq ≤ y.freq) :
    WeightInv W0 (merge_nodes a b ::ₘ (F.erase a).erase b) := by
  obtain ⟨R, rfl, hR⟩ := two_of_mem_erase F a b ha hb
  rw [hR]
  rw [Multiset.erase_cons_head] at hbmin
  obtain ⟨hall, hsum, hlb⟩ := hinv
  have hfa := hall a (by simp)
  have hfb := hall b (by simp)
  have hwm : (merge_nodes a b).weight = a.weight + b.weight :=
    Node_ptr.weight_node _ _ hfa.1.ne_null
  have hcm : (merge_nodes a b).cost = a.cost + b.cost + a.weight + b.weight :=
    Node_ptr.cost_node _ _ hfa.1.ne_null
  simp only [Multiset.map_cons, Multiset.sum_cons] at hsum
  refine ⟨?_, ?_, ?_⟩
  · intro t ht
    rw [Multiset.mem_cons] at ht
    rcases ht with rfl | ht
    · refine ⟨Node_ptr.full_node hfa.1 hfb.1, ?_⟩
      rw [hwm]
      show wrap_uint (a.freq + b.freq) = _
      rw [hfa.2, hfb.2]
      unfold wrap_uint
      apply Nat.mod_eq_of_lt
      omega
    · exact hall t (by simp [ht])
  · simp only [Multiset.map_cons, Multiset.sum_cons]
    rw [hwm, ← hsum]; ring
  · intro c hc
    simp only [Multiset.map_cons, Multiset.sum_cons] at hc ⊢
    rw [hwm] at hc
    have hstep := lowerBound_step (a.weight ::ₘ b.weight ::ₘ R.map Node_ptr.weight)
      a.weight b.weight c (by simp)
      (by
        intro y hy
        simp only [Multiset.mem_cons, Multiset.mem_map] at hy
        rcases hy with rfl | rfl | ⟨t, ht, rfl⟩
        · exact le_refl _
        · rw [← hfa.2, ← hfb.2]; exact hamin b (by simp)
        · rw [← hfa.2, ← (hall t (by simp [ht])).2]; exact hamin t (by simp [ht]))
      (by simp)
      (by
        intro y hy
        rw [Multiset.erase_cons_head] at hy
        simp only [Multiset.mem_cons, Multiset.mem_map] at hy
        rcases hy with rfl | ⟨t, ht, rfl⟩
        · exact le_refl _
        · rw [← hfb.2, ← (hall t (by simp [ht])).2]; exact hbmin t (by simp [ht]))
      (by simpa using hc)
    have := hlb _ (by simpa using hstep)
    simp only [Multiset.map_cons, Multiset.sum_cons] at this
    rw [hcm]
    have e : c + a.weight + b.weight + (a.cost + (b.cost + (R.map Node_ptr.cost).sum))
        = c + (a.cost + b.cost + a.weight + b.weight + (R.map Node_ptr.cost).sum) := by ring
    rw [← e]; exact this

theorem weightInv_init (l : List Node_ptr) (hl : ∀ t ∈ l, IsLeafNode t) :
    WeightInv ((l.map Node_ptr.freq : List Nat) : Multiset Nat) (l : Multiset Node_ptr) := by
  have hw : ∀ t ∈ l, t.weight = t.freq ∧ t.cost = 0 := by
    intro t ht
    obtain ⟨i, f, rfl⟩ := hl t ht
    exact ⟨Node_ptr.weight_leaf i f, Node_ptr.cost_leaf i f⟩
  have hmw : l.map Node_ptr.weight = l.map Node_ptr.freq :=
    List.map_congr_left (fun t ht => (hw t ht).1)
  have hmc : (l.map Node_ptr.cost).sum = 0 := by
    rw [List.sum_eq_zero]
    intro x hx
    obtain ⟨t, ht, rfl⟩ := List.mem_map.1 hx
    exact (hw t ht).2
  refine ⟨?_, ?_, ?_⟩
  · intro t ht
    have ht' := Multiset.mem_coe.1 ht
    obtain ⟨i, f, rfl⟩ := hl t ht'
    exact ⟨Node_ptr.full_leaf i f, (Node_ptr.weight_leaf i f).symm⟩
  · rw [Multiset.map_coe, hmw]
  · intro c hc
    rw [Multiset.map_coe, hmw] at hc
    rw [Multiset.map_coe, Multiset.sum_coe, hmc, Nat.add_zero]
    exact hc

/-- The tree built from a non-empty array of leaf nodes whose `freq` add up to
less than `2^32`: the root's `freq` is that sum, and no assignment of the leaf
depths of any full binary tree to these weights has a smaller weighted path
length than the built tree. -/
theorem create_huffman_tree_optimal (P : PriorityQueue) (l : List Node_ptr)
    (hl : ∀ t ∈ l, IsLeafNode t) (hne : l ≠ []) (hW : (l.map Node_ptr.freq).sum < 4294967296) :
    (create_huffman_tree P (create_pq P l)).freq = (l.map Node_ptr.freq).sum
      ∧ (create_huffman_tree P (create_pq P l)).weight = (l.map Node_ptr.freq).sum
      ∧ LowerBound ((l.map Node_ptr.freq : List Nat) : Multiset Nat)
          (create_huffman_tree P (create_pq P l)).cost := by
  have hc := create_pq_contents P l
  have hW' : (((l.map Node_ptr.freq : List Nat) : Multiset Nat)).sum < 4294967296 := by
    rw [Multiset.sum_coe]; exact hW
  have h := create_huffman_tree_rule P (WeightInv ((l.map Node_ptr.freq : List Nat) : Multiset Nat))
    (fun F a b => weightInv_step _ hW' F a b) (create_pq P l)
    (by rw [hc]; simpa using hne) (by rw [hc]; exact weightInv_init l hl)
  obtain ⟨h1, h2, h3⟩ := h
  have h4 := h1 _ (Multiset.mem_singleton_self _)
  simp only [Multiset.map_singleton, Multiset.sum_singleton, Multiset.sum_coe] at h2 h3
  refine ⟨by rw [h4.2, h2], h2, ?_⟩
  have := h3 0 (lowerBound_zero _)
  simpa using this

theorem Table.find_assign (t : Table) (k : Int) (v : Str) (k' : Int) :
    (t.assign k v).find k' = if k' = k then some v else t.find k' := by
  induction t with
  | nil => simp [Table.assign, Table.find]
  | cons e t ih =>
    obtain ⟨k0, v0⟩ := e
    unfold Table.assign
    by_cases h1 : k < k0
    · simp only [h1, if_true, Table.find]
    · by_cases h2 : k = k0
      · subst h2
        simp only [lt_self_iff_false, if_false, if_true, Table.find]
        by_cases h3 : k' = k <;> simp [h3]
      · simp only [h1, h2, if_false, Table.find, ih]
        by_cases h3 : k' = k0
        · have : k0 ≠ k := fun e => h2 e.symm
          subst h3
          simp [this]
        · simp [h3]

theorem Table.keys_assign (t : Table) (k : Int) (v : Str) (k' : Int) :
    k' ∈ (t.assign k v).map Prod.fst ↔ k' = k ∨ k' ∈ t.map Prod.fst := by
  induction t with
  | nil => simp [Table.assign]
  | cons e t ih =>
    obtain ⟨k0, v0⟩ := e
    unfold Table.assign
    by_cases h1 : k < k0
    · simp [h1]
    · by_cases h2 : k = k0
      · subst h2; simp
      · simp only [h1, h2, if_false, List.map_cons, List.mem_cons, ih]
        tauto

theorem Table.ascending_assign (t : Table) (k : Int) (v : Str) (h : t.Ascending) :
    (t.assign k v).Ascending := by
  induction t with
  | nil => simp [Table.assign, Table.Ascending]
  | cons e t ih =>
    obtain ⟨k0, v0⟩ := e
    unfold Table.Ascending at h ih ⊢
    rw [List.map_cons, List.sorted_cons] at h
    unfold Table.assign
    by_cases h1 : k < k0
    · simp only [h1, if_true, List.map_cons, List.sorted_cons]
      refine ⟨?_, h⟩
      intro b hb
      rw [List.mem_cons] at hb
      rcases hb with rfl | hb
      · exact h1
      · exact lt_trans h1 (h.1 b hb)
    · by_cases h2 : k = k0
      · subst h2
        simp only [lt_self_iff_false, if_false, if_true, List.map_cons, List.sorted_cons]
        exact h
      · simp only [h1, h2, if_false, List.map_cons, List.sorted_cons]
        refine ⟨?_, ih h.2⟩
        intro b hb
        rcases (Table.keys_assign t k v b).1 hb with rfl | hb
        · omega
        · exact h.1 b hb

theorem Table.assign_perm (t : Table) (k : Int) (v : Str) (hk : k ∉ t.map Prod.fst) :
    (t.assign k v).Perm ((k, v) :: t) := by
  induction t with
  | nil => simp [Table.assign]
  | cons e t ih =>
    obtain ⟨k0, v0⟩ := e
    have hk0 : k ≠ k0 := by
      intro e; apply hk; simp [e]
    have hkt : k ∉ t.map Prod.fst := by
      intro h; apply hk; simp only [List.map_cons, List.mem_cons]; exact Or.inr h
    unfold Table.assign
    by_cases h1 : k < k0
    · simp only [h1, if_true]; exact List.Perm.refl _
    · simp only [h1, hk0, if_false]
      exact ((ih hkt).cons (k0, v0)).trans (List.Perm.swap _ _ _)

theorem Table.assign_all_spec (es : List (Int × Str)) (t : Table) (ht : t.Ascending)
    (hes : (es.map Prod.fst).Nodup) (hdisj : ∀ k ∈ es.map Prod.fst, k ∉ t.map Prod.fst) :
    (t.assign_all es).Ascending ∧ (t.assign_all es).Perm (es ++ t) := by
  induction es generalizing t with
  | nil => exact ⟨ht, List.Perm.refl _⟩
  | cons e es ih =>
    rw [List.map_cons, List.nodup_cons] at hes
    have hk : e.1 ∉ t.map Prod.fst := hdisj e.1 (by simp)
    have := ih (t.assign e.1 e.2) (Table.ascending_assign t e.1 e.2 ht) hes.2 (by
      intro k hkes hkt
      rcases (Table.keys_assign t e.1 e.2 k).1 hkt with rfl | hkt
      · exact hes.1 hkes
      · exact hdisj k (by simp [hkes]) hkt)
    refine ⟨this.1, ?_⟩
    show (Table.assign_all (t.assign e.1 e.2) es).Perm _
    refine this.2.trans ?_
    refine ((Table.assign_perm t e.1 e.2 hk).append_left es).trans ?_
    simp only [List.cons_append]
    exact List.perm_middle

theorem Table.find_eq_some_of_mem (t : Table) (ht : t.Ascending) (k : Int) (v : Str)
    (h : (k, v) ∈ t) : t.find k = some v := by
  induction t with
  | nil => simp at h
  | cons e t ih =>
    obtain ⟨k0, v0⟩ := e
    unfold Table.Ascending at ht ih
    rw [List.map_cons, List.sorted_cons] at ht
    rw [List.mem_cons] at h
    unfold Table.find
    rcases h with h | h
    · injection h with h1 h2
      subst h1 h2
      simp
    · have hlt : k0 < k := ht.1 k (List.mem_map.2 ⟨(k, v), h, rfl⟩)
      have hne : k ≠ k0 := by omega
      simp only [hne, if_false]
      exact ih ht.2 h

theorem Table.mem_of_find_eq_some (t : Table) (k : Int) (v : Str)
    (h : t.find k = some v) : (k, v) ∈ t := by
  induction t with
  | nil => simp [Table.find] at h
  | cons e t ih =>
    obtain ⟨k0, v0⟩ := e
    unfold Table.find at h
    by_cases hk : k = k0
    · simp only [hk, if_true, Option.some.injEq] at h
      subst hk h
      exact List.mem_cons_self _ _
    · simp only [hk, if_false] at h
      exact List.mem_cons_of_mem _ (ih h)

theorem create_map_table_eq (t : Node_ptr) (ht : t.Full) (s : Str) (table : Table) :
    create_map_table t s table = some (table.assign_all (t.code_list s)) := by
  induction t generalizing s table with
  | NULL => exact absurd ht (by simp [Node_ptr.Full])
  | node i f l r ihl ihr =>
    unfold create_map_table
    rcases ht with ⟨rfl, rfl⟩ | ⟨hl, hr⟩
    · simp [Node_ptr.code_list, Node_ptr.leaf_codes, Table.assign_all]
    · have hne : ¬ (l = Node_ptr.NULL ∧ r = Node_ptr.NULL) := fun h => hl.ne_null h.1
      simp only [hne, if_false, ihl hl, ihr hr]
      simp [Node_ptr.code_list, Node_ptr.leaf_codes, hne, Table.assign_all, List.foldl_append]

namespace Node_ptr

theorem walk_null (p : Str) : walk NULL p = NULL := by
  induction p with
  | nil => rfl
  | cons c cs ih => simp [walk, left, right, ih]

theorem walk_append (n : Node_ptr) (p q : Str) : walk n (p ++ q) = walk (walk n p) q := by
  induction p generalizing n with
  | nil => rfl
  | cons c cs ih => simp [walk, ih]

theorem leaf_codes_eq (t : Node_ptr) (s : Str) :
    leaf_codes t s = (leaf_paths t).map (fun e => (e.1, e.2.1, s ++ e.2.2)) := by
  induction t generalizing s with
  | NULL => rfl
  | node i f l r ihl ihr =>
    by_cases h : l = NULL ∧ r = NULL
    · simp [leaf_codes, leaf_paths, h]
    · simp only [leaf_codes, leaf_paths, h, if_false, ihl, ihr, List.map_append, List.map_map,
        List.append_assoc, List.singleton_append]
      rfl

theorem code_list_nil (t : Node_ptr) :
    code_list t [] = (leaf_paths t).map (fun e => (e.1, e.2.2)) := by
  unfold code_list
  rw [leaf_codes_eq, List.map_map]
  rfl

theorem leaf_paths_leaves (t : Node_ptr) :
    (leaf_paths t).map (fun e => leaf e.1 e.2.1) = leaves t := by
  induction t with
  | NULL => rfl
  | node i f l r ihl ihr =>
    by_cases h : l = NULL ∧ r = NULL
    · simp [leaf_paths, leaves, h, leaf]
    · simp only [leaf_paths, leaves, h, if_false, ← ihl, ← ihr, List.map_append, List.map_map]
      rfl

theorem leaf_paths_wdepths (t : Node_ptr) :
    wdepths t = (((leaf_paths t).map (fun e => (e.2.1, e.2.2.length)) : List (Nat × Nat))
      : Multiset (Nat × Nat)) := by
  induction t with
  | NULL => rfl
  | node i f l r ihl ihr =>
    by_cases h : l = NULL ∧ r = NULL
    · simp [leaf_paths, wdepths, h]
    · simp only [leaf_paths, wdepths, h, if_false, ihl, ihr, Multiset.coe_add, Multiset.map_coe,
        List.map_append, List.map_map]
      rfl

theorem leaf_paths_walk (t : Node_ptr) (e : Int × Nat × Str) (he : e ∈ leaf_paths t) :
    walk t e.2.2 = leaf e.1 e.2.1 := by
  induction t generalizing e with
  | NULL => simp [leaf_paths] at he
  | node i f l r ihl ihr =>
    by_cases h : l = NULL ∧ r = NULL
    · simp only [leaf_paths, h, and_self, if_true, List.mem_singleton] at he
      subst he
      obtain ⟨rfl, rfl⟩ := h
      rfl
    · simp only [leaf_paths, h, if_false, List.mem_append, List.mem_map] at he
      rcases he with ⟨e', he', rfl⟩ | ⟨e', he', rfl⟩
      · simpa [walk, left] using ihl e' he'
      · have : chr1 ≠ chr0 := by decide
        simpa [walk, right, this] using ihr e' he'

theorem leaf_paths_binary (t : Node_ptr) (e : Int × Nat × Str) (he : e ∈ leaf_paths t) :
    ∀ c ∈ e.2.2, c = chr0 ∨ c = chr1 := by
  induction t generalizing e with
  | NULL => simp [leaf_paths] at he
  | node i f l r ihl ihr =>
    by_cases h : l = NULL ∧ r = NULL
    · simp only [leaf_paths, h, and_self, if_true, List.mem_singleton] at he
      subst he
      simp
    · simp only [leaf_paths, h, if_false, List.mem_append, List.mem_map] at he
      rcases he with ⟨e', he', rfl⟩ | ⟨e', he', rfl⟩
      · intro c hc
        simp only [List.mem_cons] at hc
        rcases hc with rfl | hc
        · exact Or.inl rfl
        · exact ihl e' he' c hc
      · intro c hc
        simp only [List.mem_cons] at hc
        rcases hc with rfl | hc
        · exact Or.inr rfl
        · exact ihr e' he' c hc

theorem leaf_paths_ne_nil (t : Node_ptr) (hleaf : t.isleaf = false)
    (e : Int × Nat × Str) (he : e ∈ leaf_paths t) : e.2.2 ≠ [] := by
  cases t with
  | NULL => simp [leaf_paths] at he
  | node i f l r =>
    have h : ¬ (l = NULL ∧ r = NULL) := by
      simpa [isleaf, left, right] using hleaf
    simp only [leaf_paths, h, if_false, List.mem_append, List.mem_map] at he
    rcases he with ⟨e', _, rfl⟩ | ⟨e', _, rfl⟩ <;> simp

theorem leaf_paths_pairwise (t : Node_ptr) :
    (leaf_paths t).Pairwise (fun e1 e2 => Incomparable e1.2.2 e2.2.2) := by
  induction t with
  | NULL => simp [leaf_paths]
  | node i f l r ihl ihr =>
    by_cases h : l = NULL ∧ r = NULL
    · simp [leaf_paths, h]
    · simp only [leaf_paths, h, if_false]
      rw [List.pairwise_append]
      refine ⟨?_, ?_, ?_⟩
      · rw [List.pairwise_map]
        refine ihl.imp ?_
        intro a b hab
        simp only [Incomparable, List.cons_prefix_cons, true_and]
        exact hab
      · rw [List.pairwise_map]
        refine ihr.imp ?_
        intro a b hab
        simp only [Incomparable, List.cons_prefix_cons, true_and]
        exact hab
      · intro a ha b hb
        obtain ⟨a', _, rfl⟩ := List.mem_map.1 ha
        obtain ⟨b', _, rfl⟩ := List.mem_map.1 hb
        have h01 : chr0 ≠ chr1 := by decide
        simp only [Incomparable, List.cons_prefix_cons]
        exact ⟨fun h => h01 h.1, fun h => h01 h.1.symm⟩

end Node_ptr

theorem create_node_array_general (S : Str) :
    create_node_array S
      = (counted_bytes S).map
          (fun (i : Nat) => Node_ptr.leaf (i : Int) (wrap_int (occurrences S i)).toNat)
        ++ [Node_ptr.leaf PSEUDO_EOF 1] := by
  rw [create_node_array_eq]
  refine congrArg (fun l => l ++ [Node_ptr.leaf PSEUDO_EOF 1]) ?_
  have h270 : MAX_SIZE = 256 + 14 := by unfold MAX_SIZE; norm_num
  rw [h270, filterMap_range_add]
  · apply filterMap_eq_filter_map
    intro i _
    unfold slot_entry
    by_cases h0 : wrap_int (occurrences S i) ≤ 0
    · have : ¬ (0 < wrap_int (occurrences S i)) := by omega
      simp [h0, this]
    · have : 0 < wrap_int (occurrences S i) := by omega
      simp [h0, this]
  · intro i hi
    rw [occurrences_eq_zero_of_ge S i hi]
    rfl

theorem counted_bytes_lt (S : Str) (i : Nat) (hi : i ∈ counted_bytes S) : i < 256 := by
  unfold counted_bytes at hi
  exact List.mem_range.1 (List.mem_filter.1 hi).1

theorem counted_bytes_of_bounded (S : Str) (hb : ∀ i, occurrences S i < 2147483648) :
    counted_bytes S = present_bytes S := by
  unfold counted_bytes present_bytes
  apply List.filter_congr
  intro i _
  rw [wrap_int_of_small (occurrences S i) (by omega) (by have := hb i; omega)]
  simp

theorem create_node_array_isLeaf (S : Str) : ∀ t ∈ create_node_array S, IsLeafNode t := by
  intro t ht
  rw [create_node_array_general, List.mem_append, List.mem_map, List.mem_singleton] at ht
  rcases ht with ⟨i, _, rfl⟩ | rfl
  · exact ⟨_, _, rfl⟩
  · exact ⟨_, _, rfl⟩

theorem create_node_array_ne_nil (S : Str) : create_node_array S ≠ [] := by
  unfold create_node_array
  simp

/-- The ids in `node_array`: the counted bytes, ascending, then 256. -/
theorem create_node_array_ids (S : Str) :
    (create_node_array S).map Node_ptr.id
      = (counted_bytes S).map (fun (i : Nat) => (i : Int)) ++ [(256 : Int)] := by
  rw [create_node_array_general, List.map_append, List.map_map]
  rfl

theorem create_node_array_ids_sorted (S : Str) :
    ((create_node_array S).map Node_ptr.id).Sorted (· < ·) := by
  rw [create_node_array_ids]
  unfold List.Sorted
  rw [List.pairwise_append]
  refine ⟨?_, List.pairwise_singleton _ _, ?_⟩
  · rw [List.pairwise_map]
    have : (counted_bytes S).Pairwise (· < ·) :=
      List.Pairwise.filter _ (List.pairwise_lt_range 256)
    exact this.imp (fun h => by exact_mod_cast h)
  · intro a ha b hb
    obtain ⟨i, hi, rfl⟩ := List.mem_map.1 ha
    rw [List.mem_singleton] at hb
    subst hb
    have := counted_bytes_lt S i hi
    omega

theorem create_node_array_ids_nodup (S : Str) : ((create_node_array S).map Node_ptr.id).Nodup :=
  (create_node_array_ids_sorted S).nodup

theorem huffman_root_shape (P : PriorityQueue) (S : Str) :
    (huffman_root P S).Full ∧ (huffman_root P S).MergeOrdered
      ∧ ((huffman_root P S).leaves : Multiset Node_ptr) = create_node_array S :=
  create_huffman_tree_shape P _ (create_node_array_isLeaf S) (create_node_array_ne_nil S)

theorem id_leaf (i : Int) (f : Nat) : (Node_ptr.leaf i f).id = i := rfl

theorem freq_leaf (i : Int) (f : Nat) : (Node_ptr.leaf i f).freq = f := rfl

/-- The ids of the code list are the ids of `node_array`, in some order. -/
theorem code_list_ids_perm (P : PriorityQueue) (S : Str) :
    (((huffman_root P S).code_list []).map Prod.fst).Perm
      ((create_node_array S).map Node_ptr.id) := by
  have h := (huffman_root_shape P S).2.2
  have h1 : ((huffman_root P S).leaves).Perm (create_node_array S) := Quotient.exact h
  have h2 := h1.map Node_ptr.id
  rw [← Node_ptr.leaf_paths_leaves, List.map_map] at h2
  rw [Node_ptr.code_list_nil, List.map_map]
  exact h2

theorem code_list_ids_nodup (P : PriorityQueue) (S : Str) :
    (((huffman_root P S).code_list []).map Prod.fst).Nodup :=
  (code_list_ids_perm P S).nodup_iff.2 (create_node_array_ids_nodup S)

theorem code_table_spec (P : PriorityQueue) (S : Str) :
    (code_table P S).Ascending ∧ (code_table P S).Perm ((huffman_root P S).code_list []) := by
  have h := Table.assign_all_spec ((huffman_root P S).code_list []) []
    (by simp [Table.Ascending]) (code_list_ids_nodup P S) (by simp)
  rw [List.append_nil] at h
  exact h

theorem calculate_huffman_codes_eq (P : PriorityQueue) (S : Str) :
    calculate_huffman_codes (huffman_root P S) = .ok (code_table P S) := by
  have hf := (huffman_root_shape P S).1
  unfold calculate_huffman_codes
  rw [if_neg hf.ne_null, create_map_table_eq _ hf]
  rfl

theorem compress_eq (P : PriorityQueue) (S : Str) :
    compress P S = do_compress S (create_node_array S).length (code_table P S) := by
  unfold compress
  simp only []
  have := calculate_huffman_codes_eq P S
  unfold huffman_root at this
  rw [this]

/-- The keys of the table are exactly the ids of `node_array`, ascending. -/
theorem code_table_keys (P : PriorityQueue) (S : Str) :
    (code_table P S).map Prod.fst = (create_node_array S).map Node_ptr.id := by
  have h1 := (code_table_spec P S).1
  have h2 := ((code_table_spec P S).2.map Prod.fst).trans (code_list_ids_perm P S)
  exact List.eq_of_perm_of_sorted h2 h1 (create_node_array_ids_sorted S)

theorem code_table_mem (P : PriorityQueue) (S : Str) (e : Int × Str) :
    e ∈ code_table P S ↔ ∃ p ∈ (huffman_root P S).leaf_paths, e = (p.1, p.2.2) := by
  rw [(code_table_spec P S).2.mem_iff, Node_ptr.code_list_nil, List.mem_map]
  constructor
  · rintro ⟨p, hp, rfl⟩; exact ⟨p, hp, rfl⟩
  · rintro ⟨p, hp, rfl⟩; exact ⟨p, hp, rfl⟩

theorem code_table_find_some (P : PriorityQueue) (S : Str) (k : Int)
    (hk : k ∈ (create_node_array S).map Node_ptr.id) :
    ∃ code, (code_table P S).find k = some code ∧ (k, code) ∈ code_table P S := by
  rw [← code_table_keys] at hk
  obtain ⟨e, he, rfl⟩ := List.mem_map.1 hk
  exact ⟨e.2, Table.find_eq_some_of_mem _ (code_table_spec P S).1 e.1 e.2 he, he⟩

theorem pad_bits_length (B : Str) : (pad_bits B).length = 8 * ((B.length + 7) / 8) := by
  unfold pad_bits
  rw [List.length_append, List.length_replicate]
  omega

theorem bit_at_append_left (A Y : Str) (i : Nat) (h : i < A.length) :
    bit_at (A ++ Y) i = bit_at A i := by
  unfold bit_at
  rw [List.getD_eq_getElem _ 0 (by rw [List.length_append]; omega), List.getD_eq_getElem _ 0 h,
    List.getElem_append_left h]

theorem bit_at_append_right (A Y : Str) (i : Nat) :
    bit_at (A ++ Y) (A.length + i) = bit_at Y i := by
  unfold bit_at
  simp only [List.getD_eq_getElem?_getD]
  rw [List.getElem?_append_right (by omega)]
  simp

theorem bit_at_pad (B : Str) (i : Nat) (h : B.length ≤ i) (h2 : i < (pad_bits B).length) :
    bit_at (pad_bits B) i = 0 := by
  rw [pad_bits_length] at h2
  unfold bit_at pad_bits
  simp only [List.getD_eq_getElem?_getD]
  rw [List.getElem?_append_right h, List.getElem?_replicate_of_lt (by omega)]
  simp

theorem pack_byte_congr (X Y : Str) (i i' : Nat)
    (h : ∀ j, j < 8 → bit_at X (i + j) = bit_at Y (i' + j)) : pack_byte X i = pack_byte Y i' := by
  apply Fin.ext
  rw [pack_byte_val, pack_byte_val]
  unfold byte_value
  apply Finset.sum_congr rfl
  intro j hj
  rw [h j (Finset.mem_range.1 hj)]

theorem pack_groups_append (A W : Str) (q : Nat) (hA : A.length = 8 * q) :
    pack_groups (A ++ W) = pack_groups A ++ pack_groups W := by
  unfold pack_groups
  have h1 : (A ++ W).length / 8 = q + W.length / 8 := by
    rw [List.length_append, hA]; omega
  have h2 : A.length / 8 = q := by rw [hA]; omega
  rw [h1, h2, List.range_add, List.map_append, List.map_map]
  congr 1
  · apply List.map_congr_left
    intro k hk
    have hk' := List.mem_range.1 hk
    apply pack_byte_congr
    intro j hj
    exact bit_at_append_left A W _ (by omega)
  · apply List.map_congr_left
    intro k _
    simp only [Function.comp]
    apply pack_byte_congr
    intro j _
    have : 8 * (q + k) + j = A.length + (8 * k + j) := by rw [hA]; ring
    rw [this, bit_at_append_right]

theorem pad_bits_append (A Z : Str) (q : Nat) (hA : A.length = 8 * q) :
    pad_bits (A ++ Z) = A ++ pad_bits Z := by
  unfold pad_bits
  have : (A ++ Z).length % 8 = Z.length % 8 := by
    rw [List.length_append, hA]; omega
  rw [this, List.append_assoc]

theorem pack_groups_take (code : Str) :
    pack_groups code = pack_groups (code.take (8 * (code.length / 8))) := by
  unfold pack_groups
  have hl : (code.take (8 * (code.length / 8))).length = 8 * (code.length / 8) := by
    rw [List.length_take]; omega
  have : (code.take (8 * (code.length / 8))).length / 8 = code.length / 8 := by
    rw [hl]; omega
  rw [this]
  apply List.map_congr_left
  intro k hk
  have hk' := List.mem_range.1 hk
  apply pack_byte_congr
  intro j hj
  conv_lhs => rw [← List.take_append_drop (8 * (code.length / 8)) code]
  exact bit_at_append_left _ _ _ (by rw [hl]; omega)

/-- One flush of `do_compress`: the bytes written by `uchar_to_binary` followed by
the packing of what is kept and what comes later is the packing of everything. -/
theorem pack_groups_flush (code Y : Str) :
    pack_groups (pad_bits (code ++ Y))
      = (uchar_to_binary code code.length 0).1
        ++ pack_groups (pad_bits (code.drop (8 * (code.length / 8)) ++ Y)) := by
  have hl : (code.take (8 * (code.length / 8))).length = 8 * (code.length / 8) := by
    rw [List.length_take]; omega
  rw [uchar_to_binary_eq]
  show _ = pack_groups code ++ _
  rw [pack_groups_take code]
  conv_lhs => rw [← List.take_append_drop (8 * (code.length / 8)) code]
  rw [List.append_assoc, pad_bits_append _ _ _ hl, pack_groups_append _ _ _ hl]

theorem partial_value_succ (X : Str) (k r : Nat) :
    partial_value X k (r + 1) = partial_value X k r + bit_at X (8 * k + r) * 2 ^ (7 - r) := by
  unfold partial_value
  rw [Finset.sum_range_succ]

theorem partial_value_bound (X : Str) (k r : Nat) (hr : r ≤ 8) :
    partial_value X k r + 2 ^ (8 - r) ≤ 256 := by
  induction r with
  | zero => simp [partial_value]
  | succ r ih =>
    have h1 := ih (by omega)
    have h2 := bit_at_le_one X (8 * k + r)
    rw [partial_value_succ]
    have e : 2 ^ (8 - r) = 2 * 2 ^ (7 - r) := by
      rw [show 8 - r = (7 - r) + 1 by omega, pow_succ]; ring
    have e2 : 8 - (r + 1) = 7 - r := by omega
    rw [e] at h1
    rw [e2]
    have h3 : bit_at X (8 * k + r) * 2 ^ (7 - r) ≤ 1 * 2 ^ (7 - r) := Nat.mul_le_mul_right _ h2
    omega

theorem partial_value_lt (X : Str) (k r : Nat) (hr : r ≤ 8) : partial_value X k r < 256 := by
  have := partial_value_bound X k r hr
  have : 0 < 2 ^ (8 - r) := Nat.two_pow_pos _
  omega

theorem flush_tail_eq_fold (code : Str) :
    flush_tail code = ((List.range code.length).foldl (tail_step code) (0, [])).2 := rfl

theorem tail_state (X : Str) (i : Nat) (hi : i ≤ X.length) :
    (List.range i).foldl (tail_step X) (0, [])
      = if i = X.length ∧ i % 8 ≠ 0 then
          (0, group_bytes X (i / 8) ++ [Fin.ofNat (partial_value X (i / 8) (i % 8))])
        else (partial_value X (i / 8) (i % 8), group_bytes X (i / 8)) := by
  induction i with
  | zero => simp [partial_value, group_bytes]
  | succ i ih =>
    have ih' := ih (by omega)
    rw [if_neg (by omega)] at ih'
    rw [List.range_succ, List.foldl_append, ih', List.foldl_cons, List.foldl_nil]
    have hlt := partial_value_bound X (i / 8) (i % 8 + 1) (by omega)
    have hpos : 0 < 2 ^ (8 - (i % 8 + 1)) := Nat.two_pow_pos _
    have hval : (partial_value X (i / 8) (i % 8) + (bit_at X i) <<< (7 - i % 8)) % 256
        = partial_value X (i / 8) (i % 8 + 1) := by
      rw [partial_value_succ, Nat.shiftLeft_eq, Nat.div_add_mod]
      apply Nat.mod_eq_of_lt
      rw [partial_value_succ, Nat.div_add_mod] at hlt
      omega
    unfold tail_step
    simp only
    change (if (i + 1) % 8 = 0 ∨ i = X.length - 1 then
        ((0 : Nat), group_bytes X (i / 8)
          ++ [(Fin.ofNat ((partial_value X (i / 8) (i % 8) + (bit_at X i) <<< (7 - i % 8)) % 256) : Byte)])
      else ((partial_value X (i / 8) (i % 8) + (bit_at X i) <<< (7 - i % 8)) % 256,
        group_bytes X (i / 8))) = _
    rw [hval]
    by_cases h8 : (i + 1) % 8 = 0
    · have e1 : (i + 1) / 8 = i / 8 + 1 := by omega
      have e2 : i % 8 + 1 = 8 := by omega
      rw [if_pos (Or.inl h8), if_neg (by omega), h8, e1, e2]
      simp [partial_value, group_bytes, List.range_succ]
    · have e1 : (i + 1) / 8 = i / 8 := by omega
      have e2 : (i + 1) % 8 = i % 8 + 1 := by omega
      by_cases hl : i = X.length - 1
      · rw [if_pos (Or.inr hl), if_pos ⟨by omega, h8⟩, e1, e2]
      · rw [if_neg (by omega), if_neg (by omega), e1, e2]

theorem pack_byte_pad_full (X : Str) (k : Nat) (hk : 8 * k + 8 ≤ X.length) :
    pack_byte (pad_bits X) (8 * k) = Fin.ofNat (partial_value X k 8) := by
  apply Fin.ext
  rw [pack_byte_val]
  have hlt := partial_value_lt X k 8 (le_refl 8)
  show _ = partial_value X k 8 % 256
  rw [Nat.mod_eq_of_lt hlt]
  unfold byte_value partial_value
  apply Finset.sum_congr rfl
  intro j hj
  have := Finset.mem_range.1 hj
  unfold pad_bits
  rw [bit_at_append_left _ _ _ (by omega)]

theorem pack_byte_pad_last (X : Str) (hr : X.length % 8 ≠ 0) :
    pack_byte (pad_bits X) (8 * (X.length / 8))
      = Fin.ofNat (partial_value X (X.length / 8) (X.length % 8)) := by
  apply Fin.ext
  rw [pack_byte_val]
  have hlt := partial_value_lt X (X.length / 8) (X.length % 8) (by omega)
  show _ = partial_value X (X.length / 8) (X.length % 8) % 256
  rw [Nat.mod_eq_of_lt hlt]
  unfold byte_value partial_value
  have hsplit : Finset.range 8 = Finset.range (X.length % 8 + (8 - X.length % 8)) := by
    congr 1; omega
  rw [hsplit, Finset.sum_range_add]
  have hz : ∑ x in Finset.range (8 - X.length % 8),
      bit_at (pad_bits X) (8 * (X.length / 8) + (X.length % 8 + x)) * 2 ^ (7 - (X.length % 8 + x))
        = 0 := by
    apply Finset.sum_eq_zero
    intro j hj
    have := Finset.mem_range.1 hj
    rw [bit_at_pad X _ (by omega) (by rw [pad_bits_length]; omega)]
    simp
  rw [hz, Nat.add_zero]
  apply Finset.sum_congr rfl
  intro j hj
  have := Finset.mem_range.1 hj
  unfold pad_bits
  rw [bit_at_append_left _ _ _ (by omega)]

/-- The tail loop of `do_compress` writes the packing of its bit string padded
with `'0'` bits. -/
theorem flush_tail_eq (X : Str) : flush_tail X = pack_groups (pad_bits X) := by
  rw [flush_tail_eq_fold, tail_state X X.length (le_refl _)]
  unfold pack_groups
  rw [pad_bits_length]
  by_cases hr : X.length % 8 = 0
  · have e : 8 * ((X.length + 7) / 8) / 8 = X.length / 8 := by omega
    rw [if_neg (by omega), e]
    unfold group_bytes
    apply List.map_congr_left
    intro k hk
    have := List.mem_range.1 hk
    exact (pack_byte_pad_full X k (by omega)).symm
  · have e : 8 * ((X.length + 7) / 8) / 8 = X.length / 8 + 1 := by omega
    rw [if_pos ⟨rfl, hr⟩, e, List.range_succ, List.map_append, List.map_singleton]
    show group_bytes X (X.length / 8) ++ _ = _
    congr 1
    · unfold group_bytes
      apply List.map_congr_left
      intro k hk
      have := List.mem_range.1 hk
      exact (pack_byte_pad_full X k (by omega)).symm
    · rw [pack_byte_pad_last X hr]

theorem bit_string_cons (table : Table) (c : Byte) (S : Str) :
    bit_string table (c :: S) = (table.find c.val).getD [] ++ bit_string table S := by
  simp [bit_string]

theorem encode_loop_ok (table : Table) (S : Str)
    (hS : ∀ c ∈ S, ∃ s, table.find c.val = some s) (code out : Str) :
    ∃ code1 out1, encode_loop table S code out = .ok (code1, out1)
      ∧ ∀ Y, out1 ++ pack_groups (pad_bits (code1 ++ Y))
          = out ++ pack_groups (pad_bits (code ++ bit_string table S ++ Y)) := by
  induction S generalizing code out with
  | nil =>
    refine ⟨code, out, rfl, ?_⟩
    intro Y
    simp [bit_string]
  | cons c rest ih =>
    obtain ⟨s, hs⟩ := hS c (List.mem_cons_self _ _)
    have hrest : ∀ c ∈ rest, ∃ s, table.find c.val = some s :=
      fun c hc => hS c (List.mem_cons_of_mem _ hc)
    unfold encode_loop
    simp only [hs]
    by_cases hlen : (code ++ s).length > WRITE_BUFF_SIZE
    · simp only [hlen, if_true]
      have h7 : 7 < (code ++ s).length := by unfold WRITE_BUFF_SIZE at hlen; omega
      have hflag : (uchar_to_binary (code ++ s) (code ++ s).length 0).2
          = 8 * ((code ++ s).length / 8) := by
        rw [uchar_to_binary_eq]; exact if_pos h7
      rw [hflag]
      have htake : ((code ++ s).drop (8 * ((code ++ s).length / 8))).take
          ((code ++ s).length - 8 * ((code ++ s).length / 8))
            = (code ++ s).drop (8 * ((code ++ s).length / 8)) := by
        apply List.take_of_length_le
        rw [List.length_drop]
      rw [htake]
      obtain ⟨code1, out1, h1, h2⟩ := ih hrest ((code ++ s).drop (8 * ((code ++ s).length / 8)))
        (out ++ (uchar_to_binary (code ++ s) (code ++ s).length 0).1)
      refine ⟨code1, out1, h1, ?_⟩
      intro Y
      rw [h2 Y, bit_string_cons, hs, Option.getD_some]
      have := pack_groups_flush (code ++ s) (bit_string table rest ++ Y)
      simp only [List.append_assoc] at this ⊢
      rw [this]
    · simp only [hlen, if_false]
      obtain ⟨code1, out1, h1, h2⟩ := ih hrest (code ++ s) out
      refine ⟨code1, out1, h1, ?_⟩
      intro Y
      rw [h2 Y, bit_string_cons, hs, Option.getD_some]
      simp only [List.append_assoc]

/-- `do_compress` when every byte of `S` and the pseudo-EOF have a code: it
finishes, having written the header and then the packing, most significant
bit first, of the whole bit string padded with `'0'` bits. -/
theorem do_compress_eq (S : Str) (size : Nat) (table : Table)
    (hS : ∀ c ∈ S, ∃ s, table.find c.val = some s)
    (hE : ∃ s, table.find PSEUDO_EOF = some s) :
    do_compress S size table
      = ⟨write_header size table ++ pack_groups (pad_bits (full_bit_string table S)),
         .finished⟩ := by
  obtain ⟨s, hs⟩ := hE
  obtain ⟨code1, out1, h1, h2⟩ := encode_loop_ok table S hS [] (write_header size table)
  unfold do_compress
  simp only [h1, hs]
  have := h2 s
  rw [flush_tail_eq, this]
  simp [full_bit_string, hs]

theorem encode_loop_error (table : Table) (c : Byte) (rest : Str) (code out : Str)
    (hc : table.find c.val = none) :
    encode_loop table (c :: rest) code out = .error (.no_code_of_character c, out) := by
  unfold encode_loop
  simp only [hc]

theorem bits_of_byte : ∀ b0 b1 b2 b3 b4 b5 b6 b7 : Bool,
    (List.range 8).map (fun i => (b0.toNat * 128 + b1.toNat * 64 + b2.toNat * 32 + b3.toNat * 16
      + b4.toNat * 8 + b5.toNat * 4 + b6.toNat * 2 + b7.toNat * 1).testBit (7 - i))
      = [b0, b1, b2, b3, b4, b5, b6, b7] := by
  decide

theorem bit_at_eq_toNat (Z : Str) (i : Nat) :
    bit_at Z i = (decide (Z.getD i 0 ≠ chr0)).toNat := by
  unfold bit_at
  by_cases h : Z.getD i 0 = chr0
  · rw [if_pos h, decide_eq_false (not_not.2 h)]; rfl
  · rw [if_neg h, decide_eq_true h]; rfl

theorem byte_bits_pack_byte (Z : Str) (i : Nat) :
    byte_bits (pack_byte Z i)
      = (List.range 8).map (fun j => decide (Z.getD (i + j) 0 ≠ chr0)) := by
  unfold byte_bits
  rw [pack_byte_val]
  unfold byte_value
  simp only [Finset.sum_range_succ, Finset.sum_range_zero, bit_at_eq_toNat]
  have h := bits_of_byte (decide (Z.getD (i + 0) 0 ≠ chr0)) (decide (Z.getD (i + 1) 0 ≠ chr0))
    (decide (Z.getD (i + 2) 0 ≠ chr0)) (decide (Z.getD (i + 3) 0 ≠ chr0))
    (decide (Z.getD (i + 4) 0 ≠ chr0)) (decide (Z.getD (i + 5) 0 ≠ chr0))
    (decide (Z.getD (i + 6) 0 ≠ chr0)) (decide (Z.getD (i + 7) 0 ≠ chr0))
  have hr : List.range 8 = [0, 1, 2, 3, 4, 5, 6, 7] := by decide
  rw [hr] at h ⊢
  simp only [List.map_cons, List.map_nil] at h ⊢
  norm_num at h ⊢
  exact h

theorem byte_bits_group (A : Str) (hA : A.length = 8) :
    byte_bits (pack_byte A 0) = code_bits A := by
  rw [byte_bits_pack_byte]
  apply List.ext_getElem
  · simp [code_bits, hA]
  · intro j h1 h2
    simp only [List.length_map, List.length_range] at h1
    simp only [List.getElem_map, List.getElem_range, code_bits, Nat.zero_add]
    rw [List.getD_eq_getElem A 0 (by omega)]

/-- The bits of the packed groups of a string whose length is a multiple of 8
are the bits of the string. -/
theorem bits_pack_groups (q : Nat) : ∀ (Z : Str), Z.length = 8 * q →
    ((pack_groups Z).map byte_bits).flatten = code_bits Z := by
  induction q with
  | zero =>
    intro Z hZ
    have : Z = [] := List.length_eq_zero.1 (by omega)
    subst this
    rfl
  | succ q ih =>
    intro Z hZ
    have hA : (Z.take 8).length = 8 * 1 := by rw [List.length_take]; omega
    have hW : (Z.drop 8).length = 8 * q := by rw [List.length_drop]; omega
    conv_lhs => rw [← List.take_append_drop 8 Z]
    rw [pack_groups_append _ _ 1 hA, List.map_append, List.flatten_append, ih _ hW]
    have h1 : pack_groups (Z.take 8) = [pack_byte (Z.take 8) 0] := by
      unfold pack_groups
      rw [hA]
      rfl
    rw [h1, List.map_singleton, List.flatten_singleton, byte_bits_group _ (by omega)]
    unfold code_bits
    rw [← List.map_append, List.take_append_drop]

theorem code_bits_append (a b : Str) : code_bits (a ++ b) = code_bits a ++ code_bits b := by
  simp [code_bits]

/-- The bits of the packed body: the bits of the bit string, then zero bits. -/
theorem bits_pack_pad (B : Str) :
    ((pack_groups (pad_bits B)).map byte_bits).flatten
      = code_bits B ++ List.replicate ((8 - B.length % 8) % 8) false := by
  rw [bits_pack_groups _ _ (pad_bits_length B)]
  unfold pad_bits
  rw [code_bits_append]
  congr 1
  simp [code_bits]

theorem id_byte_val (c : Byte) : id_byte (c.val : Int) = c := by
  apply Fin.ext
  have := c.isLt
  unfold id_byte
  show ((c.val : Int) % 256).toNat % 256 = c.val
  omega

theorem decode_bits_append (root : Node_ptr) (a b : List Bool) (n : Node_ptr) (o : Str) :
    decode_bits root (a ++ b) n o
      = match decode_bits root a n o with
        | .more n1 o1 => decode_bits root b n1 o1
        | r => r := by
  induction a generalizing n o with
  | nil => rfl
  | cons x a ih =>
    cases n with
    | NULL => rfl
    | node i f l r =>
      simp only [List.cons_append, decode_bits]
      cases hx : (if x = true then r else l) with
      | NULL => rfl
      | node i1 f1 l1 r1 =>
        simp only
        by_cases hleaf : l1 = Node_ptr.NULL ∧ r1 = Node_ptr.NULL
        · simp only [hleaf, and_self, if_true]
          by_cases hid : i1 = (PSEUDO_EOF : Int)
          · simp only [hid, if_true]
          · simp only [hid, if_false]
            exact ih _ _
        · simp only [hleaf, if_false]
          exact ih _ _

theorem decode_bits_prepend (root : Node_ptr) (bs : List Bool) (n : Node_ptr) (pre o : Str) :
    decode_bits root bs n (pre ++ o) = (decode_bits root bs n o).prepend pre := by
  induction bs generalizing n o with
  | nil => rfl
  | cons x a ih =>
    cases n with
    | NULL => rfl
    | node i f l r =>
      simp only [decode_bits]
      cases hx : (if x = true then r else l) with
      | NULL => rfl
      | node i1 f1 l1 r1 =>
        simp only
        by_cases hleaf : l1 = Node_ptr.NULL ∧ r1 = Node_ptr.NULL
        · simp only [hleaf, and_self, if_true]
          by_cases hid : i1 = (PSEUDO_EOF : Int)
          · simp only [hid, if_true, BitsResult.prepend]
          · simp only [hid, if_false]
            rw [List.append_assoc]
            exact ih _ _
        · simp only [hleaf, if_false]
          exact ih _ _

/-- Decoding the bits of one code: if the code leads from `n` to a leaf with
identifier `id`, the leaf is reached, and either the walk stops (pseudo-EOF) or
the byte is appended and the walk restarts at the root. -/
theorem decode_bits_code (root : Node_ptr) (code : Str) (hne : code ≠ []) (n : Node_ptr)
    (id : Int) (f : Nat) (hw : n.walk code = Node_ptr.node id f Node_ptr.NULL Node_ptr.NULL)
    (rest : List Bool) (o : Str) :
    decode_bits root (code_bits code ++ rest) n o
      = if id = (PSEUDO_EOF : Int) then .pseudo_eof o
        else decode_bits root rest root (o ++ [id_byte id]) := by
  induction code generalizing n with
  | nil => exact absurd rfl hne
  | cons c cs ih =>
    cases n with
    | NULL =>
      rw [Node_ptr.walk_null] at hw
      exact absurd hw (by simp)
    | node i0 f0 l r =>
      have hchild : (if decide (c ≠ chr0) = true then r else l)
          = (if c = chr0 then (Node_ptr.node i0 f0 l r).left else (Node_ptr.node i0 f0 l r).right) := by
        by_cases hc : c = chr0 <;> simp [hc, Node_ptr.left, Node_ptr.right]
      simp only [Node_ptr.walk] at hw
      rw [← hchild] at hw
      simp only [code_bits, List.map_cons, List.cons_append, decode_bits]
      cases hx : (if decide (c ≠ chr0) = true then r else l) with
      | NULL =>
        rw [hx, Node_ptr.walk_null] at hw
        exact absurd hw (by simp)
      | node i1 f1 l1 r1 =>
        rw [hx] at hw
        simp only
        cases cs with
        | nil =>
          simp only [Node_ptr.walk] at hw
          injection hw with e1 e2 e3 e4
          subst e1 e3 e4
          simp [id_byte]
        | cons c2 cs2 =>
          have hnl : ¬ (l1 = Node_ptr.NULL ∧ r1 = Node_ptr.NULL) := by
            rintro ⟨rfl, rfl⟩
            simp only [Node_ptr.walk, Node_ptr.left, Node_ptr.right, ite_self,
              Node_ptr.walk_null] at hw
            exact absurd hw (by simp)
          simp only [hnl, if_false]
          exact ih (by simp) _ hw

/-- Decoding the whole bit string gives back `S` and stops at the pseudo-EOF,
whatever bits follow. -/
theorem decode_bits_full (root : Node_ptr) (table : Table) (S : Str)
    (hS : ∀ c ∈ S, Decodes root table (c.val : Int))
    (hE : Decodes root table (PSEUDO_EOF : Int)) (rest : List Bool) (o : Str) :
    decode_bits root (code_bits (full_bit_string table S) ++ rest) root o
      = .pseudo_eof (o ++ S) := by
  induction S generalizing o with
  | nil =>
    obtain ⟨code, f, h1, h2, h3⟩ := hE
    have : full_bit_string table [] = code := by
      simp [full_bit_string, bit_string, h1]
    rw [this, decode_bits_code root code h2 root _ f h3, if_pos rfl, List.append_nil]
  | cons c S ih =>
    obtain ⟨code, f, h1, h2, h3⟩ := hS c (List.mem_cons_self _ _)
    have hsplit : full_bit_string table (c :: S) = code ++ full_bit_string table S := by
      simp [full_bit_string, bit_string_cons, h1]
    have hne : ((c.val : Nat) : Int) ≠ (PSEUDO_EOF : Int) := by
      have := c.isLt
      unfold PSEUDO_EOF
      omega
    rw [hsplit, code_bits_append, List.append_assoc,
      decode_bits_code root code h2 root _ f h3, if_neg hne, id_byte_val,
      ih (fun c hc => hS c (List.mem_cons_of_mem _ hc))]
    simp

/-- The byte loop of `decode_huffman` on a good stream: if decoding the bits of
the pending bytes reaches the pseudo-EOF with output `o1`, the loop finishes
having written `o1` after what was written before. -/
theorem decode_loop_finish (root : Node_ptr) : ∀ (rest : Str) (fuel : Nat) (c : Byte)
    (node : Node_ptr) (out written o1 : Str), rest.length < fuel →
    decode_bits root ((rest.map byte_bits).flatten) node out = .pseudo_eof o1 →
    decode_loop root fuel ⟨rest, false, false⟩ c node out written
      = ⟨written ++ o1, .finished⟩ := by
  intro rest
  induction rest with
  | nil =>
    intro fuel c node out written o1 _ h
    simp [decode_bits] at h
  | cons b r ih =>
    intro fuel c node out written o1 hfuel h
    cases fuel with
    | zero => simp at hfuel
    | succ fuel =>
      rw [List.map_cons, List.flatten_cons, decode_bits_append] at h
      unfold decode_loop
      simp only [Bool.false_eq_true, if_false, IStream.get, IStream.good, Bool.not_false,
        Bool.and_self, if_true]
      cases hb : decode_bits root (byte_bits b) node out with
      | null_deref => rw [hb] at h; simp at h
      | pseudo_eof o2 =>
        rw [hb] at h
        simp only [BitsResult.pseudo_eof.injEq] at h
        subst h
        rfl
      | more n1 o2 =>
        rw [hb] at h
        simp only at h
        simp only
        by_cases hlen : WRITE_BUFF_SIZE < o2.length
        · simp only [hlen, if_true]
          have h2 : decode_bits root ((r.map byte_bits).flatten) n1 (o2 ++ []) = .pseudo_eof o1 := by
            rw [List.append_nil]; exact h
          rw [decode_bits_prepend] at h2
          cases h3 : decode_bits root ((r.map byte_bits).flatten) n1 [] with
          | null_deref => rw [h3] at h2; simp [BitsResult.prepend] at h2
          | more n2 o3 => rw [h3] at h2; simp [BitsResult.prepend] at h2
          | pseudo_eof o3 =>
            rw [h3] at h2
            simp only [BitsResult.prepend, BitsResult.pseudo_eof.injEq] at h2
            rw [ih fuel b n1 [] (written ++ o2) o3 (by simpa using hfuel) h3, ← h2,
              List.append_assoc]
        · simp only [hlen, if_false]
          exact ih fuel b n1 o2 written o1 (by simpa using hfuel) h

theorem digit_char_val (d : Nat) (hd : d < 10) : (digit_char d).val = 48 + d := by
  unfold digit_char
  show (48 + d) % 256 = 48 + d
  omega

theorem digit_char_isdigit (d : Nat) (hd : d < 10) : isdigit (digit_char d) = true := by
  unfold isdigit
  rw [digit_char_val d hd]
  simp
  omega

theorem show_nat_aux_spec : ∀ (fuel n : Nat) (acc : Str), n < fuel →
    ∃ ds : Str, show_nat_aux fuel n acc = ds ++ acc ∧ ds ≠ []
      ∧ (∀ d ∈ ds, isdigit d = true)
      ∧ ∀ a0 : Nat, ds.foldl (fun a d => 10 * a + (d.val - 48)) a0 = a0 * 10 ^ ds.length + n := by
  intro fuel
  induction fuel with
  | zero => intro n acc h; omega
  | succ fuel ih =>
    intro n acc h
    unfold show_nat_aux
    by_cases h10 : n < 10
    · refine ⟨[digit_char n], by simp [h10], by simp, ?_, ?_⟩
      · intro d hd
        rw [List.mem_singleton] at hd
        subst hd
        exact digit_char_isdigit n h10
      · intro a0
        simp only [List.foldl_cons, List.foldl_nil, List.length_singleton, pow_one,
          digit_char_val n h10]
        omega
    · obtain ⟨ds, h1, _, h3, h4⟩ := ih (n / 10) (digit_char (n % 10) :: acc) (by omega)
      have hm : n % 10 < 10 := Nat.mod_lt _ (by norm_num)
      refine ⟨ds ++ [digit_char (n % 10)], by simp [h10, h1], by simp, ?_, ?_⟩
      · intro d hd
        rw [List.mem_append, List.mem_singleton] at hd
        rcases hd with hd | rfl
        · exact h3 d hd
        · exact digit_char_isdigit _ hm
      · intro a0
        rw [List.foldl_append, h4 a0]
        simp only [List.foldl_cons, List.foldl_nil, List.length_append, List.length_singleton,
          digit_char_val _ hm, pow_succ]
        have : 10 * (a0 * 10 ^ ds.length + n / 10) + (48 + n % 10 - 48)
            = a0 * (10 ^ ds.length * 10) + (10 * (n / 10) + n % 10) := by
          have e : 48 + n % 10 - 48 = n % 10 := by omega
          rw [e]; ring
        rw [this, Nat.div_add_mod]

theorem show_nat_spec (n : Nat) :
    show_nat n ≠ [] ∧ (∀ d ∈ show_nat n, isdigit d = true) ∧ digits_value (show_nat n) = n := by
  obtain ⟨ds, h1, h2, h3, h4⟩ := show_nat_aux_spec (n + 1) n [] (by omega)
  rw [List.append_nil] at h1
  unfold show_nat digits_value
  rw [h1]
  refine ⟨h2, h3, ?_⟩
  rw [h4 0]; simp

theorem takeWhile_append_stop {α : Type} (p : α → Bool) (a : List α) (c : α) (r : List α)
    (ha : ∀ x ∈ a, p x = true) (hc : p c = false) :
    (a ++ c :: r).takeWhile p = a ∧ (a ++ c :: r).dropWhile p = c :: r := by
  induction a with
  | nil => simp [List.takeWhile, List.dropWhile, hc]
  | cons x a ih =>
    have hx := ha x (List.mem_cons_self _ _)
    have := ih (fun y hy => ha y (List.mem_cons_of_mem _ hy))
    simp [List.takeWhile, List.dropWhile, hx, this]

theorem isdigit_not_space (d : Byte) (h : isdigit d = true) : isspace d = false := by
  unfold isdigit at h
  unfold isspace
  simp only [Bool.and_eq_true, decide_eq_true_eq] at h
  simp only [Bool.or_eq_false_iff, Bool.and_eq_false_iff, decide_eq_false_iff_not]
  omega

theorem isdigit_not_sign (d : Byte) (h : isdigit d = true) : d ≠ chrMinus ∧ d ≠ chrPlus := by
  unfold isdigit at h
  simp only [Bool.and_eq_true, decide_eq_true_eq] at h
  constructor
  · intro e; subst e; exact absurd h.1 (by decide)
  · intro e; subst e; exact absurd h.1 (by decide)

theorem takeWhile_append_rest {α : Type} (p : α → Bool) (a rest : List α)
    (ha : ∀ x ∈ a, p x = true) (hrest : ∀ c, rest.head? = some c → p c = false) :
    (a ++ rest).takeWhile p = a ∧ (a ++ rest).dropWhile p = rest := by
  cases rest with
  | nil =>
    rw [List.append_nil]
    exact ⟨List.takeWhile_eq_self_iff.2 ha, List.dropWhile_eq_nil_iff.2 ha⟩
  | cons c r => exact takeWhile_append_stop p a c r ha (hrest c rfl)

/-- Reading a decimal number, after whitespace and in front of the end of the
file or of a character that is not a digit: the number, or `INT_MAX` and
`failbit` when it does not fit an `int`. -/
theorem read_int_show_nat_general (ws : Str) (n : Nat) (rest : Str) (old : Int)
    (hws : ∀ x ∈ ws, isspace x = true)
    (hrest : ∀ c, rest.head? = some c → isdigit c = false) :
    (IStream.mk (ws ++ show_nat n ++ rest) false false).read_int old
      = (if (n : Int) ≤ INT_MAX then (n : Int) else INT_MAX,
          ⟨rest, rest.isEmpty, decide (INT_MAX < (n : Int))⟩) := by
  obtain ⟨h1, h2, h3⟩ := show_nat_spec n
  obtain ⟨d, ds, hds⟩ := List.exists_cons_of_ne_nil h1
  have hd : isdigit d = true := h2 d (by rw [hds]; exact List.mem_cons_self _ _)
  have hdrop : (ws ++ show_nat n ++ rest).dropWhile isspace = d :: (ds ++ rest) := by
    rw [List.append_assoc, hds, List.cons_append]
    exact (takeWhile_append_stop isspace ws d _ hws (isdigit_not_space d hd)).2
  have hsentry : (IStream.mk (ws ++ show_nat n ++ rest) false false).sentry
      = (true, ⟨d :: (ds ++ rest), false, false⟩) := by
    unfold IStream.sentry IStream.good
    simp only [Bool.not_false, Bool.and_self, if_true, hdrop]
  have htd := takeWhile_append_rest isdigit (show_nat n) rest h2 hrest
  rw [hds, List.cons_append] at htd
  unfold IStream.read_int
  rw [hsentry]
  simp only [(isdigit_not_sign d hd).1, (isdigit_not_sign d hd).2, if_false, htd.1, htd.2]
  rw [← hds, h3]
  have hne : show_nat n ≠ [] := h1
  simp only [hne, if_false, Bool.false_eq_true]
  have hlo : ¬ ((n : Int) < INT_MIN) := by unfold INT_MIN; omega
  simp only [hlo, if_false]
  by_cases hhi : INT_MAX < (n : Int)
  · have : ¬ ((n : Int) ≤ INT_MAX) := by omega
    simp only [hhi, this, if_true, if_false, decide_True]
  · have : (n : Int) ≤ INT_MAX := by omega
    simp only [hhi, this, if_true, if_false, decide_False]

/-- Reading a decimal number that fits an `int`, after whitespace and in front
of a character that is not a digit. -/
theorem read_int_show_nat (ws : Str) (n : Nat) (c : Byte) (r : Str) (old : Int)
    (hws : ∀ x ∈ ws, isspace x = true) (hn : (n : Int) ≤ INT_MAX) (hc : isdigit c = false) :
    (IStream.mk (ws ++ show_nat n ++ c :: r) false false).read_int old
      = ((n : Int), ⟨c :: r, false, false⟩) := by
  rw [read_int_show_nat_general ws n (c :: r) old hws (by
    intro x hx
    simp only [List.head?_cons, Option.some.injEq] at hx
    subst hx
    exact hc)]
  have : ¬ (INT_MAX < (n : Int)) := by omega
  simp [hn, this]

/-- Reading a word, after whitespace and in front of a whitespace character. -/
theorem read_string_token (ws tok : Str) (c : Byte) (r : Str) (old : Str)
    (hws : ∀ x ∈ ws, isspace x = true) (htok : tok ≠ [])
    (hns : ∀ x ∈ tok, isspace x = false) (hc : isspace c = true) :
    (IStream.mk (ws ++ tok ++ c :: r) false false).read_string old
      = (tok, ⟨c :: r, false, false⟩) := by
  obtain ⟨d, ds, hds⟩ := List.exists_cons_of_ne_nil htok
  have hd : isspace d = false := hns d (by rw [hds]; exact List.mem_cons_self _ _)
  have hdrop : (ws ++ tok ++ c :: r).dropWhile isspace = d :: (ds ++ c :: r) := by
    rw [List.append_assoc, hds, List.cons_append]
    exact (takeWhile_append_stop isspace ws d _ hws hd).2
  have hsentry : (IStream.mk (ws ++ tok ++ c :: r) false false).sentry
      = (true, ⟨d :: (ds ++ c :: r), false, false⟩) := by
    unfold IStream.sentry IStream.good
    simp only [Bool.not_false, Bool.and_self, if_true, hdrop]
  have htd := takeWhile_append_stop (fun x => !isspace x) tok c r
    (by intro x hx; simp [hns x hx]) (by simp [hc])
  rw [hds, List.cons_append] at htd
  unfold IStream.read_string
  rw [hsentry]
  simp only [htd.1, htd.2, List.isEmpty_cons, hds]

theorem isspace_minus : isspace chrMinus = false := by decide

/-- Reading a negative decimal number that fits an `int`, after whitespace and
in front of a character that is not a digit. -/
theorem read_int_show_neg (ws : Str) (n : Nat) (c : Byte) (r : Str) (old : Int)
    (hws : ∀ x ∈ ws, isspace x = true) (hn : n + 1 ≤ 2147483648) (hc : isdigit c = false) :
    (IStream.mk (ws ++ (chrMinus :: (show_nat (n + 1) ++ c :: r))) false false).read_int old
      = (Int.negSucc n, ⟨c :: r, false, false⟩) := by
  obtain ⟨h1, h2, h3⟩ := show_nat_spec (n + 1)
  have hdrop : (ws ++ (chrMinus :: (show_nat (n + 1) ++ c :: r))).dropWhile isspace
      = chrMinus :: (show_nat (n + 1) ++ c :: r) :=
    (takeWhile_append_stop isspace ws chrMinus _ hws isspace_minus).2
  have hsentry : (IStream.mk (ws ++ (chrMinus :: (show_nat (n + 1) ++ c :: r))) false false).sentry
      = (true, ⟨chrMinus :: (show_nat (n + 1) ++ c :: r), false, false⟩) := by
    unfold IStream.sentry IStream.good
    simp only [Bool.not_false, Bool.and_self, if_true, hdrop]
  have htd := takeWhile_append_stop isdigit (show_nat (n + 1)) c r h2 hc
  unfold IStream.read_int
  rw [hsentry]
  simp only [if_true, htd.1, htd.2, h3]
  have hne : show_nat (n + 1) ≠ [] := h1
  have hlo : ¬ (-((n + 1 : Nat) : Int) < INT_MIN) := by unfold INT_MIN; omega
  have hhi : ¬ (INT_MAX < -((n + 1 : Nat) : Int)) := by unfold INT_MAX; omega
  simp only [hne, if_false, hlo, hhi, List.isEmpty_cons]
  rfl

namespace Node_ptr

theorem label_eq_none {n : Node_ptr} : label n = none ↔ n = NULL := by
  cases n <;> simp [label]

theorem walk_cons_zero (i : Int) (f : Nat) (l r : Node_ptr) (p : Str) :
    walk (node i f l r) (chr0 :: p) = walk l p := by
  simp [walk, left]

theorem walk_cons_one (i : Int) (f : Nat) (l r : Node_ptr) (p : Str) :
    walk (node i f l r) (chr1 :: p) = walk r p := by
  have : chr1 ≠ chr0 := by decide
  simp [walk, right, this]

end Node_ptr

theorem binary_cons {c : Byte} {p : Str} : Binary (c :: p) ↔ (c = chr0 ∨ c = chr1) ∧ Binary p := by
  unfold Binary
  simp

theorem chr1_ne_chr0 : chr1 ≠ chr0 := by decide

theorem walk_set_child_same (c : Byte) (i : Int) (f : Nat) (l r sub : Node_ptr) (q : Str) :
    (if c = chr0 then Node_ptr.node i f sub r else Node_ptr.node i f l sub).walk (c :: q)
      = sub.walk q := by
  by_cases h : c = chr0
  · subst h; simp [Node_ptr.walk, Node_ptr.left]
  · simp [Node_ptr.walk, Node_ptr.right, h]

theorem walk_set_child_other (c x : Byte) (hc : c = chr0 ∨ c = chr1) (hx : x = chr0 ∨ x = chr1)
    (hne : x ≠ c) (i : Int) (f : Nat) (l r sub : Node_ptr) (q : Str) :
    (if c = chr0 then Node_ptr.node i f sub r else Node_ptr.node i f l sub).walk (x :: q)
      = (Node_ptr.node i f l r).walk (x :: q) := by
  rcases hc with rfl | rfl <;> rcases hx with rfl | rfl
  · exact absurd rfl hne
  · simp [Node_ptr.walk, Node_ptr.right, chr1_ne_chr0]
  · simp [Node_ptr.walk, Node_ptr.left, chr1_ne_chr0]
  · exact absurd rfl hne

theorem walk_child (c : Byte) (i : Int) (f : Nat) (l r : Node_ptr) (q : Str) :
    (Node_ptr.node i f l r).walk (c :: q) = (if c = chr0 then l else r).walk q := by
  by_cases h : c = chr0 <;> simp [Node_ptr.walk, Node_ptr.left, Node_ptr.right, h]

theorem walk_no_children (i : Int) (f : Nat) (q : Str) (hq : q ≠ []) :
    (Node_ptr.node i f Node_ptr.NULL Node_ptr.NULL).walk q = Node_ptr.NULL := by
  cases q with
  | nil => exact absurd rfl hq
  | cons c q => rw [walk_child]; simp [Node_ptr.walk_null]

theorem shapedLeaf_iff_isleaf (n : Node_ptr) (hn : n ≠ Node_ptr.NULL) :
    n.ShapedLeaf ↔ n.isleaf = true := by
  cases n with
  | NULL => exact absurd rfl hn
  | node i f l r =>
    simp [Node_ptr.ShapedLeaf, Node_ptr.isleaf, Node_ptr.left, Node_ptr.right]

theorem not_shapedLeaf_null : ¬ Node_ptr.NULL.ShapedLeaf := by
  rintro ⟨i, f, h⟩
  cases h

theorem insertable_no_children (i : Int) (f : Nat) (rem : Str) (hrem : rem ≠ []) :
    Insertable (Node_ptr.node i f Node_ptr.NULL Node_ptr.NULL) rem := by
  refine ⟨walk_no_children i f rem hrem, ?_⟩
  intro p _ hp _
  rw [walk_no_children i f p hp]
  exact not_shapedLeaf_null

theorem inserted_label_cons (c : Byte) (i : Int) (f : Nat) (l r : Node_ptr) (cs : Str) (id : Int)
    (q : Str) :
    inserted_label (Node_ptr.node i f l r) (c :: cs) id (c :: q)
      = inserted_label (if c = chr0 then l else r) cs id q := by
  unfold inserted_label
  rw [walk_child]
  simp only [List.cons.injEq, true_and, List.cons_prefix_cons]

theorem inserted_label_nil (i : Int) (f : Nat) (l r : Node_ptr) (c : Byte) (cs : Str) (id : Int) :
    inserted_label (Node_ptr.node i f l r) (c :: cs) id [] = some (i, f) := by
  unfold inserted_label
  simp [Node_ptr.walk, Node_ptr.label]

theorem inserted_label_other (c x : Byte) (hne : x ≠ c) (n : Node_ptr) (cs : Str) (id : Int)
    (q : Str) :
    inserted_label n (c :: cs) id (x :: q) = (n.walk (x :: q)).label := by
  unfold inserted_label
  simp [hne, List.cons_prefix_cons]

theorem inserted_label_fresh (cs : Str) (id : Int) (q : Str) :
    inserted_label Node_ptr.fresh cs id q = inserted_label Node_ptr.NULL cs id q := by
  unfold inserted_label
  by_cases h1 : q = cs
  · simp [h1]
  · simp only [h1, if_false, Node_ptr.walk_null, if_true]
    by_cases hq : q = []
    · subst hq
      simp [Node_ptr.walk, Node_ptr.fresh, Node_ptr.label]
    · rw [Node_ptr.fresh, walk_no_children 0 0 q hq]
      simp

theorem inserted_label_leaf (id : Int) (q : Str) :
    ((Node_ptr.node id 0 Node_ptr.NULL Node_ptr.NULL).walk q).label
      = inserted_label Node_ptr.NULL [] id q := by
  unfold inserted_label
  by_cases hq : q = []
  · subst hq; simp [Node_ptr.walk, Node_ptr.label]
  · rw [walk_no_children id 0 q hq]
    simp [hq, Node_ptr.walk_null, Node_ptr.label]

theorem labels_set_child (c : Byte) (hc : c = chr0 ∨ c = chr1) (i : Int) (f : Nat)
    (l r sub : Node_ptr) (cs : Str) (id : Int)
    (hsub : ∀ q, Binary q → (sub.walk q).label = inserted_label (if c = chr0 then l else r) cs id q) :
    ∀ q, Binary q →
      ((if c = chr0 then Node_ptr.node i f sub r else Node_ptr.node i f l sub).walk q).label
        = inserted_label (Node_ptr.node i f l r) (c :: cs) id q := by
  intro q hq
  cases q with
  | nil =>
    rw [inserted_label_nil]
    by_cases h : c = chr0 <;> simp [h, Node_ptr.walk, Node_ptr.label]
  | cons x q =>
    obtain ⟨hx, hq'⟩ := binary_cons.1 hq
    by_cases hxc : x = c
    · subst hxc
      rw [walk_set_child_same, inserted_label_cons]
      exact hsub q hq'
    · rw [walk_set_child_other c x hc hx hxc, inserted_label_other c x hxc]

theorem insertable_cons (c : Byte) (i : Int) (f : Nat) (l r : Node_ptr) (cs : Str) :
    Insertable (Node_ptr.node i f l r) (c :: cs)
      ↔ (if c = chr0 then l else r) = Node_ptr.NULL
        ∨ (cs ≠ [] ∧ ¬ (if c = chr0 then l else r).ShapedLeaf
            ∧ Insertable (if c = chr0 then l else r) cs) := by
  unfold Insertable
  rw [walk_child]
  constructor
  · rintro ⟨h1, h2⟩
    by_cases hnull : (if c = chr0 then l else r) = Node_ptr.NULL
    · exact Or.inl hnull
    · right
      have hcs : cs ≠ [] := by
        intro e; subst e
        exact hnull h1
      refine ⟨hcs, ?_, h1, ?_⟩
      · have := h2 [c] (by simp [List.cons_prefix_cons]) (by simp) (by simp [hcs])
        rwa [walk_child] at this
      · intro p hp hpne hpcs
        have := h2 (c :: p) (by simpa [List.cons_prefix_cons] using hp) (by simp) (by simpa using hpcs)
        rwa [walk_child] at this
  · rintro (hnull | ⟨hcs, hleaf, h1, h2⟩)
    · rw [hnull]
      refine ⟨Node_ptr.walk_null _, ?_⟩
      intro p hp hpne _
      cases p with
      | nil => exact absurd rfl hpne
      | cons x p =>
        have hx : x = c := by
          have := (List.cons_prefix_cons.1 hp).1
          exact this
        subst hx
        rw [walk_child, hnull, Node_ptr.walk_null]
        exact not_shapedLeaf_null
    · refine ⟨h1, ?_⟩
      intro p hp hpne hprem
      cases p with
      | nil => exact absurd rfl hpne
      | cons x p =>
        obtain ⟨hx, hp'⟩ := List.cons_prefix_cons.1 hp
        subst hx
        rw [walk_child]
        by_cases hpn : p = []
        · subst hpn; exact hleaf
        · exact h2 p hp' hpn (by intro e; subst e; exact hprem rfl)

/-- What the inner loop of `rebuild_huffman_tree` does with a non-empty binary
string: when the insertion is not blocked it succeeds, records the code in
`table`, and the tree gets the labels of `inserted_label`; when it is blocked
the run ends with "Huffman code is not valid". -/
theorem rebuild_walk_spec (id : Int) (code : Str) :
    ∀ (rem : Str), Binary rem → rem ≠ [] → ∀ (n : Node_ptr) (table : Table),
      n ≠ Node_ptr.NULL →
      (Insertable n rem →
        ∃ n1, rebuild_walk id code rem n table = .ok (n1, table.assign id code)
          ∧ n1 ≠ Node_ptr.NULL
          ∧ ∀ q, Binary q → (n1.walk q).label = inserted_label n rem id q)
      ∧ (¬ Insertable n rem →
        rebuild_walk id code rem n table = .error (.exited .code_not_valid)) := by
  intro rem
  induction rem with
  | nil => intro _ h; exact absurd rfl h
  | cons c cs ih =>
    intro hbin _ n table hn
    obtain ⟨hc, hcs⟩ := binary_cons.1 hbin
    cases n with
    | NULL => exact absurd rfl hn
    | node i f l r =>
      have hnb : ¬ (c ≠ chr0 ∧ c ≠ chr1) := by
        rcases hc with h | h
        · exact fun hh => hh.1 h
        · exact fun hh => hh.2 h
      have hset_ne : ∀ sub : Node_ptr,
          (if c = chr0 then Node_ptr.node i f sub r else Node_ptr.node i f l sub)
            ≠ Node_ptr.NULL := by
        intro sub
        by_cases h : c = chr0 <;> simp [h]
      rw [insertable_cons]
      unfold rebuild_walk
      simp only [hnb, if_false]
      by_cases hnull : (if c = chr0 then l else r) = Node_ptr.NULL
      · simp only [hnull, if_true, true_or, not_true_eq_false, false_implies, and_true,
          true_implies]
        by_cases hlast : cs = []
        · subst hlast
          simp only [List.isEmpty_nil, if_true, rebuild_walk]
          refine ⟨_, rfl, hset_ne _, ?_⟩
          apply labels_set_child c hc
          intro q _
          rw [hnull]
          exact inserted_label_leaf id q
        · have hempty : cs.isEmpty = false := by
            cases cs with
            | nil => exact absurd rfl hlast
            | cons _ _ => rfl
          simp only [hempty, Bool.false_eq_true, if_false]
          obtain ⟨sub, h1, _, h3⟩ := (ih hcs hlast Node_ptr.fresh table (by simp [Node_ptr.fresh])).1
            (insertable_no_children 0 0 cs hlast)
          rw [h1]
          refine ⟨_, rfl, hset_ne _, ?_⟩
          apply labels_set_child c hc
          intro q hq
          rw [hnull, h3 q hq]
          exact inserted_label_fresh cs id q
      · simp only [hnull, if_false, false_or]
        by_cases hlast : cs = []
        · subst hlast
          simp only [List.isEmpty_nil, if_true, ne_eq, not_true_eq_false, false_and,
            false_implies, not_false_eq_true, true_implies, true_and]
        · have hempty : cs.isEmpty = false := by
            cases cs with
            | nil => exact absurd rfl hlast
            | cons _ _ => rfl
          simp only [hempty, Bool.false_eq_true, if_false, ne_eq, hlast, not_false_eq_true,
            true_and]
          by_cases hleaf : (if c = chr0 then l else r).isleaf = true
          · have := (shapedLeaf_iff_isleaf _ hnull).2 hleaf
            simp only [hleaf, if_true, this, not_true_eq_false, false_and, false_implies,
              not_false_eq_true, true_implies, true_and]
          · have hns : ¬ (if c = chr0 then l else r).ShapedLeaf :=
              fun h => hleaf ((shapedLeaf_iff_isleaf _ hnull).1 h)
            simp only [hleaf, if_false, hns, not_false_eq_true, true_and, Bool.false_eq_true]
            obtain ⟨ih1, ih2⟩ := ih hcs hlast (if c = chr0 then l else r) table hnull
            constructor
            · intro hins
              obtain ⟨sub, h1, _, h3⟩ := ih1 hins
              rw [h1]
              exact ⟨_, rfl, hset_ne _, labels_set_child c hc i f l r sub cs id h3⟩
            · intro hins
              rw [ih2 hins]

theorem labels_after_append (L : List (Int × Str)) (e : Int × Str) :
    labels_after (L ++ [e]) = label_step (labels_after L) e := by
  unfold labels_after
  rw [List.foldl_append]
  rfl

theorem trieInv_fresh : TrieInv Node_ptr.fresh [] := by
  refine ⟨by simp [Node_ptr.fresh], ?_⟩
  intro q _
  unfold labels_after root_label
  simp only [List.foldl_nil]
  by_cases hq : q = []
  · subst hq; rfl
  · rw [Node_ptr.fresh, walk_no_children 0 0 q hq, if_neg hq]; rfl

theorem labels_after_ne_none (L : List (Int × Str)) (q : Str) :
    labels_after L q ≠ none ↔ q = [] ∨ ∃ e ∈ L, q <+: e.2 := by
  induction L using List.reverseRecOn with
  | nil => simp [labels_after, root_label]
  | append_singleton L e ih =>
    rw [labels_after_append]
    unfold label_step
    by_cases h1 : q = e.2
    · simp only [h1, if_true]
      constructor
      · intro _; right; exact ⟨e, by simp, List.prefix_refl _⟩
      · intro _; simp
    · simp only [h1, if_false]
      by_cases h2 : q <+: e.2
      · simp only [h2, if_true]
        constructor
        · intro _; right; exact ⟨e, by simp, h2⟩
        · intro _
          by_cases h3 : labels_after L q = none
          · simp [h3]
          · simp [h3]
      · simp only [h2, if_false, ih]
        constructor
        · rintro (h | ⟨e', he', hp⟩)
          · exact Or.inl h
          · exact Or.inr ⟨e', by simp [he'], hp⟩
        · rintro (h | ⟨e', he', hp⟩)
          · exact Or.inl h
          · right
            rw [List.mem_append, List.mem_singleton] at he'
            rcases he' with he' | rfl
            · exact ⟨e', he', hp⟩
            · exact absurd hp h2

theorem labels_after_code (L : List (Int × Str)) (hpf : PrefixFree L) (e : Int × Str)
    (he : e ∈ L) : labels_after L e.2 = some (e.1, 0) := by
  induction L using List.reverseRecOn with
  | nil => simp at he
  | append_singleton L e0 ih =>
    unfold PrefixFree at hpf
    rw [List.pairwise_append] at hpf
    obtain ⟨hL, _, hcross⟩ := hpf
    rw [labels_after_append]
    unfold label_step
    rw [List.mem_append, List.mem_singleton] at he
    rcases he with he | rfl
    · have hinc := hcross e he e0 (by simp)
      have h1 : e.2 ≠ e0.2 := by
        intro h; apply hinc.1; rw [h]
      simp only [h1, if_false, hinc.1, ih hL he]
    · simp

theorem labels_after_internal (L : List (Int × Str)) (q : Str)
    (hq : q = [] ∨ ∃ e ∈ L, q <+: e.2) (hnc : ∀ e ∈ L, e.2 ≠ q) :
    labels_after L q = some (0, 0) := by
  induction L using List.reverseRecOn with
  | nil =>
    rcases hq with rfl | ⟨e, he, _⟩
    · rfl
    · simp at he
  | append_singleton L e0 ih =>
    rw [labels_after_append]
    unfold label_step
    have h1 : q ≠ e0.2 := fun h => hnc e0 (by simp) h.symm
    have hnc' : ∀ e ∈ L, e.2 ≠ q := fun e he => hnc e (by simp [he])
    simp only [h1, if_false]
    by_cases h2 : q <+: e0.2
    · simp only [h2, if_true]
      by_cases h3 : labels_after L q = none
      · simp [h3]
      · simp only [h3, if_false]
        exact ih ((labels_after_ne_none L q).1 h3) hnc'
    · simp only [h2, if_false]
      apply ih _ hnc'
      rcases hq with h | ⟨e, he, hp⟩
      · exact Or.inl h
      · right
        rw [List.mem_append, List.mem_singleton] at he
        rcases he with he | rfl
        · exact ⟨e, he, hp⟩
        · exact absurd hp h2

theorem incomparable_symm : Symmetric Node_ptr.Incomparable := fun _ _ h => ⟨h.2, h.1⟩

theorem prefixFree_forall (L : List (Int × Str)) (hpf : PrefixFree L) (e1 e2 : Int × Str)
    (h1 : e1 ∈ L) (h2 : e2 ∈ L) (hne : e1 ≠ e2) : Node_ptr.Incomparable e1.2 e2.2 := by
  have hsym : Symmetric (fun e1 e2 : Int × Str => Node_ptr.Incomparable e1.2 e2.2) :=
    fun _ _ h => ⟨h.2, h.1⟩
  exact List.Pairwise.forall hsym hpf h1 h2 hne

theorem trie_walk_null_iff (T : Node_ptr) (L : List (Int × Str)) (hT : TrieInv T L) (q : Str)
    (hq : Binary q) : T.walk q = Node_ptr.NULL ↔ labels_after L q = none := by
  rw [← hT.2 q hq, Node_ptr.label_eq_none]

theorem binary_append {p q : Str} : Binary (p ++ q) ↔ Binary p ∧ Binary q := by
  unfold Binary
  simp only [List.mem_append]
  constructor
  · intro h; exact ⟨fun c hc => h c (Or.inl hc), fun c hc => h c (Or.inr hc)⟩
  · rintro ⟨h1, h2⟩ c (hc | hc)
    · exact h1 c hc
    · exact h2 c hc

theorem shapedLeaf_walk_iff (T : Node_ptr) (p : Str) :
    (T.walk p).ShapedLeaf ↔ T.walk p ≠ Node_ptr.NULL ∧ T.walk (p ++ [chr0]) = Node_ptr.NULL
      ∧ T.walk (p ++ [chr1]) = Node_ptr.NULL := by
  rw [Node_ptr.walk_append, Node_ptr.walk_append]
  cases h : T.walk p with
  | NULL => simp [Node_ptr.ShapedLeaf]
  | node i f l r =>
    rw [walk_child, walk_child]
    simp [Node_ptr.ShapedLeaf, Node_ptr.walk, chr1_ne_chr0]

theorem trie_shapedLeaf_iff (T : Node_ptr) (L : List (Int × Str)) (hT : TrieInv T L)
    (hpf : PrefixFree L) (hbc : BinaryCodes L) (p : Str) (hp : Binary p) (hne : p ≠ []) :
    (T.walk p).ShapedLeaf ↔ ∃ e ∈ L, e.2 = p := by
  have hb0 : Binary (p ++ [chr0]) := binary_append.2 ⟨hp, by simp [Binary]⟩
  have hb1 : Binary (p ++ [chr1]) := binary_append.2 ⟨hp, by simp [Binary]⟩
  rw [shapedLeaf_walk_iff, Ne, trie_walk_null_iff T L hT p hp,
    trie_walk_null_iff T L hT _ hb0, trie_walk_null_iff T L hT _ hb1]
  constructor
  · rintro ⟨h1, h2, h3⟩
    rcases (labels_after_ne_none L p).1 h1 with h | ⟨e, he, t, ht⟩
    · exact absurd h hne
    · refine ⟨e, he, ?_⟩
      cases t with
      | nil => rw [← ht, List.append_nil]
      | cons x t =>
        exfalso
        have hx : x = chr0 ∨ x = chr1 := (hbc e he).2 x (by rw [← ht]; simp)
        rcases hx with rfl | rfl
        · exact (labels_after_ne_none L _).2 (Or.inr ⟨e, he, t, by rw [← ht]; simp⟩) h2
        · exact (labels_after_ne_none L _).2 (Or.inr ⟨e, he, t, by rw [← ht]; simp⟩) h3
  · rintro ⟨e, he, rfl⟩
    have hchild : ∀ x : Byte, labels_after L (e.2 ++ [x]) = none := by
      intro x
      by_contra hcon
      rcases (labels_after_ne_none L _).1 hcon with h | ⟨e', he', hp'⟩
      · simp at h
      · have hpre : e.2 <+: e'.2 := (List.prefix_append _ _).trans hp'
        by_cases hee : e = e'
        · subst hee
          have := hp'.length_le
          simp at this
        · exact (prefixFree_forall L hpf e e' he he' hee).1 hpre
    refine ⟨?_, hchild chr0, hchild chr1⟩
    rw [labels_after_code L hpf e he]
    simp

/-- Under the invariant, the insertion of a new code is not blocked exactly when
the code is a prefix of no line already inserted and no such line is a prefix
of it. -/
theorem trie_insertable_iff (T : Node_ptr) (L : List (Int × Str)) (hT : TrieInv T L)
    (hpf : PrefixFree L) (hbc : BinaryCodes L) (c : Str) (hc : Binary c) (hne : c ≠ []) :
    Insertable T c ↔ ∀ e ∈ L, Node_ptr.Incomparable e.2 c := by
  unfold Insertable
  rw [trie_walk_null_iff T L hT c hc]
  constructor
  · rintro ⟨h1, h2⟩ e he
    constructor
    · intro hpre
      by_cases heq : e.2 = c
      · exact (labels_after_ne_none L c).2 (Or.inr ⟨e, he, by rw [heq]⟩) h1
      · have hb : Binary e.2 := (hbc e he).2
        exact h2 e.2 hpre (hbc e he).1 heq
          ((trie_shapedLeaf_iff T L hT hpf hbc e.2 hb (hbc e he).1).2 ⟨e, he, rfl⟩)
    · intro hpre
      exact (labels_after_ne_none L c).2 (Or.inr ⟨e, he, hpre⟩) h1
  · intro h
    constructor
    · by_contra hcon
      rcases (labels_after_ne_none L c).1 hcon with h0 | ⟨e, he, hp⟩
      · exact hne h0
      · exact (h e he).2 hp
    · intro p hp hpne _ hleaf
      have hpb : Binary p := by
        obtain ⟨t, rfl⟩ := hp
        exact (binary_append.1 hc).1
      obtain ⟨e, he, rfl⟩ := (trie_shapedLeaf_iff T L hT hpf hbc p hpb hpne).1 hleaf
      exact (h e he).1 hp

/-- One line: if its code is comparable with no earlier line it is inserted and
the invariant holds for the longer list; otherwise the run ends with "Huffman
code is not valid". -/
theorem trie_step (T : Node_ptr) (L : List (Int × Str)) (hT : TrieInv T L)
    (hpf : PrefixFree L) (hbc : BinaryCodes L) (e : Int × Str) (hc : Binary e.2)
    (hne : e.2 ≠ []) (table : Table) :
    ((∀ e' ∈ L, Node_ptr.Incomparable e'.2 e.2) →
      ∃ T1, rebuild_walk e.1 e.2 e.2 T table = .ok (T1, table.assign e.1 e.2)
        ∧ TrieInv T1 (L ++ [e]))
    ∧ (¬ (∀ e' ∈ L, Node_ptr.Incomparable e'.2 e.2) →
      rebuild_walk e.1 e.2 e.2 T table = .error (.exited .code_not_valid)) := by
  obtain ⟨s1, s2⟩ := rebuild_walk_spec e.1 e.2 e.2 hc hne T table hT.1
  rw [← trie_insertable_iff T L hT hpf hbc e.2 hc hne]
  refine ⟨?_, s2⟩
  intro hins
  obtain ⟨T1, h1, h2, h3⟩ := s1 hins
  refine ⟨T1, h1, h2, ?_⟩
  intro q hq
  rw [h3 q hq, labels_after_append]
  unfold inserted_label label_step
  rw [hT.2 q hq]
  simp only [trie_walk_null_iff T L hT q hq]

theorem rebuild_lines_spec (R : List (Int × Str)) :
    ∀ (T : Node_ptr) (L : List (Int × Str)) (table : Table), TrieInv T L → PrefixFree L →
      BinaryCodes L → BinaryCodes R →
      (PrefixFree (L ++ R) →
        ∃ T1, rebuild_lines R T table = .ok (T1, table.assign_all R) ∧ TrieInv T1 (L ++ R))
      ∧ (¬ PrefixFree (L ++ R) →
        rebuild_lines R T table = .error (.exited .code_not_valid)) := by
  induction R with
  | nil =>
    intro T L table hT hpf _ _
    rw [List.append_nil]
    exact ⟨fun _ => ⟨T, rfl, hT⟩, fun h => absurd hpf h⟩
  | cons e R ih =>
    intro T L table hT hpf hbL hbR
    have hbe := hbR e (List.mem_cons_self _ _)
    have hbR' : BinaryCodes R := fun x hx => hbR x (List.mem_cons_of_mem _ hx)
    obtain ⟨s1, s2⟩ := trie_step T L hT hpf hbL e hbe.2 hbe.1 table
    have happ : L ++ e :: R = (L ++ [e]) ++ R := by simp
    have hpfe : PrefixFree (L ++ [e]) ↔ ∀ e' ∈ L, Node_ptr.Incomparable e'.2 e.2 := by
      unfold PrefixFree
      rw [List.pairwise_append]
      constructor
      · rintro ⟨_, _, h⟩ e' he'
        exact h e' he' e (by simp)
      · intro h
        refine ⟨hpf, List.pairwise_singleton _ _, ?_⟩
        intro a ha b hb
        rw [List.mem_singleton] at hb
        subst hb
        exact h a ha
    unfold rebuild_lines
    by_cases hinc : ∀ e' ∈ L, Node_ptr.Incomparable e'.2 e.2
    · obtain ⟨T1, h1, h2⟩ := s1 hinc
      have hbL1 : BinaryCodes (L ++ [e]) := by
        intro x hx
        rw [List.mem_append, List.mem_singleton] at hx
        rcases hx with hx | rfl
        · exact hbL x hx
        · exact hbe
      obtain ⟨i1, i2⟩ := ih T1 (L ++ [e]) (table.assign e.1 e.2) h2 (hpfe.2 hinc) hbL1 hbR'
      rw [h1, happ]
      exact ⟨i1, i2⟩
    · rw [s2 hinc]
      refine ⟨?_, fun _ => rfl⟩
      intro hall
      exfalso
      apply hinc
      apply hpfe.1
      rw [happ] at hall
      unfold PrefixFree at hall ⊢
      exact (List.pairwise_append.1 hall).1

/-- The loop of `rebuild_huffman_tree` over non-empty binary codes, started
with the empty tree: it succeeds exactly when the codes are prefix-free. -/
theorem rebuild_lines_fresh (R : List (Int × Str)) (hb : BinaryCodes R) :
    (PrefixFree R →
      ∃ T1, rebuild_lines R Node_ptr.fresh [] = .ok (T1, Table.assign_all [] R) ∧ TrieInv T1 R)
    ∧ (¬ PrefixFree R →
      rebuild_lines R Node_ptr.fresh [] = .error (.exited .code_not_valid)) := by
  have := rebuild_lines_spec R Node_ptr.fresh [] [] trieInv_fresh
    (by simp [PrefixFree]) (by simp [BinaryCodes]) hb
  simpa using this

/-- In the rebuilt tree every line's code leads from the root to a leaf that
carries the line's identifier. -/
theorem trie_walk_code (T : Node_ptr) (L : List (Int × Str)) (hT : TrieInv T L)
    (hpf : PrefixFree L) (hbc : BinaryCodes L) (e : Int × Str) (he : e ∈ L) :
    T.walk e.2 = Node_ptr.node e.1 0 Node_ptr.NULL Node_ptr.NULL := by
  have hleaf := (trie_shapedLeaf_iff T L hT hpf hbc e.2 (hbc e he).2 (hbc e he).1).2 ⟨e, he, rfl⟩
  obtain ⟨i, f, hif⟩ := hleaf
  have hl := hT.2 e.2 (hbc e he).2
  rw [labels_after_code L hpf e he, hif] at hl
  simp only [Node_ptr.label, Option.some.injEq, Prod.mk.injEq] at hl
  rw [hif, hl.1, hl.2]

theorem isspace_NL : isspace chrNL = true := by decide

theorem isspace_SP : isspace chrSP = true := by decide

theorem isdigit_SP : isdigit chrSP = false := by decide

theorem isdigit_NL : isdigit chrNL = false := by decide

theorem show_int_natCast (n : Nat) : show_int (n : Int) = show_nat n := rfl

/-- Reading one written line: the identifier and the code come back, and the
stream stands at the newline that ends the line. -/
theorem read_line (e : Int × Str) (he : ValidLine e) (X : Str) (id0 : Int) (code0 : Str) :
    (IStream.mk (chrNL :: (header_line e ++ X)) false false).read_int id0
        = (e.1, ⟨chrSP :: (e.2 ++ chrNL :: X), false, false⟩)
      ∧ (IStream.mk (chrSP :: (e.2 ++ chrNL :: X)) false false).read_string code0
        = (e.2, ⟨chrNL :: X, false, false⟩) := by
  obtain ⟨h0, h1, h2, h3⟩ := he
  constructor
  · obtain ⟨id, code⟩ := e
    cases id with
    | ofNat k =>
      have := read_int_show_nat [chrNL] k chrSP (code ++ chrNL :: X) id0
        (by intro x hx; rw [List.mem_singleton] at hx; subst hx; exact isspace_NL)
        h1 isdigit_SP
      have hl : chrNL :: (header_line (Int.ofNat k, code) ++ X)
          = [chrNL] ++ show_nat k ++ chrSP :: (code ++ chrNL :: X) := by
        unfold header_line
        simp [show_int]
      rw [hl]
      exact this
    | negSucc k =>
      have hk : k + 1 ≤ 2147483648 := by
        unfold INT_MIN at h0
        simp only [Int.negSucc_eq] at h0
        omega
      have := read_int_show_neg [chrNL] k chrSP (code ++ chrNL :: X) id0
        (by intro x hx; rw [List.mem_singleton] at hx; subst hx; exact isspace_NL)
        hk isdigit_SP
      have hl : chrNL :: (header_line (Int.negSucc k, code) ++ X)
          = [chrNL] ++ (chrMinus :: (show_nat (k + 1) ++ chrSP :: (code ++ chrNL :: X))) := by
        unfold header_line
        simp [show_int]
      rw [hl]
      exact this
  · have := read_string_token [chrSP] e.2 chrNL X code0
      (by intro x hx; rw [List.mem_singleton] at hx; subst hx; exact isspace_SP)
      h2 h3 isspace_NL
    rw [← this]
    simp

theorem rebuild_loop_lines (lines : List (Int × Str)) (hv : ∀ e ∈ lines, ValidLine e)
    (rest : Str) :
    ∀ (id0 : Int) (code0 : Str) (root : Node_ptr) (table : Table),
      (∀ st, rebuild_lines lines root table = .error st →
        rebuild_loop lines.length
          ⟨⟨chrNL :: ((lines.map header_line).flatten ++ rest), false, false⟩,
            id0, code0, root, table⟩ = .error st)
      ∧ (∀ r t, rebuild_lines lines root table = .ok (r, t) →
        ∃ id1 code1, rebuild_loop lines.length
          ⟨⟨chrNL :: ((lines.map header_line).flatten ++ rest), false, false⟩,
            id0, code0, root, table⟩
          = .ok ⟨⟨chrNL :: rest, false, false⟩, id1, code1, r, t⟩) := by
  induction lines with
  | nil =>
    intro id0 code0 root table
    constructor
    · intro st h; simp [rebuild_lines] at h
    · intro r t h
      simp only [rebuild_lines, Except.ok.injEq, Prod.mk.injEq] at h
      obtain ⟨rfl, rfl⟩ := h
      exact ⟨id0, code0, rfl⟩
  | cons e es ih =>
    intro id0 code0 root table
    have he := hv e (List.mem_cons_self _ _)
    have hes : ∀ x ∈ es, ValidLine x := fun x hx => hv x (List.mem_cons_of_mem _ hx)
    obtain ⟨hr1, hr2⟩ := read_line e he ((es.map header_line).flatten ++ rest) id0 code0
    have hflat : ((e :: es).map header_line).flatten ++ rest
        = header_line e ++ ((es.map header_line).flatten ++ rest) := by
      simp
    simp only [List.length_cons, rebuild_loop, rebuild_lines, hflat, hr1, hr2]
    cases hw : rebuild_walk e.1 e.2 e.2 root table with
    | error st1 =>
      simp only
      constructor
      · intro st h
        injection h with h
        rw [h]
      · intro r t h; simp at h
    | ok p =>
      obtain ⟨r1, t1⟩ := p
      simp only
      exact ih hes e.1 e.2 r1 t1

/-- `rebuild_huffman_tree` on a file that starts with a written header of at
most `MAX_SIZE` valid lines: the lines are inserted in order. -/
theorem rebuild_huffman_tree_header (lines : List (Int × Str)) (hv : ∀ e ∈ lines, ValidLine e)
    (hlen : lines.length ≤ MAX_SIZE) (rest : Str) :
    (∀ st, rebuild_lines lines Node_ptr.fresh [] = .error st →
      rebuild_huffman_tree (IStream.open (write_header lines.length lines ++ rest)) = .error st)
    ∧ (∀ r t, rebuild_lines lines Node_ptr.fresh [] = .ok (r, t) →
      ∃ id1 code1, rebuild_huffman_tree (IStream.open (write_header lines.length lines ++ rest))
        = .ok ⟨⟨chrNL :: rest, false, false⟩, id1, code1, r, t⟩) := by
  have hfile : write_header lines.length lines ++ rest
      = [] ++ show_nat lines.length ++ chrNL :: ((lines.map header_line).flatten ++ rest) := by
    unfold write_header
    rw [show_int_natCast]
    simp
  have hmax : ((lines.length : Nat) : Int) ≤ INT_MAX := by
    unfold MAX_SIZE at hlen; unfold INT_MAX; omega
  have hread := read_int_show_nat [] lines.length chrNL
    ((lines.map header_line).flatten ++ rest) 0 (by simp) hmax isdigit_NL
  have hsentry : ((IStream.open (write_header lines.length lines ++ rest)).sentry).1 = true := by
    obtain ⟨h1, h2, _⟩ := show_nat_spec lines.length
    obtain ⟨d, ds, hds⟩ := List.exists_cons_of_ne_nil h1
    have hd : isdigit d = true := h2 d (by rw [hds]; exact List.mem_cons_self _ _)
    rw [hfile, hds]
    unfold IStream.sentry IStream.open IStream.good
    simp [List.dropWhile, isdigit_not_space d hd]
  have hgt : ¬ (((lines.length : Nat) : Int) > (MAX_SIZE : Int)) := by omega
  unfold rebuild_huffman_tree
  rw [hsentry]
  simp only [Bool.true_eq_false, if_false]
  rw [hfile]
  unfold IStream.open
  rw [hread]
  simp only [hgt, if_false, Int.toNat_ofNat]
  exact rebuild_loop_lines lines hv rest 0 [] Node_ptr.fresh []

/-- `rebuild_huffman_tree` on a file that starts with a number above `MAX_SIZE`:
the run ends with "The number of nodes is not valid". -/
theorem rebuild_huffman_tree_count (ws : Str) (n : Nat) (rest : Str)
    (hws : ∀ x ∈ ws, isspace x = true) (hn : MAX_SIZE < n)
    (hrest : ∀ c, rest.head? = some c → isdigit c = false) :
    rebuild_huffman_tree (IStream.open (ws ++ show_nat n ++ rest))
      = .error (.exited .node_count_not_valid) := by
  have hread := read_int_show_nat_general ws n rest 0 hws hrest
  have hsentry : ((IStream.open (ws ++ show_nat n ++ rest)).sentry).1 = true := by
    obtain ⟨h1, h2, _⟩ := show_nat_spec n
    obtain ⟨d, ds, hds⟩ := List.exists_cons_of_ne_nil h1
    have hd : isdigit d = true := h2 d (by rw [hds]; exact List.mem_cons_self _ _)
    have hdrop : (ws ++ show_nat n ++ rest).dropWhile isspace = d :: (ds ++ rest) := by
      rw [List.append_assoc, hds, List.cons_append]
      exact (takeWhile_append_stop isspace ws d _ hws (isdigit_not_space d hd)).2
    unfold IStream.sentry IStream.open IStream.good
    simp only [Bool.not_false, Bool.and_self, if_true, hdrop]
  unfold rebuild_huffman_tree
  rw [hsentry]
  simp only [Bool.true_eq_false, if_false]
  unfold IStream.open
  rw [hread]
  have hgt : (if (n : Int) ≤ INT_MAX then (n : Int) else INT_MAX) > (MAX_SIZE : Int) := by
    unfold MAX_SIZE at hn ⊢
    unfold INT_MAX
    split <;> omega
  simp only [hgt, if_true]

theorem leaves_ne_nil_of_full (t : Node_ptr) (h : t.Full) : t.leaves ≠ [] := by
  induction t with
  | NULL => exact absurd h (by simp [Node_ptr.Full])
  | node i f l r ihl _ =>
    rcases h with ⟨rfl, rfl⟩ | ⟨hl, _⟩
    · simp [Node_ptr.leaves]
    · rw [Node_ptr.leaves_node i f hl.ne_null]
      intro h
      exact ihl hl (List.append_eq_nil.1 h).1

theorem isleaf_of_single_leaf (t : Node_ptr) (h : t.Full) (x : Node_ptr)
    (hx : t.leaves = [x]) : t = x := by
  cases t with
  | NULL => exact absurd h (by simp [Node_ptr.Full])
  | node i f l r =>
    rcases h with ⟨rfl, rfl⟩ | ⟨hl, hr⟩
    · simpa [Node_ptr.leaves] using hx
    · rw [Node_ptr.leaves_node i f hl.ne_null] at hx
      have h1 := leaves_ne_nil_of_full l hl
      have h2 := leaves_ne_nil_of_full r hr
      have := congrArg List.length hx
      rw [List.length_append] at this
      have := List.length_pos.2 h1
      have := List.length_pos.2 h2
      simp at *
      omega

theorem not_isleaf_of_two_leaves (t : Node_ptr) (h : t.Full) (h2 : 2 ≤ t.leaves.length) :
    t.isleaf = false := by
  cases t with
  | NULL => exact absurd h (by simp [Node_ptr.Full])
  | node i f l r =>
    by_contra hc
    have hleaf : l = Node_ptr.NULL ∧ r = Node_ptr.NULL := by
      simpa [Node_ptr.isleaf, Node_ptr.left, Node_ptr.right] using hc
    simp [Node_ptr.leaves, hleaf] at h2

/-- With a single entry in `node_array` the tree is that entry. -/
theorem huffman_root_single (P : PriorityQueue) (S : Str) (x : Node_ptr)
    (hx : create_node_array S = [x]) : huffman_root P S = x := by
  obtain ⟨h1, _, h3⟩ := huffman_root_shape P S
  rw [hx] at h3
  have hp : ((huffman_root P S).leaves).Perm [x] := Quotient.exact h3
  exact isleaf_of_single_leaf _ h1 x (List.perm_singleton.1 hp)

theorem huffman_root_not_leaf (P : PriorityQueue) (S : Str)
    (h2 : 2 ≤ (create_node_array S).length) : (huffman_root P S).isleaf = false := by
  obtain ⟨h1, _, h3⟩ := huffman_root_shape P S
  have hp : ((huffman_root P S).leaves).Perm (create_node_array S) := Quotient.exact h3
  exact not_isleaf_of_two_leaves _ h1 (by rw [hp.length_eq]; exact h2)

theorem code_table_length (P : PriorityQueue) (S : Str) :
    (code_table P S).length = (create_node_array S).length := by
  have := congrArg List.length (code_table_keys P S)
  simpa using this

theorem create_node_array_length_le (S : Str) : (create_node_array S).length ≤ 257 := by
  rw [create_node_array_general, List.length_append, List.length_map]
  have : (counted_bytes S).length ≤ 256 := by
    unfold counted_bytes
    calc ((List.range 256).filter _).length ≤ (List.range 256).length :=
          List.length_filter_le _ _
      _ = 256 := List.length_range 256
  simp
  omega

theorem code_table_prefixFree (P : PriorityQueue) (S : Str) : PrefixFree (code_table P S) := by
  have hperm := (code_table_spec P S).2
  have hsym : Symmetric (fun e1 e2 : Int × Str => Node_ptr.Incomparable e1.2 e2.2) :=
    fun _ _ h => ⟨h.2, h.1⟩
  unfold PrefixFree
  rw [hperm.pairwise_iff (fun {a b} h => hsym h), Node_ptr.code_list_nil, List.pairwise_map]
  exact (Node_ptr.leaf_paths_pairwise _).imp (fun h => h)

theorem code_table_binary (P : PriorityQueue) (S : Str) (e : Int × Str)
    (he : e ∈ code_table P S) : Binary e.2 := by
  obtain ⟨p, hp, rfl⟩ := (code_table_mem P S e).1 he
  exact Node_ptr.leaf_paths_binary _ p hp

theorem code_table_ne_nil (P : PriorityQueue) (S : Str)
    (h2 : 2 ≤ (create_node_array S).length) (e : Int × Str) (he : e ∈ code_table P S) :
    e.2 ≠ [] := by
  obtain ⟨p, hp, rfl⟩ := (code_table_mem P S e).1 he
  exact Node_ptr.leaf_paths_ne_nil _ (huffman_root_not_leaf P S h2) p hp

theorem code_table_id_range (P : PriorityQueue) (S : Str) (e : Int × Str)
    (he : e ∈ code_table P S) : 0 ≤ e.1 ∧ e.1 ≤ 256 := by
  have hk : e.1 ∈ (code_table P S).map Prod.fst := List.mem_map.2 ⟨e, he, rfl⟩
  rw [code_table_keys, create_node_array_ids, List.mem_append, List.mem_map,
    List.mem_singleton] at hk
  rcases hk with ⟨i, hi, h⟩ | h
  · have := counted_bytes_lt S i hi
    omega
  · omega

theorem binary_not_space (p : Str) (hp : Binary p) : ∀ c ∈ p, isspace c = false := by
  intro c hc
  rcases hp c hc with rfl | rfl <;> decide

theorem code_table_valid (P : PriorityQueue) (S : Str)
    (h2 : 2 ≤ (create_node_array S).length) : ∀ e ∈ code_table P S, ValidLine e := by
  intro e he
  have hr := code_table_id_range P S e he
  refine ⟨?_, ?_, code_table_ne_nil P S h2 e he,
    binary_not_space _ (code_table_binary P S e he)⟩
  · unfold INT_MIN; omega
  · unfold INT_MAX; omega

theorem code_table_binaryCodes (P : PriorityQueue) (S : Str)
    (h2 : 2 ≤ (create_node_array S).length) : BinaryCodes (code_table P S) :=
  fun e he => ⟨code_table_ne_nil P S h2 e he, code_table_binary P S e he⟩

/-- The keys of the bytes of `S` are in `node_array` when no counter overflows. -/
theorem byte_in_node_array (S : Str) (hb : ∀ i, occurrences S i < 2147483648) (c : Byte)
    (hc : c ∈ S) : ((c.val : Nat) : Int) ∈ (create_node_array S).map Node_ptr.id := by
  rw [create_node_array_ids, counted_bytes_of_bounded S hb, List.mem_append, List.mem_map]
  left
  exact ⟨c.val, (mem_present_bytes S c.val).2 ⟨c, hc, rfl⟩, rfl⟩

theorem eof_in_node_array (S : Str) :
    ((PSEUDO_EOF : Nat) : Int) ∈ (create_node_array S).map Node_ptr.id := by
  rw [create_node_array_ids, List.mem_append, List.mem_singleton]
  right; rfl

theorem two_entries_of_ne_nil (S : Str) (hb : ∀ i, occurrences S i < 2147483648)
    (hne : S ≠ []) : 2 ≤ (create_node_array S).length := by
  obtain ⟨c, rest, rfl⟩ := List.exists_cons_of_ne_nil hne
  rw [create_node_array_general, counted_bytes_of_bounded _ hb, List.length_append,
    List.length_map]
  have : c.val ∈ present_bytes (c :: rest) :=
    (mem_present_bytes _ _).2 ⟨c, List.mem_cons_self _ _, rfl⟩
  have := List.length_pos_of_mem this
  simp
  omega

/-- What `compress` writes when no counter overflows: the header and the packed
bit string; the run finishes. -/
theorem compress_of_bounded (P : PriorityQueue) (S : Str)
    (hb : ∀ i, occurrences S i < 2147483648) :
    compress P S
      = ⟨write_header (code_table P S).length (code_table P S)
          ++ pack_groups (pad_bits (full_bit_string (code_table P S) S)), .finished⟩ := by
  rw [compress_eq, code_table_length]
  apply do_compress_eq
  · intro c hc
    obtain ⟨code, h, _⟩ := code_table_find_some P S _ (byte_in_node_array S hb c hc)
    exact ⟨code, h⟩
  · obtain ⟨code, h, _⟩ := code_table_find_some P S _ (eof_in_node_array S)
    exact ⟨code, h⟩

/-- Decompressing what `compress` wrote for a non-empty input, with any bytes
appended: the input comes back and the run finishes. -/
theorem decompress_compress_append (P : PriorityQueue) (S : Str)
    (hb : ∀ i, occurrences S i < 2147483648) (hne : S ≠ []) (T : Str) :
    decompress ((compress P S).out ++ T) = ⟨S, .finished⟩ := by
  have h2 := two_entries_of_ne_nil S hb hne
  have hbc := code_table_binaryCodes P S h2
  have hpf := code_table_prefixFree P S
  obtain ⟨T1, hT1, hinv⟩ := (rebuild_lines_fresh (code_table P S) hbc).1 hpf
  have hlen : (code_table P S).length ≤ MAX_SIZE := by
    rw [code_table_length]
    have := create_node_array_length_le S
    unfold MAX_SIZE; omega
  rw [compress_of_bounded P S hb]
  simp only [List.append_assoc]
  obtain ⟨id1, code1, hre⟩ := (rebuild_huffman_tree_header (code_table P S)
    (code_table_valid P S h2) hlen
    (pack_groups (pad_bits (full_bit_string (code_table P S) S)) ++ T)).2 _ _ hT1
  unfold decompress
  rw [hre]
  simp only
  unfold decode_huffman
  simp only [IStream.get, IStream.good, Bool.not_false, Bool.and_self, if_true]
  have hdec : ∀ k ∈ (create_node_array S).map Node_ptr.id, Decodes T1 (code_table P S) k := by
    intro k hk
    obtain ⟨code, hf, hm⟩ := code_table_find_some P S k hk
    exact ⟨code, 0, hf, code_table_ne_nil P S h2 _ hm,
      trie_walk_code T1 _ hinv hpf hbc (k, code) hm⟩
  have hbits := decode_bits_full T1 (code_table P S) S
    (fun c hc => hdec _ (byte_in_node_array S hb c hc)) (hdec _ (eof_in_node_array S))
    (List.replicate ((8 - (full_bit_string (code_table P S) S).length % 8) % 8) false
      ++ (T.map byte_bits).flatten) []
  rw [List.nil_append] at hbits
  have := decode_loop_finish T1
    (pack_groups (pad_bits (full_bit_string (code_table P S) S)) ++ T)
    ((pack_groups (pad_bits (full_bit_string (code_table P S) S)) ++ T).length + 2) chrNL T1 [] []
    S (by omega) (by
      rw [List.map_append, List.flatten_append, bits_pack_pad, List.append_assoc]
      exact hbits)
  rw [List.nil_append] at this
  exact this

namespace Node_ptr

theorem leftLighter_of_mergeOrdered (t : Node_ptr) (h : t.MergeOrdered) : t.LeftLighter := by
  induction t with
  | NULL => trivial
  | node i f l r ihl ihr =>
    rcases h with h | ⟨_, h2, h3, h4⟩
    · exact Or.inl h
    · exact Or.inr ⟨h2, ihl h3, ihr h4⟩

end Node_ptr

theorem zeroInv_step (F : Multiset Node_ptr) (a b : Node_ptr) (hinv : ZeroInv F)
    (ha : a ∈ F) (_h1 : ∀ y ∈ F, a.freq ≤ y.freq) (hb : b ∈ F.erase a)
    (_h2 : ∀ y ∈ F.erase a, b.freq ≤ y.freq) :
    ZeroInv (merge_nodes a b ::ₘ (F.erase a).erase b) := by
  intro t ht
  rw [Multiset.mem_cons] at ht
  rcases ht with rfl | ht
  · exact Or.inr ⟨rfl, hinv a ha, hinv b (Multiset.mem_of_mem_erase hb)⟩
  · exact hinv t (Multiset.mem_of_mem_erase (Multiset.mem_of_mem_erase ht))

theorem create_huffman_tree_zeroInternal (P : PriorityQueue) (l : List Node_ptr)
    (hl : ∀ t ∈ l, IsLeafNode t) (hne : l ≠ []) :
    (create_huffman_tree P (create_pq P l)).ZeroInternal := by
  have hc := create_pq_contents P l
  have h := create_huffman_tree_rule P ZeroInv zeroInv_step (create_pq P l)
    (by rw [hc]; simpa using hne) (by
      rw [hc]
      intro t ht
      obtain ⟨i, f, rfl⟩ := hl t (Multiset.mem_coe.1 ht)
      exact Or.inl ⟨rfl, rfl⟩)
  exact h _ (Multiset.mem_singleton_self _)

theorem sumInv_step (W0 : Nat) (hW : W0 < 4294967296) (F : Multiset Node_ptr) (a b : Node_ptr)
    (hinv : SumInv W0 F) (ha : a ∈ F) (_h1 : ∀ y ∈ F, a.freq ≤ y.freq) (hb : b ∈ F.erase a)
    (_h2 : ∀ y ∈ F.erase a, b.freq ≤ y.freq) :
    SumInv W0 (merge_nodes a b ::ₘ (F.erase a).erase b) := by
  obtain ⟨R, rfl, hR⟩ := two_of_mem_erase F a b ha hb
  rw [hR]
  obtain ⟨hall, hsum⟩ := hinv
  have hfa := hall a (by simp)
  have hfb := hall b (by simp)
  have hwm : (merge_nodes a b).weight = a.weight + b.weight :=
    Node_ptr.weight_node _ _ hfa.1.ne_null
  simp only [Multiset.map_cons, Multiset.sum_cons] at hsum
  have hnowrap : wrap_uint (a.freq + b.freq) = a.freq + b.freq := by
    unfold wrap_uint
    apply Nat.mod_eq_of_lt
    rw [hfa.2.1, hfb.2.1]
    omega
  refine ⟨?_, ?_⟩
  · intro t ht
    rw [Multiset.mem_cons] at ht
    rcases ht with rfl | ht
    · refine ⟨Node_ptr.full_node hfa.1 hfb.1, ?_, Or.inr ⟨hnowrap, hfa.2.2, hfb.2.2⟩⟩
      rw [hwm]
      show wrap_uint (a.freq + b.freq) = _
      rw [hnowrap, hfa.2.1, hfb.2.1]
    · exact hall t (by simp [ht])
  · simp only [Multiset.map_cons, Multiset.sum_cons]
    rw [hwm, ← hsum]; ring

theorem create_huffman_tree_exactSums (P : PriorityQueue) (l : List Node_ptr)
    (hl : ∀ t ∈ l, IsLeafNode t) (hne : l ≠ []) (hW : (l.map Node_ptr.freq).sum < 4294967296) :
    (create_huffman_tree P (create_pq P l)).ExactSums := by
  have hc := create_pq_contents P l
  have h := create_huffman_tree_rule P (SumInv (l.map Node_ptr.freq).sum)
    (fun F a b => sumInv_step _ hW F a b) (create_pq P l)
    (by rw [hc]; simpa using hne) (by
      rw [hc]
      refine ⟨?_, ?_⟩
      · intro t ht
        obtain ⟨i, f, rfl⟩ := hl t (Multiset.mem_coe.1 ht)
        exact ⟨Node_ptr.full_leaf i f, (Node_ptr.weight_leaf i f).symm, Or.inl ⟨rfl, rfl⟩⟩
      · rw [Multiset.map_coe, Multiset.sum_coe]
        congr 1
        apply List.map_congr_left
        intro t ht
        obtain ⟨i, f, rfl⟩ := hl t ht
        exact Node_ptr.weight_leaf i f)
  exact (h.1 _ (Multiset.mem_singleton_self _)).2.2

namespace Node_ptr

theorem erase_freq_eq_null {t : Node_ptr} : erase_freq t = NULL ↔ t = NULL := by
  cases t <;> simp [erase_freq]

theorem leaf_paths_erase_freq (t : Node_ptr) :
    (leaf_paths (erase_freq t)).map (fun e => (e.1, e.2.2))
      = (leaf_paths t).map (fun e => (e.1, e.2.2)) := by
  induction t with
  | NULL => rfl
  | node i f l r ihl ihr =>
    by_cases h : l = NULL ∧ r = NULL
    · obtain ⟨rfl, rfl⟩ := h
      simp [leaf_paths, erase_freq]
    · have h2 : ¬ (erase_freq l = NULL ∧ erase_freq r = NULL) := by
        rw [erase_freq_eq_null, erase_freq_eq_null]; exact h
      simp only [erase_freq, leaf_paths, h, h2, if_false, List.map_append, List.map_map]
      have e0 : ∀ (c : Byte) (x : Node_ptr),
          List.map ((fun e : Int × Nat × Str => (e.1, e.2.2)) ∘ fun e => (e.1, e.2.1, c :: e.2.2))
            (leaf_paths x)
          = List.map (fun e : Int × Str => (e.1, c :: e.2))
            (List.map (fun e : Int × Nat × Str => (e.1, e.2.2)) (leaf_paths x)) := by
        intro c x
        rw [List.map_map]
        rfl
      rw [e0, e0, e0, e0, ihl, ihr]

theorem full_erase_freq (t : Node_ptr) (h : t.Full) : (erase_freq t).Full := by
  induction t with
  | NULL => exact absurd h (by simp [Full])
  | node i f l r ihl ihr =>
    rcases h with ⟨rfl, rfl⟩ | ⟨hl, hr⟩
    · exact Or.inl ⟨rfl, rfl⟩
    · exact Or.inr ⟨ihl hl, ihr hr⟩

/-- Two trees with the same labels along every string of `'0'` and `'1'` are
equal. -/
theorem eq_of_labels (t1 : Node_ptr) :
    ∀ t2 : Node_ptr, (∀ q, Binary q → (t1.walk q).label = (t2.walk q).label) → t1 = t2 := by
  induction t1 with
  | NULL =>
    intro t2 h
    have := h [] (by simp [Binary])
    simp only [walk, label] at this
    exact (label_eq_none.1 this.symm).symm
  | node i f l r ihl ihr =>
    intro t2 h
    cases t2 with
    | NULL =>
      have := h [] (by simp [Binary])
      simp [walk, label] at this
    | node i2 f2 l2 r2 =>
      have h0 := h [] (by simp [Binary])
      simp only [walk, label, Option.some.injEq, Prod.mk.injEq] at h0
      have hl : l = l2 := by
        apply ihl
        intro q hq
        have := h (chr0 :: q) (binary_cons.2 ⟨Or.inl rfl, hq⟩)
        rwa [walk_cons_zero, walk_cons_zero] at this
      have hr : r = r2 := by
        apply ihr
        intro q hq
        have := h (chr1 :: q) (binary_cons.2 ⟨Or.inr rfl, hq⟩)
        rwa [walk_cons_one, walk_cons_one] at this
      rw [h0.1, h0.2, hl, hr]

theorem leaf_paths_ne_nil_of_full (t : Node_ptr) (h : t.Full) : leaf_paths t ≠ [] := by
  intro h0
  have := leaf_paths_leaves t
  rw [h0] at this
  exact leaves_ne_nil_of_full t h this.symm

/-- The labels of a built tree without its weights, read off its leaf paths. -/
theorem labels_erase_freq (t : Node_ptr) :
    t.Full → t.ZeroInternal → ∀ q, Binary q →
      (∃ p ∈ leaf_paths t, p.2.2 = q ∧ ((erase_freq t).walk q).label = some (p.1, 0))
      ∨ ((∃ p ∈ leaf_paths t, q <+: p.2.2) ∧ (∀ p ∈ leaf_paths t, p.2.2 ≠ q)
          ∧ ((erase_freq t).walk q).label = some (0, 0))
      ∨ ((∀ p ∈ leaf_paths t, ¬ q <+: p.2.2) ∧ ((erase_freq t).walk q).label = none) := by
  induction t with
  | NULL => intro h; exact absurd h (by simp [Full])
  | node i f l r ihl ihr =>
    intro hF hZ q hq
    by_cases h : l = NULL ∧ r = NULL
    · obtain ⟨rfl, rfl⟩ := h
      by_cases hq0 : q = []
      · subst hq0
        left
        exact ⟨(i, f, []), by simp [leaf_paths], rfl, rfl⟩
      · right; right
        refine ⟨?_, ?_⟩
        · intro p hp
          simp only [leaf_paths, and_self, if_true, List.mem_singleton] at hp
          subst hp
          simpa using hq0
        · show (walk (node i 0 NULL NULL) q).label = none
          rw [walk_no_children i 0 q hq0]
          rfl
    · have hFl : l.Full ∧ r.Full := by
        rcases hF with h' | h'
        · exact absurd h' h
        · exact h'
      have hZl : i = 0 ∧ l.ZeroInternal ∧ r.ZeroInternal := by
        rcases hZ with h' | h'
        · exact absurd h' h
        · exact h'
      have hlp : leaf_paths (node i f l r)
          = (leaf_paths l).map (fun e => (e.1, e.2.1, chr0 :: e.2.2))
            ++ (leaf_paths r).map (fun e => (e.1, e.2.1, chr1 :: e.2.2)) := by
        simp only [leaf_paths, h, if_false]
      rw [hlp]
      cases q with
      | nil =>
        right; left
        refine ⟨?_, ?_, ?_⟩
        · obtain ⟨p, hp⟩ := List.exists_mem_of_ne_nil _ (leaf_paths_ne_nil_of_full l hFl.1)
          exact ⟨(p.1, p.2.1, chr0 :: p.2.2), by simp; left; exact ⟨_, _, _, hp, rfl, rfl, rfl⟩,
            List.nil_prefix⟩
        · intro p hp
          rw [List.mem_append, List.mem_map, List.mem_map] at hp
          rcases hp with ⟨p', _, rfl⟩ | ⟨p', _, rfl⟩ <;> simp
        · show some (i, 0) = some ((0 : Int), 0)
          rw [hZl.1]
      | cons c q' =>
        have hq' := binary_cons.1 hq
        have key : ∀ (x : Node_ptr) (other : Node_ptr) (d : Byte), d ≠ c →
            (erase_freq (node i f l r)).walk (c :: q') = (erase_freq x).walk q' →
            ((leaf_paths (node i f l r)).Perm ((leaf_paths x).map (fun e => (e.1, e.2.1, c :: e.2.2))
              ++ (leaf_paths other).map (fun e => (e.1, e.2.1, d :: e.2.2)))) →
            ((∃ p ∈ leaf_paths x, p.2.2 = q' ∧ ((erase_freq x).walk q').label = some (p.1, 0))
              ∨ ((∃ p ∈ leaf_paths x, q' <+: p.2.2) ∧ (∀ p ∈ leaf_paths x, p.2.2 ≠ q')
                ∧ ((erase_freq x).walk q').label = some (0, 0))
              ∨ ((∀ p ∈ leaf_paths x, ¬ q' <+: p.2.2)
                ∧ ((erase_freq x).walk q').label = none)) →
            ((∃ p ∈ leaf_paths (node i f l r), p.2.2 = c :: q'
                ∧ ((erase_freq (node i f l r)).walk (c :: q')).label = some (p.1, 0))
              ∨ ((∃ p ∈ leaf_paths (node i f l r), c :: q' <+: p.2.2)
                ∧ (∀ p ∈ leaf_paths (node i f l r), p.2.2 ≠ c :: q')
                ∧ ((erase_freq (node i f l r)).walk (c :: q')).label = some (0, 0))
              ∨ ((∀ p ∈ leaf_paths (node i f l r), ¬ c :: q' <+: p.2.2)
                ∧ ((erase_freq (node i f l r)).walk (c :: q')).label = none)) := by
          intro x other d hd hw hperm hx
          have hmem : ∀ p, p ∈ leaf_paths (node i f l r) ↔
              (∃ p' ∈ leaf_paths x, p = (p'.1, p'.2.1, c :: p'.2.2))
              ∨ (∃ p' ∈ leaf_paths other, p = (p'.1, p'.2.1, d :: p'.2.2)) := by
            intro p
            rw [hperm.mem_iff, List.mem_append, List.mem_map, List.mem_map]
            constructor
            · rintro (⟨p', h1, rfl⟩ | ⟨p', h1, rfl⟩)
              · exact Or.inl ⟨p', h1, rfl⟩
              · exact Or.inr ⟨p', h1, rfl⟩
            · rintro (⟨p', h1, rfl⟩ | ⟨p', h1, rfl⟩)
              · exact Or.inl ⟨p', h1, rfl⟩
              · exact Or.inr ⟨p', h1, rfl⟩
          rw [hw]
          rcases hx with ⟨p, hp, hpq, hlab⟩ | ⟨⟨p, hp, hpre⟩, hne, hlab⟩ | ⟨hno, hlab⟩
          · left
            refine ⟨(p.1, p.2.1, c :: p.2.2), (hmem _).2 (Or.inl ⟨p, hp, rfl⟩), ?_, hlab⟩
            show c :: p.2.2 = c :: q'
            rw [hpq]
          · right; left
            refine ⟨⟨(p.1, p.2.1, c :: p.2.2), (hmem _).2 (Or.inl ⟨p, hp, rfl⟩), ?_⟩, ?_, hlab⟩
            · show c :: q' <+: c :: p.2.2
              exact (List.prefix_cons_inj c).2 hpre
            · intro p1 hp1
              rcases (hmem p1).1 hp1 with ⟨p', hp', rfl⟩ | ⟨p', hp', rfl⟩
              · intro he
                exact hne p' hp' (List.cons.inj he).2
              · intro he
                exact hd (List.cons.inj he).1
          · right; right
            refine ⟨?_, hlab⟩
            intro p1 hp1
            rcases (hmem p1).1 hp1 with ⟨p', hp', rfl⟩ | ⟨p', hp', rfl⟩
            · intro he
              exact hno p' hp' ((List.prefix_cons_inj c).1 he)
            · intro he
              have := List.cons_prefix_cons.1 he
              exact hd this.1.symm
        rw [← hlp]
        rcases hq'.1 with hc | hc
        · subst hc
          refine key l r chr1 chr1_ne_chr0 ?_ ?_ (ihl hFl.1 hZl.2.1 q' hq'.2)
          · show walk (node i 0 (erase_freq l) (erase_freq r)) (chr0 :: q') = _
            rw [walk_cons_zero]
          · rw [hlp]
        · subst hc
          refine key r l chr0 chr1_ne_chr0.symm ?_ ?_ (ihr hFl.2 hZl.2.2 q' hq'.2)
          · show walk (node i 0 (erase_freq l) (erase_freq r)) (chr1 :: q') = _
            rw [walk_cons_one]
          · rw [hlp]
            exact List.perm_append_comm

end Node_ptr

/-- Two ascending tables with the same entries are equal. -/
theorem Table.eq_of_perm (t1 t2 : Table) (h1 : t1.Ascending) (h2 : t2.Ascending)
    (hp : t1.Perm t2) : t1 = t2 := by
  have s1 : t1.Sorted (fun a b => a.1 < b.1) := by
    unfold Table.Ascending at h1
    exact List.pairwise_map.1 h1
  have s2 : t2.Sorted (fun a b => a.1 < b.1) := by
    unfold Table.Ascending at h2
    exact List.pairwise_map.1 h2
  haveI : IsAntisymm (Int × Str) (fun a b => a.1 < b.1) :=
    ⟨fun a b hab hba => absurd hab (not_lt.2 (le_of_lt hba))⟩
  exact List.eq_of_perm_of_sorted hp s1 s2

/-- A tree whose labels are those of the lines of the code table is the built
tree without its weights. -/
theorem trie_eq_erase_freq (P : PriorityQueue) (S : Str) (T1 : Node_ptr)
    (hT : TrieInv T1 (code_table P S)) : T1 = (huffman_root P S).erase_freq := by
  have hF := (huffman_root_shape P S).1
  have hZ : (huffman_root P S).ZeroInternal :=
    create_huffman_tree_zeroInternal P _ (create_node_array_isLeaf S) (create_node_array_ne_nil S)
  have hpf := code_table_prefixFree P S
  apply Node_ptr.eq_of_labels
  intro q hq
  rw [hT.2 q hq]
  rcases Node_ptr.labels_erase_freq _ hF hZ q hq with
    ⟨p, hp, hpq, hlab⟩ | ⟨⟨p, hp, hpre⟩, hne, hlab⟩ | ⟨hno, hlab⟩
  · rw [hlab]
    have he : ((p.1, p.2.2) : Int × Str) ∈ code_table P S := (code_table_mem P S _).2 ⟨p, hp, rfl⟩
    have := labels_after_code _ hpf _ he
    rw [← hpq]
    exact this
  · rw [hlab]
    apply labels_after_internal
    · right
      exact ⟨(p.1, p.2.2), (code_table_mem P S _).2 ⟨p, hp, rfl⟩, hpre⟩
    · intro e he
      obtain ⟨p', hp', rfl⟩ := (code_table_mem P S e).1 he
      exact hne p' hp'
  · rw [hlab]
    by_contra hcon
    rcases (labels_after_ne_none _ q).1 hcon with rfl | ⟨e, he, hpre⟩
    · obtain ⟨p, hp⟩ := List.exists_mem_of_ne_nil _ (Node_ptr.leaf_paths_ne_nil_of_full _ hF)
      exact hno p hp List.nil_prefix
    · obtain ⟨p', hp', rfl⟩ := (code_table_mem P S e).1 he
      exact hno p' hp' hpre

theorem Table.assign_all_self (t : Table) (ht : t.Ascending) : Table.assign_all [] t = t := by
  have h := Table.assign_all_spec t [] (by simp [Table.Ascending]) ht.nodup (by simp)
  rw [List.append_nil] at h
  exact Table.eq_of_perm _ _ h.1 ht h.2

theorem code_list_erase_freq (t : Node_ptr) : t.erase_freq.code_list [] = t.code_list [] := by
  rw [Node_ptr.code_list_nil, Node_ptr.code_list_nil]
  exact Node_ptr.leaf_paths_erase_freq t

/-- `rebuild_huffman_tree` on the header that `compress` writes for a non-empty
input, followed by any bytes: the tree is the built tree without its weights,
the table is the code table, and the stream stands at the last newline. -/
theorem rebuild_of_compress (P : PriorityQueue) (S : Str)
    (hb : ∀ i, occurrences S i < 2147483648) (hne : S ≠ []) (rest : Str) :
    ∃ id1 code1,
      rebuild_huffman_tree
          (IStream.open (write_header (code_table P S).length (code_table P S) ++ rest))
        = .ok ⟨⟨chrNL :: rest, false, false⟩, id1, code1, (huffman_root P S).erase_freq,
            code_table P S⟩ := by
  have h2 := two_entries_of_ne_nil S hb hne
  have hbc := code_table_binaryCodes P S h2
  have hpf := code_table_prefixFree P S
  obtain ⟨T1, hT1, hinv⟩ := (rebuild_lines_fresh (code_table P S) hbc).1 hpf
  have hlen : (code_table P S).length ≤ MAX_SIZE := by
    rw [code_table_length]
    have := create_node_array_length_le S
    unfold MAX_SIZE; omega
  rw [Table.assign_all_self _ (code_table_spec P S).1, trie_eq_erase_freq P S T1 hinv] at hT1
  exact (rebuild_huffman_tree_header (code_table P S) (code_table_valid P S h2) hlen rest).2 _ _ hT1

namespace Node_ptr

theorem inner_of_full (n : Node_ptr) (h : n.Full) (hl : n.isleaf = false) : n.Inner := by
  cases n with
  | NULL => exact absurd h (by simp [Full])
  | node i f l r =>
    rcases h with ⟨rfl, rfl⟩ | h
    · simp [isleaf, left, right] at hl
    · exact ⟨i, f, l, r, rfl, h⟩

end Node_ptr

/-- In a tree whose nodes all have two children or none, the inner loop of
`decode_huffman` never follows a null pointer. -/
theorem decode_bits_safe (root : Node_ptr) (hroot : root.Inner) (bits : List Bool) :
    ∀ (n : Node_ptr) (out : Str), n.Inner →
      (∃ o, decode_bits root bits n out = .pseudo_eof o)
      ∨ (∃ n1 o, decode_bits root bits n out = .more n1 o ∧ n1.Inner) := by
  induction bits with
  | nil =>
    intro n out hn
    exact Or.inr ⟨n, out, rfl, hn⟩
  | cons b bs ih =>
    intro n out hn
    obtain ⟨i, f, l, r, rfl, hl, hr⟩ := hn
    have hchild : (if b then r else l).Full := by
      cases b
      · exact hl
      · exact hr
    unfold decode_bits
    simp only
    generalize (if b = true then r else l) = child at hchild
    cases child with
    | NULL => exact absurd hchild (by simp [Node_ptr.Full])
    | node id f1 l1 r1 =>
      simp only
      rcases hchild with ⟨rfl, rfl⟩ | ⟨h1, h2⟩
      · simp only [and_self, if_true]
        by_cases hid : id = PSEUDO_EOF
        · rw [if_pos hid]
          exact Or.inl ⟨out, rfl⟩
        · rw [if_neg hid]
          exact ih root _ hroot
      · have hne : ¬ (l1 = Node_ptr.NULL ∧ r1 = Node_ptr.NULL) := fun h => h1.ne_null h.1
        rw [if_neg hne]
        exact ih _ out ⟨id, f1, l1, r1, rfl, h1, h2⟩

/-- In such a tree the loop of `decode_huffman` finishes on every sequence
of bytes. -/
theorem decode_loop_safe (root : Node_ptr) (hroot : root.Inner) (rest : Str) :
    ∀ (fuel : Nat) (c : Byte) (n : Node_ptr) (out written : Str), rest.length + 2 ≤ fuel →
      n.Inner → (decode_loop root fuel ⟨rest, false, false⟩ c n out written).status = .finished := by
  induction rest with
  | nil =>
    intro fuel c n out written hf hn
    obtain ⟨fuel1, rfl⟩ : ∃ k, fuel = k + 1 := ⟨fuel - 1, by simp at hf; omega⟩
    obtain ⟨fuel2, rfl⟩ : ∃ k, fuel1 = k + 1 := ⟨fuel1 - 1, by simp at hf; omega⟩
    unfold decode_loop
    simp only [Bool.false_eq_true, if_false, IStream.get, IStream.good, Bool.not_false,
      Bool.and_self, if_true]
    rcases decode_bits_safe root hroot (byte_bits c) n out hn with ⟨o, h⟩ | ⟨n1, o, h, _⟩
    · rw [h]
    · rw [h]
      simp only
      unfold decode_loop
      simp only [if_true]
      split <;> rfl
  | cons b r ih =>
    intro fuel c n out written hf hn
    obtain ⟨fuel1, rfl⟩ : ∃ k, fuel = k + 1 := ⟨fuel - 1, by simp at hf; omega⟩
    unfold decode_loop
    simp only [Bool.false_eq_true, if_false, IStream.get, IStream.good, Bool.not_false,
      Bool.and_self, if_true]
    rcases decode_bits_safe root hroot (byte_bits b) n out hn with ⟨o, h⟩ | ⟨n1, o, h, hn1⟩
    · rw [h]
    · rw [h]
      simp only
      have hf1 : r.length + 2 ≤ fuel1 := by simp at hf; omega
      split
      · exact ih fuel1 b n1 [] _ hf1 hn1
      · exact ih fuel1 b n1 o _ hf1 hn1

/-- Decompressing the header that `compress` writes for a non-empty input,
followed by any bytes at all: the run finishes. -/
theorem decompress_any_body (P : PriorityQueue) (S : Str)
    (hb : ∀ i, occurrences S i < 2147483648) (hne : S ≠ []) (body : Str) :
    (decompress (write_header (code_table P S).length (code_table P S) ++ body)).status
      = .finished := by
  obtain ⟨id1, code1, hre⟩ := rebuild_of_compress P S hb hne body
  have h2 := two_entries_of_ne_nil S hb hne
  have hF := Node_ptr.full_erase_freq _ (huffman_root_shape P S).1
  have hleaf : (huffman_root P S).erase_freq.isleaf = false := by
    have := huffman_root_not_leaf P S h2
    cases hr : huffman_root P S with
    | NULL =>
      have hF0 := (huffman_root_shape P S).1
      rw [hr] at hF0
      exact absurd hF0 (by simp [Node_ptr.Full])
    | node i f l r =>
      rw [hr] at this
      simp only [Node_ptr.isleaf, Node_ptr.left, Node_ptr.right, Node_ptr.erase_freq,
        Node_ptr.erase_freq_eq_null] at this ⊢
      exact this
  have hI := Node_ptr.inner_of_full _ hF hleaf
  unfold decompress
  rw [hre]
  simp only
  unfold decode_huffman
  simp only [IStream.get, IStream.good, Bool.not_false, Bool.and_self, if_true]
  exact decode_loop_safe _ hI body _ chrNL _ [] [] (le_refl _) hI

theorem create_node_array_nil : create_node_array [] = [Node_ptr.leaf PSEUDO_EOF 1] := by
  rw [create_node_array_of_bounded [] (by intro i; simp [occurrences])]
  have : present_bytes [] = [] := by
    apply List.eq_nil_iff_forall_not_mem.2
    intro i hi
    obtain ⟨b, hb, _⟩ := (mem_present_bytes [] i).1 hi
    simp at hb
  rw [this]
  rfl

theorem code_table_of_single (P : PriorityQueue) (S : Str)
    (h : create_node_array S = [Node_ptr.leaf PSEUDO_EOF 1]) :
    code_table P S = [(((PSEUDO_EOF : Nat) : Int), ([] : Str))] := by
  unfold code_table
  rw [huffman_root_single P S _ h]
  rfl

theorem compress_of_single (P : PriorityQueue) (S : Str)
    (h : create_node_array S = [Node_ptr.leaf PSEUDO_EOF 1]) :
    compress P S = do_compress S 1 [(((PSEUDO_EOF : Nat) : Int), ([] : Str))] := by
  rw [compress_eq, code_table_of_single P S h, h]
  rfl

/-- The empty input: `compress` writes `"1\n256 \n"` and nothing else. -/
theorem compress_nil (P : PriorityQueue) : compress P [] = ⟨sentinel_header, .finished⟩ := by
  rw [compress_of_single P [] create_node_array_nil]
  decide

/-- An input of `2^31` copies of one byte: the run ends at the first byte with
"Can't find the huffman code of character". -/
theorem compress_overflow (P : PriorityQueue) (b : Byte) :
    compress P (List.replicate 2147483648 b)
      = ⟨sentinel_header, .exited (.no_code_of_character b)⟩ := by
  rw [compress_of_single P _ (create_node_array_overflow b)]
  have hfind : Table.find [(((PSEUDO_EOF : Nat) : Int), ([] : Str))] ((b.val : Nat) : Int)
      = none := by
    unfold Table.find
    have : ((b.val : Nat) : Int) ≠ PSEUDO_EOF := by
      have := b.isLt
      unfold PSEUDO_EOF
      omega
    simp [this, Table.find]
  rw [show (2147483648 : Nat) = 2147483647 + 1 from rfl, List.replicate_succ]
  generalize List.replicate 2147483647 b = tail
  have hw : write_header 1 [(((PSEUDO_EOF : Nat) : Int), ([] : Str))] = sentinel_header := by
    decide
  unfold do_compress
  simp only [encode_loop_error _ b _ _ _ hfind, hw]

set_option maxRecDepth 100000 in
theorem decompress_sentinel_header : decompress sentinel_header = ⟨[], .finished⟩ := by
  decide

/-- The bytes of `S` counted over the byte values that occur add up to its
length. -/
theorem occurrences_sum (S : Str) : ((present_bytes S).map (occurrences S)).sum = S.length := by
  have h := List.sum_map_count_dedup_eq_length (S.map Fin.val)
  have hp : (present_bytes S).Perm (S.map Fin.val).dedup :=
    (List.perm_ext_iff_of_nodup (present_bytes_nodup S) (List.nodup_dedup _)).2 (fun i => by
      rw [mem_present_bytes, List.mem_dedup, List.mem_map])
  rw [(hp.map _).sum_eq]
  rw [List.length_map] at h
  exact h

theorem wrap_int_toNat_le (n : Nat) (h : n < 4294967296) : (wrap_int (n : Int)).toNat ≤ n := by
  unfold wrap_int
  omega

theorem freq_leaf_le (i : Int) (x n : Nat) (h : x ≤ n) : (Node_ptr.leaf i x).freq ≤ n := h

theorem sum_map_freq_le (l : List Nat) (f : Nat → Node_ptr) (g : Nat → Nat)
    (h : ∀ i ∈ l, (f i).freq ≤ g i) : ((l.map f).map Node_ptr.freq).sum ≤ (l.map g).sum := by
  induction l with
  | nil => simp
  | cons a l ih =>
    simp only [List.map_cons, List.sum_cons]
    exact Nat.add_le_add (h a (List.mem_cons_self _ _))
      (ih (fun i hi => h i (List.mem_cons_of_mem _ hi)))

theorem counted_sublist_present (S : Str) : (counted_bytes S).Sublist (present_bytes S) := by
  have hc : counted_bytes S = (present_bytes S).filter
      (fun i => decide (0 < wrap_int (occurrences S i))) := by
    unfold counted_bytes present_bytes
    rw [List.filter_filter]
    apply List.filter_congr
    intro i _
    by_cases h : 0 < wrap_int (occurrences S i)
    · have : 0 < occurrences S i := by
        by_contra h0
        have h00 : occurrences S i = 0 := by omega
        rw [h00] at h
        have hz : wrap_int ((0 : Nat) : Int) = 0 := wrap_int_zero
        rw [hz] at h
        exact absurd h (lt_irrefl _)
      simp [h, this]
    · simp [h]
  rw [hc]
  exact List.filter_sublist _

/-- The weights in `node_array` never add up to more than the input length
plus one when the input has fewer than `2^32` bytes. -/
theorem node_array_sum_le (S : Str) (hlen : S.length < 4294967296) :
    ((create_node_array S).map Node_ptr.freq).sum ≤ S.length + 1 := by
  rw [create_node_array_general, List.map_append, List.sum_append]
  have hocc : ∀ i, occurrences S i ≤ S.length := by
    intro i
    unfold occurrences
    exact (List.count_le_length _ _).trans (by rw [List.length_map])
  have h1 := sum_map_freq_le (counted_bytes S)
    (fun (i : Nat) => Node_ptr.leaf (i : Int) (wrap_int (occurrences S i)).toNat) (occurrences S)
    (fun i _ => freq_leaf_le _ _ _ (wrap_int_toNat_le _ (lt_of_le_of_lt (hocc i) hlen)))
  have h2 : ((counted_bytes S).map (occurrences S)).sum
      ≤ ((present_bytes S).map (occurrences S)).sum :=
    ((counted_sublist_present S).map _).sum_le_sum (fun _ _ => Nat.zero_le _)
  have h3 := h2.trans (le_of_eq (occurrences_sum S))
  exact Nat.add_le_add_right (h1.trans h3) 1

/-- The weights in `node_array` add up to the input length plus one when no
counter overflows. -/
theorem node_array_sum (S : Str) (hb : ∀ i, occurrences S i < 2147483648) :
    ((create_node_array S).map Node_ptr.freq).sum = S.length + 1 := by
  rw [create_node_array_of_bounded S hb, List.map_append, List.sum_append, List.map_map]
  have h1 : (List.map (Node_ptr.freq ∘ fun (i : Nat) => Node_ptr.leaf (i : Int) (occurrences S i))
      (present_bytes S)) = (present_bytes S).map (occurrences S) := by
    apply List.map_congr_left
    intro i _
    simp only [Function.comp, freq_leaf]
  rw [h1, occurrences_sum]
  rfl

/-- Round trip for every input in which no byte value occurs `2^31` times or
more: `compress` finishes and `decompress` returns the input. -/
theorem decompress_compress (P : PriorityQueue) (S : Str)
    (hb : ∀ i, occurrences S i < 2147483648) :
    (compress P S).status = .finished ∧ decompress (compress P S).out = ⟨S, .finished⟩ := by
  refine ⟨by rw [compress_of_bounded P S hb], ?_⟩
  by_cases hne : S = []
  · subst hne
    rw [compress_nil]
    exact decompress_sentinel_header
  · have := decompress_compress_append P S hb hne []
    rwa [List.append_nil] at this

/-- The encoding loop can only end a run with "Can't find the huffman code of
character". -/
theorem encode_loop_error_msg (table : Table) (S : Str) :
    ∀ (code out : Str) (msg : ExitMsg) (out1 : Str),
      encode_loop table S code out = .error (msg, out1) → ∃ c, msg = .no_code_of_character c := by
  induction S with
  | nil =>
    intro code out msg out1 h
    simp [encode_loop] at h
  | cons c rest ih =>
    intro code out msg out1 h
    unfold encode_loop at h
    cases hf : table.find c.val with
    | none =>
      rw [hf] at h
      simp only [Except.error.injEq, Prod.mk.injEq] at h
      exact ⟨c, h.1.symm⟩
    | some s =>
      rw [hf] at h
      simp only at h
      split at h
      · exact ih _ _ msg out1 h
      · exact ih _ _ msg out1 h

theorem do_compress_status (S : Str) (size : Nat) (table : Table) :
    (do_compress S size table).status = .finished
      ∨ (do_compress S size table).status = .exited .no_code_of_pseudo_eof
      ∨ ∃ c, (do_compress S size table).status = .exited (.no_code_of_character c) := by
  unfold do_compress
  simp only
  cases h : encode_loop table S [] (write_header size table) with
  | error e =>
    obtain ⟨msg, out⟩ := e
    obtain ⟨c, rfl⟩ := encode_loop_error_msg table S _ _ msg out h
    exact Or.inr (Or.inr ⟨c, rfl⟩)
  | ok p =>
    obtain ⟨code, out⟩ := p
    simp only
    cases table.find PSEUDO_EOF with
    | none => exact Or.inr (Or.inl rfl)
    | some s => exact Or.inl rfl

namespace Node_ptr

theorem cost_eq_wpl (t : Node_ptr) : cost t = wpl t := by
  unfold cost wpl wsum
  rw [leaf_paths_wdepths, Multiset.map_coe, Multiset.sum_coe, List.map_map]
  rfl

theorem contract_eq_null {t : Node_ptr} : contract t = NULL ↔ t = NULL := by
  induction t with
  | NULL => simp [contract]
  | node i f l r ihl ihr =>
    unfold contract
    by_cases hl : l = NULL <;> by_cases hr : r = NULL <;> simp [hl, hr, ihl, ihr]

theorem contract_full (t : Node_ptr) (h : t ≠ NULL) : (contract t).Full := by
  induction t with
  | NULL => exact absurd rfl h
  | node i f l r ihl ihr =>
    unfold contract
    by_cases hl : l = NULL <;> by_cases hr : r = NULL
    · simp only [hl, hr, if_true]; exact Or.inl ⟨rfl, rfl⟩
    · simp only [hl, hr, if_true, if_false]; exact ihr hr
    · simp only [hl, hr, if_true, if_false]; exact ihl hl
    · simp only [hl, hr, if_false]; exact Or.inr ⟨ihl hl, ihr hr⟩

theorem leaves_contract (t : Node_ptr) : leaves (contract t) = leaves t := by
  induction t with
  | NULL => rfl
  | node i f l r ihl ihr =>
    unfold contract
    by_cases hl : l = NULL <;> by_cases hr : r = NULL
    · subst hl; subst hr; simp [leaves]
    · subst hl; simp only [if_true, hr, if_false, ihr]; simp [leaves, hr]
    · subst hr; simp only [hl, if_true, if_false, ihl]; simp [leaves, hl]
    · simp only [hl, hr, if_false]
      have h1 : contract l ≠ NULL := fun h => hl (contract_eq_null.1 h)
      simp [leaves, hl, h1, ihl, ihr]

theorem weight_contract (t : Node_ptr) : weight (contract t) = weight t := by
  induction t with
  | NULL => rfl
  | node i f l r ihl ihr =>
    unfold contract
    by_cases hl : l = NULL <;> by_cases hr : r = NULL
    · subst hl; subst hr; simp [weight]
    · subst hl; simp only [if_true, hr, if_false, ihr]; simp [weight, hr]
    · subst hr; simp only [hl, if_true, if_false, ihl]; simp [weight, hl]
    · simp only [hl, hr, if_false]
      have h1 : contract l ≠ NULL := fun h => hl (contract_eq_null.1 h)
      simp [weight, hl, h1, ihl, ihr]

theorem cost_null : cost NULL = 0 := by
  simp [cost, wdepths, wsum]

theorem weight_null : weight NULL = 0 := rfl

theorem cost_node_general (i : Int) (f : Nat) (l r : Node_ptr) (h : ¬ (l = NULL ∧ r = NULL)) :
    cost (node i f l r) = cost l + cost r + weight l + weight r := by
  unfold cost
  have : wdepths (node i f l r) = (wdepths l + wdepths r).map (fun p => (p.1, p.2 + 1)) := by
    simp [wdepths, h]
  rw [this, wsum_raise, wsum_add, Multiset.map_add, Multiset.sum_add,
    ← weight_eq_sum, ← weight_eq_sum]
  ring

theorem cost_contract_le (t : Node_ptr) : cost (contract t) ≤ cost t := by
  induction t with
  | NULL => exact le_refl _
  | node i f l r ihl ihr =>
    unfold contract
    by_cases hl : l = NULL <;> by_cases hr : r = NULL
    · subst hl; subst hr; simp
    · subst hl
      simp only [if_true, hr, if_false]
      rw [cost_node_general i f NULL r (by simp [hr]), cost_null, weight_null]
      omega
    · subst hr
      simp only [hl, if_true, if_false]
      rw [cost_node_general i f l NULL (by simp [hl]), cost_null, weight_null]
      omega
    · simp only [hl, hr, if_false]
      have h1 : contract l ≠ NULL := fun h => hl (contract_eq_null.1 h)
      rw [cost_node_general i f l r (by simp [hl]),
        cost_node_general i f (contract l) (contract r) (by simp [h1]),
        weight_contract, weight_contract]
      omega

end Node_ptr

/-- The built tree has the least weighted path length of all binary trees with
the same leaves, when the weights add up to less than `2^32`. -/
theorem create_huffman_tree_le (P : PriorityQueue) (l : List Node_ptr)
    (hl : ∀ t ∈ l, IsLeafNode t) (hne : l ≠ []) (hW : (l.map Node_ptr.freq).sum < 4294967296)
    (t1 : Node_ptr) (hperm : (t1.leaves).Perm l) :
    (create_huffman_tree P (create_pq P l)).wpl ≤ t1.wpl := by
  have hlb := (create_huffman_tree_optimal P l hl hne hW).2.2
  have ht1 : t1 ≠ Node_ptr.NULL := by
    intro h
    subst h
    simp only [Node_ptr.leaves] at hperm
    exact hne (List.nil_perm.1 hperm)
  have hF := Node_ptr.contract_full t1 ht1
  have h1 := hlb (Node_ptr.wdepths t1.contract) (by
    rw [Node_ptr.wdepths_fst, Node_ptr.leaves_contract]
    exact Quotient.sound (hperm.map _)) (Node_ptr.treeDepths_of_full _ hF)
  rw [← Node_ptr.cost_eq_wpl, ← Node_ptr.cost_eq_wpl]
  exact h1.trans (Node_ptr.cost_contract_le t1)

/-- In the built tree a leaf of greater weight never has a longer code, when
the weights add up to less than `2^32`. -/
theorem create_huffman_tree_monotone (P : PriorityQueue) (l : List Node_ptr)
    (hl : ∀ t ∈ l, IsLeafNode t) (hne : l ≠ []) (hW : (l.map Node_ptr.freq).sum < 4294967296)
    (p1 p2 : Int × Nat × Str)
    (h1 : p1 ∈ (create_huffman_tree P (create_pq P l)).leaf_paths)
    (h2 : p2 ∈ (create_huffman_tree P (create_pq P l)).leaf_paths)
    (hlt : p2.2.1 < p1.2.1) : p1.2.2.length ≤ p2.2.2.length := by
  by_contra hcon
  rw [not_le] at hcon
  have hlb := (create_huffman_tree_optimal P l hl hne hW).2.2
  obtain ⟨hF, _, hleaves⟩ := create_huffman_tree_shape P l hl hne
  generalize create_huffman_tree P (create_pq P l) = root at *
  have hA := Node_ptr.leaf_paths_wdepths root
  have m1 : ((p1.2.1, p1.2.2.length) : Nat × Nat) ∈ Node_ptr.wdepths root := by
    rw [hA, Multiset.mem_coe, List.mem_map]
    exact ⟨p1, h1, rfl⟩
  have m2 : ((p2.2.1, p2.2.2.length) : Nat × Nat) ∈ Node_ptr.wdepths root := by
    rw [hA, Multiset.mem_coe, List.mem_map]
    exact ⟨p2, h2, rfl⟩
  obtain ⟨R1, hR1⟩ := Multiset.exists_cons_of_mem m1
  have m2' : ((p2.2.1, p2.2.2.length) : Nat × Nat) ∈ R1 := by
    rw [hR1, Multiset.mem_cons] at m2
    rcases m2 with h | h
    · exfalso
      have := congrArg Prod.fst h
      simp only at this
      omega
    · exact h
  obtain ⟨R, hR⟩ := Multiset.exists_cons_of_mem m2'
  rw [hR] at hR1
  have hfst : (Node_ptr.wdepths root).map Prod.fst = ((l.map Node_ptr.freq : List Nat) : Multiset Nat) := by
    rw [Node_ptr.wdepths_fst]
    have hp : (root.leaves).Perm l := Quotient.exact hleaves
    exact Quotient.sound (hp.map _)
  have hTD := Node_ptr.treeDepths_of_full root hF
  have key := hlb ((p1.2.1, p2.2.2.length) ::ₘ (p2.2.1, p1.2.2.length) ::ₘ R) (by
      rw [← hfst, hR1]
      simp only [Multiset.map_cons]) (by
      rw [hR1] at hTD
      simp only [Multiset.map_cons] at hTD ⊢
      rw [Multiset.cons_swap]
      exact hTD)
  have hcost : root.cost = wsum ((p1.2.1, p1.2.2.length) ::ₘ (p2.2.1, p2.2.2.length) ::ₘ R) := by
    unfold Node_ptr.cost
    rw [hR1]
  rw [hcost, wsum_cons, wsum_cons, wsum_cons, wsum_cons] at key
  simp only at key
  nlinarith [Nat.mul_lt_mul_of_lt_of_lt hlt hcon, mul_pos (Nat.sub_pos_of_lt hlt) (Nat.sub_pos_of_lt hcon),
    Nat.sub_add_cancel (le_of_lt hlt), Nat.sub_add_cancel (le_of_lt hcon)]

/-- The inner loop of `rebuild_huffman_tree`, started on an existing node, ends
with a tree or with one of the two decoding errors. -/
theorem rebuild_walk_result (id : Int) (code : Str) :
    ∀ (rem : Str) (n : Node_ptr) (table : Table), n ≠ Node_ptr.NULL →
      (∃ n1 t1, rebuild_walk id code rem n table = .ok (n1, t1) ∧ n1 ≠ Node_ptr.NULL)
      ∨ rebuild_walk id code rem n table = .error (.exited .code_not_binary)
      ∨ rebuild_walk id code rem n table = .error (.exited .code_not_valid) := by
  intro rem
  induction rem with
  | nil =>
    intro n table hn
    exact Or.inl ⟨n, table, rfl, hn⟩
  | cons c rem ih =>
    intro n table hn
    cases n with
    | NULL => exact absurd rfl hn
    | node nid nfreq l r =>
      unfold rebuild_walk
      simp only
      by_cases hnb : c ≠ chr0 ∧ c ≠ chr1
      · rw [if_pos hnb]
        exact Or.inr (Or.inl rfl)
      · rw [if_neg hnb]
        have hset : ∀ sub : Node_ptr,
            (if c = chr0 then Node_ptr.node nid nfreq sub r else Node_ptr.node nid nfreq l sub)
              ≠ Node_ptr.NULL := by
          intro sub
          split <;> simp
        by_cases htmp : (if c = chr0 then l else r) = Node_ptr.NULL
        · rw [if_pos htmp]
          have hnew : (if rem.isEmpty = true then Node_ptr.node id 0 Node_ptr.NULL Node_ptr.NULL
              else Node_ptr.fresh) ≠ Node_ptr.NULL := by
            split <;> simp [Node_ptr.fresh]
          rcases ih _ (if rem.isEmpty = true then table.assign id code else table) hnew with
            ⟨n1, t1, h1, _⟩ | h1 | h1
          · rw [h1]
            exact Or.inl ⟨_, t1, rfl, hset n1⟩
          · rw [h1]; exact Or.inr (Or.inl rfl)
          · rw [h1]; exact Or.inr (Or.inr rfl)
        · rw [if_neg htmp]
          by_cases hlast : rem.isEmpty = true
          · rw [if_pos hlast]
            exact Or.inr (Or.inr rfl)
          · rw [if_neg hlast]
            by_cases hleaf : (if c = chr0 then l else r).isleaf = true
            · rw [if_pos hleaf]
              exact Or.inr (Or.inr rfl)
            · rw [if_neg hleaf]
              rcases ih _ table htmp with ⟨n1, t1, h1, _⟩ | h1 | h1
              · rw [h1]
                exact Or.inl ⟨_, t1, rfl, hset n1⟩
              · rw [h1]; exact Or.inr (Or.inl rfl)
              · rw [h1]; exact Or.inr (Or.inr rfl)

/-- The outer loop of `rebuild_huffman_tree`, whatever it reads, ends with a
state or with one of the two decoding errors. -/
theorem rebuild_loop_result (n : Nat) :
    ∀ st : RebuildState, st.root ≠ Node_ptr.NULL →
      (∃ st1, rebuild_loop n st = .ok st1 ∧ st1.root ≠ Node_ptr.NULL)
      ∨ rebuild_loop n st = .error (.exited .code_not_binary)
      ∨ rebuild_loop n st = .error (.exited .code_not_valid) := by
  induction n with
  | zero =>
    intro st hst
    exact Or.inl ⟨st, rfl, hst⟩
  | succ n ih =>
    intro st hst
    unfold rebuild_loop
    simp only
    rcases rebuild_walk_result (st.in_file.read_int st.id).1
      (((st.in_file.read_int st.id).2.read_string st.code).1)
      (((st.in_file.read_int st.id).2.read_string st.code).1) st.root st.table hst with
      ⟨n1, t1, h1, hn1⟩ | h1 | h1
    · rw [h1]
      simp only
      exact ih _ hn1
    · rw [h1]; exact Or.inr (Or.inl rfl)
    · rw [h1]; exact Or.inr (Or.inr rfl)

theorem entry_nodes_isLeaf (entries : List (Int × Nat)) :
    ∀ t ∈ entry_nodes entries, IsLeafNode t := by
  intro t ht
  obtain ⟨e, _, rfl⟩ := List.mem_map.1 ht
  exact ⟨e.1, e.2, rfl⟩

theorem entry_nodes_freq (entries : List (Int × Nat)) :
    (entry_nodes entries).map Node_ptr.freq = entries.map Prod.snd := by
  unfold entry_nodes
  rw [List.map_map]
  apply List.map_congr_left
  intro e _
  rfl

theorem leaf_injective : Function.Injective (fun e : Int × Nat => Node_ptr.leaf e.1 e.2) := by
  intro a b h
  simp only [Node_ptr.leaf, Node_ptr.node.injEq, and_self, and_true] at h
  exact Prod.ext h.1 h.2

/-- The (id, freq) pairs of the leaves of a tree whose leaves are the nodes of
`entries` are the entries, in some order. -/
theorem leaf_paths_perm_entries (t : Node_ptr) (entries : List (Int × Nat))
    (hperm : (t.leaves).Perm (entry_nodes entries)) :
    ((t.leaf_paths).map (fun p => (p.1, p.2.1))).Perm entries := by
  have h1 : (((t.leaf_paths).map (fun p => (p.1, p.2.1))).map
      (fun e : Int × Nat => Node_ptr.leaf e.1 e.2)) = t.leaves := by
    rw [List.map_map, ← Node_ptr.leaf_paths_leaves]
    rfl
  have h2 : Multiset.map (fun e : Int × Nat => Node_ptr.leaf e.1 e.2)
      (((t.leaf_paths).map (fun p => (p.1, p.2.1)) : List (Int × Nat)) : Multiset (Int × Nat))
      = Multiset.map (fun e : Int × Nat => Node_ptr.leaf e.1 e.2) (entries : Multiset (Int × Nat)) := by
    rw [Multiset.map_coe, Multiset.map_coe, h1]
    exact Quotient.sound hperm
  exact Quotient.exact (Multiset.map_injective leaf_injective h2)

/-- For a full tree whose leaves are the nodes of entries with distinct
symbols, `create_map_table` gives a table, every leaf's code is found in it
under the leaf's symbol, and the cost of the table is the weighted path length. -/
theorem table_cost_eq_wpl (t : Node_ptr) (entries : List (Int × Nat)) (hF : t.Full)
    (hperm : (t.leaves).Perm (entry_nodes entries)) (hnd : (entries.map Prod.fst).Nodup) :
    ∃ table, create_map_table t [] [] = some table
      ∧ (∀ p ∈ t.leaf_paths, table.find p.1 = some p.2.2)
      ∧ table_cost entries table = t.wpl := by
  have hpe := leaf_paths_perm_entries t entries hperm
  have hids : ((t.code_list []).map Prod.fst).Nodup := by
    rw [Node_ptr.code_list_nil, List.map_map]
    have := (hpe.map Prod.fst).nodup_iff.2 hnd
    rw [List.map_map] at this
    exact this
  have hspec := Table.assign_all_spec (t.code_list []) [] (by simp [Table.Ascending]) hids
    (by simp)
  rw [List.append_nil] at hspec
  have hfind : ∀ p ∈ t.leaf_paths,
      (Table.assign_all [] (t.code_list [])).find p.1 = some p.2.2 := by
    intro p hp
    apply Table.find_eq_some_of_mem _ hspec.1
    rw [hspec.2.mem_iff, Node_ptr.code_list_nil, List.mem_map]
    exact ⟨p, hp, rfl⟩
  refine ⟨Table.assign_all [] (t.code_list []), create_map_table_eq t hF [] [], hfind, ?_⟩
  unfold table_cost Node_ptr.wpl
  rw [← (hpe.map _).sum_eq, List.map_map]
  congr 1
  apply List.map_congr_left
  intro p hp
  simp only [Function.comp, hfind p hp, Option.getD_some]

/-- A full tree with two leaves: both codes have length 1. -/
theorem leaf_paths_two (t : Node_ptr) (hF : t.Full) (h2 : t.leaves.length = 2) :
    ∀ p ∈ t.leaf_paths, p.2.2.length = 1 := by
  cases t with
  | NULL => exact absurd hF (by simp [Node_ptr.Full])
  | node i f l r =>
    rcases hF with ⟨rfl, rfl⟩ | ⟨hl, hr⟩
    · simp [Node_ptr.leaves] at h2
    · rw [Node_ptr.leaves_node i f hl.ne_null, List.length_append] at h2
      have h1l := List.length_pos.2 (leaves_ne_nil_of_full l hl)
      have h1r := List.length_pos.2 (leaves_ne_nil_of_full r hr)
      have hl1 : l.leaves.length = 1 := by omega
      have hr1 : r.leaves.length = 1 := by omega
      obtain ⟨x, hx⟩ := List.length_eq_one.1 hl1
      obtain ⟨y, hy⟩ := List.length_eq_one.1 hr1
      have hlx := isleaf_of_single_leaf l hl x hx
      have hry := isleaf_of_single_leaf r hr y hy
      have hxleaf : ∃ a b, l = Node_ptr.node a b Node_ptr.NULL Node_ptr.NULL := by
        cases l with
        | NULL => exact absurd hl (by simp [Node_ptr.Full])
        | node a b l1 r1 =>
          rcases hl with ⟨rfl, rfl⟩ | ⟨hl1', hr1'⟩
          · exact ⟨a, b, rfl⟩
          · exfalso
            rw [Node_ptr.leaves_node a b hl1'.ne_null, List.length_append] at hl1
            have := List.length_pos.2 (leaves_ne_nil_of_full l1 hl1')
            have := List.length_pos.2 (leaves_ne_nil_of_full r1 hr1')
            omega
      have hyleaf : ∃ a b, r = Node_ptr.node a b Node_ptr.NULL Node_ptr.NULL := by
        cases r with
        | NULL => exact absurd hr (by simp [Node_ptr.Full])
        | node a b l1 r1 =>
          rcases hr with ⟨rfl, rfl⟩ | ⟨hl1', hr1'⟩
          · exact ⟨a, b, rfl⟩
          · exfalso
            rw [Node_ptr.leaves_node a b hl1'.ne_null, List.length_append] at hr1
            have := List.length_pos.2 (leaves_ne_nil_of_full l1 hl1')
            have := List.length_pos.2 (leaves_ne_nil_of_full r1 hr1')
            omega
      obtain ⟨a1, b1, rfl⟩ := hxleaf
      obtain ⟨a2, b2, rfl⟩ := hyleaf
      intro p hp
      simp [Node_ptr.leaf_paths] at hp
      rcases hp with rfl | rfl <;> rfl

theorem present_bytes_replicate (n : Nat) (hn : 1 ≤ n) (z : Byte) :
    present_bytes (List.replicate n z) = [z.val] := by
  have hnd := present_bytes_nodup (List.replicate n z)
  have hmem : ∀ i, i ∈ present_bytes (List.replicate n z) ↔ i = z.val := by
    intro i
    rw [mem_present_bytes]
    constructor
    · rintro ⟨b, hb, rfl⟩
      rw [List.eq_of_mem_replicate hb]
    · rintro rfl
      exact ⟨z, List.mem_replicate.2 ⟨by omega, rfl⟩, rfl⟩
  have hperm : (present_bytes (List.replicate n z)).Perm [z.val] :=
    (List.perm_ext_iff_of_nodup hnd (List.nodup_singleton _)).2 (fun i => by
      rw [hmem, List.mem_singleton])
  exact List.perm_singleton.1 hperm

/-- The node array of `n` copies of the byte `z`, for `1 ≤ n < 2^31`. -/
theorem create_node_array_replicate (n : Nat) (hn : 1 ≤ n) (hlt : n < 2147483648) (z : Byte) :
    create_node_array (List.replicate n z)
      = [Node_ptr.leaf (z.val : Int) n, Node_ptr.leaf PSEUDO_EOF 1] := by
  have hb : ∀ i, occurrences (List.replicate n z) i < 2147483648 := by
    intro i
    rw [occurrences_replicate]
    split <;> omega
  rw [create_node_array_of_bounded _ hb, present_bytes_replicate n hn z]
  simp only [List.map_cons, List.map_nil, List.singleton_append, occurrences_replicate, if_true]

/-- The code table of `n` copies of the byte `z`, for `1 ≤ n < 2^31`: an
entry for `z` and one for 256, with different codes of length 1. -/
theorem code_table_replicate (P : PriorityQueue) (n : Nat) (hn : 1 ≤ n) (hlt : n < 2147483648)
    (z : Byte) :
    ∃ c1 c2 : Str, code_table P (List.replicate n z) = [((z.val : Int), c1), (256, c2)]
      ∧ c1.length = 1 ∧ c2.length = 1 ∧ c1 ≠ c2 := by
  have hna := create_node_array_replicate n hn hlt z
  have hkeys := code_table_keys P (List.replicate n z)
  rw [hna] at hkeys
  simp only [List.map_cons, List.map_nil, id_leaf] at hkeys
  have hshape := huffman_root_shape P (List.replicate n z)
  have hperm : ((huffman_root P (List.replicate n z)).leaves).Perm
      (create_node_array (List.replicate n z)) := Quotient.exact hshape.2.2
  have hlen : (huffman_root P (List.replicate n z)).leaves.length = 2 := by
    rw [hperm.length_eq, hna]
    rfl
  have hone := leaf_paths_two _ hshape.1 hlen
  have hpf := code_table_prefixFree P (List.replicate n z)
  have hmem := code_table_mem P (List.replicate n z)
  have hl2 : (code_table P (List.replicate n z)).length = 2 := by
    have := congrArg List.length hkeys
    simpa using this
  obtain ⟨e1, e2, he⟩ := List.length_eq_two.1 hl2
  rw [he] at hkeys hpf hmem
  simp only [List.map_cons, List.map_nil, List.cons.injEq, and_true] at hkeys
  obtain ⟨k1, c1⟩ := e1
  obtain ⟨k2, c2⟩ := e2
  simp only at hkeys
  obtain ⟨rfl, rfl⟩ := hkeys
  have hlen1 : ∀ e ∈ [((z.val : Int), c1), ((PSEUDO_EOF : Int), c2)], e.2.length = 1 := by
    intro e hin
    obtain ⟨p, hp, rfl⟩ := (hmem e).1 hin
    exact hone p hp
  refine ⟨c1, c2, he, hlen1 ((z.val : Int), c1) (by simp),
    hlen1 ((PSEUDO_EOF : Int), c2) (by simp), ?_⟩
  intro hc
  unfold PrefixFree at hpf
  rw [List.pairwise_pair] at hpf
  apply hpf.1
  simp only
  rw [hc]

theorem nine_bits_length (i : Nat) : (nine_bits i).length = 9 := by
  simp [nine_bits]

theorem nine_bits_binary (i : Nat) : Binary (nine_bits i) := by
  intro c hc
  unfold nine_bits at hc
  obtain ⟨j, _, rfl⟩ := List.mem_map.1 hc
  split
  · exact Or.inr rfl
  · exact Or.inl rfl

theorem nine_bit_lines_binaryCodes (n : Nat) : BinaryCodes (nine_bit_lines n) := by
  intro e he
  unfold nine_bit_lines at he
  obtain ⟨i, _, rfl⟩ := List.mem_map.1 he
  refine ⟨?_, nine_bits_binary i⟩
  intro h
  have := nine_bits_length i
  simp only at h
  rw [h] at this
  simp at this

theorem nine_bit_lines_valid (n : Nat) : ∀ e ∈ nine_bit_lines n, ValidLine e := by
  intro e he
  have hb := nine_bit_lines_binaryCodes n e he
  unfold nine_bit_lines at he
  obtain ⟨i, _, rfl⟩ := List.mem_map.1 he
  have h257 : i % 257 < 257 := Nat.mod_lt _ (by norm_num)
  refine ⟨?_, ?_, hb.1, binary_not_space _ hb.2⟩
  · unfold INT_MIN
    simp only
    omega
  · unfold INT_MAX
    simp only
    omega

theorem occurrences_append (A B : Str) (i : Nat) :
    occurrences (A ++ B) i = occurrences A i + occurrences B i := by
  unfold occurrences
  rw [List.map_append, List.count_append]

theorem occurrences_big_input (i : Nat) : occurrences big_input i = big_count i := by
  unfold big_input big_count
  simp only [occurrences_append, occurrences_replicate]
  rfl

theorem big_count_lt (i : Nat) : big_count i < 2147483648 := by
  unfold big_count
  split_ifs <;> omega

theorem present_bytes_big_input : present_bytes big_input = [0, 1, 2, 3, 4, 5, 6] := by
  unfold present_bytes
  have : (fun i => decide (0 < occurrences big_input i)) = fun i => decide (0 < big_count i) := by
    funext i
    rw [occurrences_big_input]
  rw [this]
  decide

/-- The node array of `big_input`. -/
theorem create_node_array_big_input : create_node_array big_input = entry_nodes big_entries := by
  rw [create_node_array_of_bounded big_input
    (fun i => by rw [occurrences_big_input]; exact big_count_lt i), present_bytes_big_input]
  simp only [List.map_cons, List.map_nil, occurrences_big_input]
  decide

theorem occurrences_eq_count (S : Str) (b : Byte) : occurrences S b.val = S.count b := by
  unfold occurrences
  exact List.count_map_of_injective S Fin.val Fin.val_injective b

theorem bounded_of_count (S : Str) (hb : ∀ b : Byte, S.count b < 2147483648) :
    ∀ i, occurrences S i < 2147483648 := by
  intro i
  by_cases hi : i < 256
  · have := occurrences_eq_count S ⟨i, hi⟩
    simp only at this
    rw [this]
    exact hb _
  · rw [occurrences_eq_zero_of_ge S i (by omega)]
    norm_num

theorem create_map_table_full (t : Node_ptr) :
    ∀ (s : Str) (table table1 : Table), create_map_table t s table = some table1 → t.Full := by
  induction t with
  | NULL =>
    intro s table table1 h
    simp [create_map_table] at h
  | node i f l r ihl ihr =>
    intro s table table1 h
    unfold create_map_table at h
    by_cases hleaf : l = Node_ptr.NULL ∧ r = Node_ptr.NULL
    · exact Or.inl hleaf
    · rw [if_neg hleaf] at h
      cases h1 : create_map_table l (s ++ [chr0]) table with
      | none => rw [h1] at h; simp at h
      | some tb =>
        rw [h1] at h
        simp only at h
        exact Or.inr ⟨ihl _ _ _ h1, ihr _ _ _ h⟩

/-- The decoding loop never ends a run with `exit(1)`. -/
theorem decode_loop_not_exited (root : Node_ptr) (fuel : Nat) :
    ∀ (s : IStream) (c : Byte) (n : Node_ptr) (out written : Str) (m : ExitMsg),
      (decode_loop root fuel s c n out written).status ≠ .exited m := by
  induction fuel with
  | zero =>
    intro s c n out written m
    simp [decode_loop]
  | succ fuel ih =>
    intro s c n out written m
    unfold decode_loop
    split
    · simp
    · simp only
      split
      · simp
      · simp
      · split
        · exact ih _ _ _ _ _ m
        · exact ih _ _ _ _ _ m

/-- A file that starts with a number of at most `MAX_SIZE`: `decompress` does
not end with "The number of nodes is not valid". -/
theorem decompress_count_le (n : Nat) (rest : Str) (hn : n ≤ MAX_SIZE)
    (hrest : ∀ c, rest.head? = some c → isdigit c = false) :
    (decompress (show_nat n ++ rest)).status ≠ .exited .node_count_not_valid := by
  have hread := read_int_show_nat_general [] n rest 0 (by simp) hrest
  rw [List.nil_append] at hread
  have hsentry : ((IStream.open (show_nat n ++ rest)).sentry).1 = true := by
    obtain ⟨h1, h2, _⟩ := show_nat_spec n
    obtain ⟨d, ds, hds⟩ := List.exists_cons_of_ne_nil h1
    have hd : isdigit d = true := h2 d (by rw [hds]; exact List.mem_cons_self _ _)
    rw [hds]
    unfold IStream.sentry IStream.open IStream.good
    simp [List.dropWhile, isdigit_not_space d hd]
  have hmax : (n : Int) ≤ INT_MAX := by
    unfold MAX_SIZE at hn; unfold INT_MAX; omega
  have hgt : ¬ ((n : Int) > (MAX_SIZE : Int)) := by omega
  unfold decompress rebuild_huffman_tree
  rw [hsentry]
  simp only [Bool.true_eq_false, if_false]
  unfold IStream.open
  rw [hread]
  simp only [hmax, if_true, hgt, if_false]
  rcases rebuild_loop_result (n : Int).toNat
    ⟨⟨rest, rest.isEmpty, decide (INT_MAX < (n : Int))⟩, 0, [], Node_ptr.fresh, []⟩
    (by simp [Node_ptr.fresh]) with ⟨st1, h1, _⟩ | h1 | h1
  · rw [h1]
    simp only
    unfold decode_huffman
    exact decode_loop_not_exited _ _ _ _ _ _ _ _
  · rw [h1]; simp
  · rw [h1]; simp

/-- A file that starts with a number above `MAX_SIZE`: `decompress` writes
nothing and ends with "The number of nodes is not valid". -/
theorem decompress_count_gt (n : Nat) (rest : Str) (hn : MAX_SIZE < n)
    (hrest : ∀ c, rest.head? = some c → isdigit c = false) :
    decompress (show_nat n ++ rest) = ⟨[], .exited .node_count_not_valid⟩ := by
  have h := rebuild_huffman_tree_count [] n rest (by simp) hn hrest
  rw [List.nil_append] at h
  unfold decompress
  rw [h]

theorem wrap_int_toNat_eq (n : Nat) (h : n < 4294967296) (hpos : 0 < wrap_int (n : Int)) :
    (wrap_int (n : Int)).toNat = n := by
  unfold wrap_int at hpos ⊢
  omega

theorem symbol_count_byte (S : Str) (i : Nat) (hi : i < 256) :
    symbol_count S (i : Int) = occurrences S i := by
  unfold symbol_count occurrences
  have : ((i : Nat) : Int) ≠ 256 := by omega
  rw [if_neg this, Int.toNat_ofNat]

theorem symbol_count_eof (S : Str) : symbol_count S ((PSEUDO_EOF : Nat) : Int) = 1 := by
  unfold symbol_count
  have : ((PSEUDO_EOF : Nat) : Int) = 256 := rfl
  rw [if_pos this]

/-- Every entry of `node_array` carries the count of its symbol, for an input
of fewer than `2^32` bytes. -/
theorem node_array_symbol_count (S : Str) (hlen : S.length < 4294967296) (i : Int) (f : Nat)
    (h : Node_ptr.leaf i f ∈ create_node_array S) : f = symbol_count S i := by
  rw [create_node_array_general, List.mem_append, List.mem_map, List.mem_singleton] at h
  rcases h with ⟨k, hk, hkeq⟩ | h
  · have hk256 := counted_bytes_lt S k hk
    have hpos : 0 < wrap_int (occurrences S k) := by
      unfold counted_bytes at hk
      exact of_decide_eq_true (List.mem_filter.1 hk).2
    have hocc : occurrences S k < 4294967296 := by
      have : occurrences S k ≤ S.length := by
        unfold occurrences
        exact (List.count_le_length _ _).trans (by rw [List.length_map])
      omega
    have h2 := wrap_int_toNat_eq _ hocc hpos
    generalize (wrap_int (occurrences S k)).toNat = w at hkeq h2
    simp only [Node_ptr.leaf, Node_ptr.node.injEq, and_self, and_true] at hkeq
    rw [← hkeq.1, ← hkeq.2, h2, symbol_count_byte S k hk256]
  · simp only [Node_ptr.leaf, Node_ptr.node.injEq, and_self, and_true] at h
    rw [h.1, h.2, symbol_count_eof]

theorem pack_groups_eq_one_shot (B : Str) : pack_groups (pad_bits B) = one_shot_pack B := by
  unfold pack_groups one_shot_pack
  have hl : (pad_bits B).length / 8 = (B.length + 7) / 8 := by
    rw [pad_bits_length]; omega
  rw [hl]
  apply List.map_congr_left
  intro k hk
  have hk' := List.mem_range.1 hk
  apply Fin.ext
  rw [pack_byte_val]
  have hbit : ∀ j, j < 8 → bit_at (pad_bits B) (8 * k + j)
      = (if B.getD (8 * k + j) chr0 = chr0 then 0 else 1) := by
    intro j hj
    by_cases hin : 8 * k + j < B.length
    · have h1 : bit_at (pad_bits B) (8 * k + j) = bit_at B (8 * k + j) := by
        unfold pad_bits
        exact bit_at_append_left B _ _ hin
      rw [h1]
      unfold bit_at
      rw [List.getD_eq_getElem _ 0 hin, List.getD_eq_getElem _ chr0 hin]
    · rw [bit_at_pad B _ (by omega) (by rw [pad_bits_length]; omega),
        List.getD_eq_default _ chr0 (by omega), if_pos rfl]
  have hsum : byte_value (pad_bits B) (8 * k)
      = ((List.range 8).map
          (fun j => (if B.getD (8 * k + j) chr0 = chr0 then 0 else 1) * 2 ^ (7 - j))).sum := by
    unfold byte_value
    rw [Finset.sum_congr rfl (fun j hj => by rw [hbit j (Finset.mem_range.1 hj)])]
    have hr : List.range 8 = [0, 1, 2, 3, 4, 5, 6, 7] := by decide
    rw [hr]
    simp only [Finset.sum_range_succ, Finset.sum_range_zero, List.map_cons, List.map_nil,
      List.sum_cons, List.sum_nil]
    ring
  have hlt := byte_value_lt (pad_bits B) (8 * k)
  rw [← hsum]
  show byte_value (pad_bits B) (8 * k) = (byte_value (pad_bits B) (8 * k)) % 256
  exact (Nat.mod_eq_of_lt hlt).symm

/-- The bytes of the one-shot packing: there are `ceil(|B| / 8)` of them. -/
theorem one_shot_pack_length (B : Str) : (one_shot_pack B).length = (B.length + 7) / 8 := by
  unfold one_shot_pack
  rw [List.length_map, List.length_range]

namespace Node_ptr

theorem freq_eq_weight_of_exactSums (t : Node_ptr) (hF : t.Full) (hE : t.ExactSums) :
    t.freq = t.weight := by
  induction t with
  | NULL => rfl
  | node i f l r ihl ihr =>
    rcases hF with ⟨rfl, rfl⟩ | ⟨hFl, hFr⟩
    · simp [freq, weight]
    · rcases hE with hnull | ⟨hf, hEl, hEr⟩
      · exact absurd hnull.1 hFl.ne_null
      · rw [weight_node i f hFl.ne_null, ← ihl hFl hEl, ← ihr hFr hEr]
        exact hf

/-- In a full tree without wrapped sums whose left children have the smaller
or equal `freq`, following `'0'` from any node leads to a subtree whose leaf
counts add up to no more than those of the subtree that `'1'` leads to. -/
theorem walk_weight_le (t : Node_ptr) :
    (t = NULL ∨ (t.Full ∧ t.ExactSums ∧ t.LeftLighter)) →
      ∀ q : Str, (t.walk (q ++ [chr0])).weight ≤ (t.walk (q ++ [chr1])).weight := by
  induction t with
  | NULL =>
    intro _ q
    rw [walk_null, walk_null]
  | node i f l r ihl ihr =>
    intro h q
    rcases h with h | ⟨hF, hE, hL⟩
    · exact absurd h (by simp)
    · rcases hF with ⟨rfl, rfl⟩ | ⟨hFl, hFr⟩
      · rw [walk_no_children i f _ (by simp), walk_no_children i f _ (by simp)]
      · have hE2 : f = l.freq + r.freq ∧ l.ExactSums ∧ r.ExactSums := by
          rcases hE with hnull | h
          · exact absurd hnull.1 hFl.ne_null
          · exact h
        have hL2 : l.freq ≤ r.freq ∧ l.LeftLighter ∧ r.LeftLighter := by
          rcases hL with hnull | h
          · exact absurd hnull.1 hFl.ne_null
          · exact h
        cases q with
        | nil =>
          rw [List.nil_append, List.nil_append, walk_cons_zero, walk_cons_one]
          show l.weight ≤ r.weight
          rw [← freq_eq_weight_of_exactSums l hFl hE2.2.1,
            ← freq_eq_weight_of_exactSums r hFr hE2.2.2]
          exact hL2.1
        | cons c cs =>
          rw [List.cons_append, List.cons_append, walk_child, walk_child]
          by_cases hc : c = chr0
          · rw [if_pos hc]
            exact ihl (Or.inr ⟨hFl, hE2.2.1, hL2.2.1⟩) cs
          · rw [if_neg hc]
            exact ihr (Or.inr ⟨hFr, hE2.2.2, hL2.2.2⟩) cs

end Node_ptr

/-- `do_compress` with a table that has a code for every byte of `S` and for
the pseudo-EOF: the body is the one-shot packing of the whole bit string. -/
theorem do_compress_one_shot (S : Str) (size : Nat) (table : Table)
    (hS : ∀ c ∈ S, ∃ s, table.find c.val = some s)
    (hE : ∃ s, table.find PSEUDO_EOF = some s) :
    do_compress S size table
      = ⟨write_header size table ++ one_shot_pack (full_bit_string table S), .finished⟩ := by
  rw [← pack_groups_eq_one_shot]
  exact do_compress_eq S size table hS hE

/-- C1 (amended). Round trip: for every byte sequence `S`, the empty one
included, in which no byte value occurs `2^31` times or more, `compress`
finishes, and `decompress` on the file it wrote finishes with exactly `S` as
its output, however the priority queue breaks ties. -/
theorem C1_round_trip (P : PriorityQueue) (S : Str)
    (hb : ∀ b : Byte, S.count b < 2147483648) :
    (compress P S).status = .finished ∧ decompress (compress P S).out = ⟨S, .finished⟩ :=
  decompress_compress P S (bounded_of_count S hb)

set_option maxRecDepth 100000 in
theorem C1_witness :
    (∀ b : Byte, ([97, 97, 97, 98] : Str).count b < 2147483648)
    ∧ (compress ListQueue [97, 97, 97, 98]).status = .finished
    ∧ decompress (compress ListQueue [97, 97, 97, 98]).out = ⟨[97, 97, 97, 98], .finished⟩ :=
  ⟨by decide, C1_round_trip ListQueue [97, 97, 97, 98] (by decide)⟩

/-- C1 as stated fails: on `2^31` copies of the byte 0 the counter of that byte
has wrapped to `INT_MIN`, so the byte has no code; `compress` ends with "Can't
find the huffman code of character 0", and `decompress` on what it wrote does
not give the input back. -/
theorem C1_counterexample :
    (compress ListQueue (List.replicate 2147483648 (0 : Byte))).status
      = .exited (.no_code_of_character 0)
    ∧ decompress (compress ListQueue (List.replicate 2147483648 (0 : Byte))).out
      ≠ ⟨List.replicate 2147483648 (0 : Byte), .finished⟩ := by
  rw [compress_overflow ListQueue 0]
  refine ⟨rfl, ?_⟩
  simp only
  rw [decompress_sentinel_header]
  intro h
  have h1 := congrArg Outcome.out h
  simp only at h1
  rw [show (2147483648 : Nat) = 2147483647 + 1 from rfl, List.replicate_succ] at h1
  exact List.noConfusion h1

/-- C2. Prefix-free: for every input byte sequence, `calculate_huffman_codes`
on the tree built by `create_huffman_tree` fills a table in which no symbol's
code is a prefix of, or equal to, the code of a different symbol. -/
theorem C2_prefix_free (P : PriorityQueue) (S : Str) :
    ∃ table,
      calculate_huffman_codes (create_huffman_tree P (create_pq P (create_node_array S)))
        = .ok table
      ∧ ∀ e1 ∈ table, ∀ e2 ∈ table, e1.1 ≠ e2.1 → ¬ e1.2 <+: e2.2 := by
  refine ⟨code_table P S, calculate_huffman_codes_eq P S, ?_⟩
  intro e1 h1 e2 h2 hne
  exact (prefixFree_forall _ (code_table_prefixFree P S) e1 e2 h1 h2
    (fun h => hne (by rw [h]))).1

/-- C3 (amended). Code-length minimality: for every non-empty collection of
(symbol, count) entries with distinct symbols whose counts add up to less than
`2^32`, `create_map_table` gives a table for the built tree, the sum of
`count[s] * length(code[s])` over that table is the weighted path length of
the tree, and it is at most the weighted path length of every binary tree
whose leaves are exactly those entries, hence at most the sum for the table of
every such tree. -/
theorem C3_minimal_cost (P : PriorityQueue) (entries : List (Int × Nat)) (hne : entries ≠ [])
    (hnd : (entries.map Prod.fst).Nodup) (hW : (entries.map Prod.snd).sum < 4294967296) :
    ∃ table, create_map_table (huffman_tree_of P entries) [] [] = some table
      ∧ table_cost entries table = (huffman_tree_of P entries).wpl
      ∧ (∀ t1 : Node_ptr, (t1.leaves).Perm (entry_nodes entries) →
          (huffman_tree_of P entries).wpl ≤ t1.wpl)
      ∧ (∀ (t1 : Node_ptr) (table1 : Table), (t1.leaves).Perm (entry_nodes entries) →
          create_map_table t1 [] [] = some table1 →
          table_cost entries table ≤ table_cost entries table1) := by
  have hl := entry_nodes_isLeaf entries
  have hne' : entry_nodes entries ≠ [] := by
    unfold entry_nodes
    simpa using hne
  have hW' : ((entry_nodes entries).map Node_ptr.freq).sum < 4294967296 := by
    rw [entry_nodes_freq]; exact hW
  obtain ⟨hF, _, hleaves⟩ := create_huffman_tree_shape P _ hl hne'
  have hperm : ((huffman_tree_of P entries).leaves).Perm (entry_nodes entries) :=
    Quotient.exact hleaves
  obtain ⟨table, h1, _, h3⟩ := table_cost_eq_wpl _ entries hF hperm hnd
  have hle : ∀ t1 : Node_ptr, (t1.leaves).Perm (entry_nodes entries) →
      (huffman_tree_of P entries).wpl ≤ t1.wpl :=
    fun t1 ht1 => create_huffman_tree_le P _ hl hne' hW' t1 ht1
  refine ⟨table, h1, h3, hle, ?_⟩
  intro t1 table1 ht1 hc
  obtain ⟨table2, h4, _, h6⟩ :=
    table_cost_eq_wpl t1 entries (create_map_table_full t1 _ _ _ hc) ht1 hnd
  rw [hc] at h4
  cases h4
  rw [h3, h6]
  exact hle t1 ht1

theorem C3_witness :
    ([(97, 3), (98, 1), (256, 1)] : List (Int × Nat)) ≠ []
    ∧ (([(97, 3), (98, 1), (256, 1)] : List (Int × Nat)).map Prod.fst).Nodup
    ∧ (([(97, 3), (98, 1), (256, 1)] : List (Int × Nat)).map Prod.snd).sum < 4294967296
    ∧ ∃ table, create_map_table (huffman_tree_of ListQueue [(97, 3), (98, 1), (256, 1)]) [] []
          = some table
        ∧ table_cost [(97, 3), (98, 1), (256, 1)] table
          = (huffman_tree_of ListQueue [(97, 3), (98, 1), (256, 1)]).wpl :=
  ⟨by decide, by decide, by decide,
    (C3_minimal_cost ListQueue [(97, 3), (98, 1), (256, 1)] (by decide) (by decide)
      (by decide)).imp (fun _ h => ⟨h.1, h.2.1⟩)⟩

/-- C3 as stated fails when the counts add up to `2^32` or more, because
`parent->freq = first->freq + second->freq` wraps: for the eight entries of
`big_entries` (counts of about `2^30`, one of `2^31 - 1`, and the pseudo-EOF)
the built tree has weighted path length 26843545972, while the tree of depth 3
with the same leaves has 25769804226. No two weights compared are equal, so
the order of ties plays no part. -/
theorem C3_counterexample :
    balanced_tree.leaves = entry_nodes big_entries
    ∧ (huffman_tree_of ListQueue big_entries).wpl = 26843545972
    ∧ balanced_tree.wpl = 25769804226
    ∧ (big_entries.map Prod.snd).sum = 8589934742 := by
  decide

/-- C4 (amended). No zero-length code for a non-empty input: for every
non-empty input byte sequence in which no byte value occurs `2^31` times or
more, every symbol in the code table that `compress` computes and writes to
the header has a code of length at least 1. -/
theorem C4_no_empty_code (P : PriorityQueue) (S : Str) (hne : S ≠ [])
    (hb : ∀ b : Byte, S.count b < 2147483648) :
    ∃ table,
      calculate_huffman_codes (create_huffman_tree P (create_pq P (create_node_array S)))
        = .ok table
      ∧ ∀ e ∈ table, 1 ≤ e.2.length := by
  refine ⟨code_table P S, calculate_huffman_codes_eq P S, ?_⟩
  intro e he
  have h2 := two_entries_of_ne_nil S (bounded_of_count S hb) hne
  exact List.length_pos.2 (code_table_ne_nil P S h2 e he)

set_option maxRecDepth 100000 in
theorem C4_witness :
    ([122, 122, 122, 122] : Str) ≠ []
    ∧ (∀ b : Byte, ([122, 122, 122, 122] : Str).count b < 2147483648)
    ∧ ∃ table,
      calculate_huffman_codes
          (create_huffman_tree ListQueue (create_pq ListQueue (create_node_array [122, 122, 122, 122])))
        = .ok table
      ∧ ∀ e ∈ table, 1 ≤ e.2.length :=
  ⟨by decide, by decide, C4_no_empty_code ListQueue [122, 122, 122, 122] (by decide) (by decide)⟩

/-- C4 as stated fails in the single-leaf case: for the empty input the only
leaf is the root, the pseudo-EOF gets the empty code, and the header line
written for it is `"256 "` with nothing after the blank. The same table
comes out for `2^31` copies of one byte, whose counter has wrapped. -/
theorem C4_counterexample :
    calculate_huffman_codes (create_huffman_tree ListQueue (create_pq ListQueue (create_node_array [])))
      = .ok [(256, [])]
    ∧ compress ListQueue [] = ⟨[49, 10, 50, 53, 54, 32, 10], .finished⟩
    ∧ calculate_huffman_codes (create_huffman_tree ListQueue
        (create_pq ListQueue (create_node_array (List.replicate 2147483648 (122 : Byte)))))
      = .ok [(256, [])] := by
  refine ⟨?_, compress_nil ListQueue, ?_⟩
  · rw [show create_huffman_tree ListQueue (create_pq ListQueue (create_node_array []))
        = huffman_root ListQueue [] from rfl, calculate_huffman_codes_eq,
      code_table_of_single ListQueue [] create_node_array_nil]
    rfl
  · rw [create_node_array_overflow]
    decide

/-- C5 (amended). Sentinel termination: for every non-empty byte sequence `S`
in which no byte value occurs `2^31` times or more and every byte sequence
`T`, `decompress` on the output of `compress` with `T` appended finishes with
exactly `S` as its output. -/
theorem C5_sentinel_stop (P : PriorityQueue) (S : Str) (hne : S ≠ [])
    (hb : ∀ b : Byte, S.count b < 2147483648) (T : Str) :
    decompress ((compress P S).out ++ T) = ⟨S, .finished⟩ :=
  decompress_compress_append P S (bounded_of_count S hb) hne T

set_option maxRecDepth 100000 in
theorem C5_witness :
    ([97, 97, 97, 98] : Str) ≠ []
    ∧ (∀ b : Byte, ([97, 97, 97, 98] : Str).count b < 2147483648)
    ∧ decompress ((compress ListQueue [97, 97, 97, 98]).out ++ [255, 0, 49])
      = ⟨[97, 97, 97, 98], .finished⟩ :=
  ⟨by decide, by decide, C5_sentinel_stop ListQueue [97, 97, 97, 98] (by decide) (by decide) _⟩

set_option maxRecDepth 100000 in
/-- C5 as stated fails for the empty `S`: the pseudo-EOF has the empty code, so
`rebuild_huffman_tree` reads the appended bytes as the code of 256. With
`T = "a"` the run ends with "Decode error, huffman code is not made up with 0
or 1"; with `T = "1\n\0"` the decoder follows a null pointer. For `2^31`
copies of one byte `compress` itself ends with an error. -/
theorem C5_counterexample :
    decompress ((compress ListQueue []).out ++ [97]) = ⟨[], .exited .code_not_binary⟩
    ∧ decompress ((compress ListQueue []).out ++ [49, 10, 0]) = ⟨[], .undefined⟩
    ∧ (compress ListQueue (List.replicate 2147483648 (0 : Byte))).status
      = .exited (.no_code_of_character 0) := by
  rw [compress_nil, compress_overflow ListQueue 0]
  decide

/-- C7 (amended). Symbol-count validation: the bound that `decompress` checks
is `MAX_SIZE = 270`. For a file that starts with the decimal number `n`
(followed by the end of the file or a character that is not a digit),
`decompress` ends with "The number of nodes is not valid" exactly when
`n > 270`; it then writes nothing. For `n ≤ 270` it goes on to read code
lines. -/
theorem C7_count_check (n : Nat) (rest : Str)
    (hrest : ∀ c, rest.head? = some c → isdigit c = false) :
    ((decompress (show_nat n ++ rest)).status = .exited .node_count_not_valid ↔ 270 < n)
    ∧ (270 < n → decompress (show_nat n ++ rest) = ⟨[], .exited .node_count_not_valid⟩) := by
  have h270 : MAX_SIZE = 270 := rfl
  refine ⟨⟨?_, ?_⟩, ?_⟩
  · intro h
    by_contra hn
    exact decompress_count_le n rest (by rw [h270]; omega) hrest h
  · intro hn
    rw [decompress_count_gt n rest (by rw [h270]; exact hn) hrest]
  · intro hn
    exact decompress_count_gt n rest (by rw [h270]; exact hn) hrest

set_option maxRecDepth 1000000 in
theorem C7_witness :
    (∀ c, ([10] : Str).head? = some c → isdigit c = false)
    ∧ ((decompress (show_nat 271 ++ [10])).status = .exited .node_count_not_valid ↔ 270 < 271) :=
  ⟨by decide, (C7_count_check 271 [10] (by decide)).1⟩

set_option maxRecDepth 1000000 in
/-- C7 as stated fails: a header that declares 258 symbols, more than 257, and
lists 258 prefix-free codes of nine binary digits is accepted; with a body that
holds the codes of 65 and of 256 the run finishes and writes `"A"`. -/
theorem C7_counterexample :
    (write_header 258 (nine_bit_lines 258)).take 4 = [50, 53, 56, 10]
    ∧ decompress (write_header 258 (nine_bit_lines 258) ++ [32, 192, 0]) = ⟨[65], .finished⟩ := by
  decide

/-- C9 (amended). Frequency table: for every input byte sequence `S` in which
no byte value occurs `2^31` times or more, `create_node_array` produces, in
ascending order of `b`, exactly one entry `(b, n)` for each byte value `b` that
occurs in `S`, with `n` the number of occurrences of `b` (so `n ≥ 1`), followed
by the one entry `(256, 1)`; `size` is the number of distinct bytes plus one,
between 1 and 257, and for the empty `S` the array is `[(256, 1)]`. -/
theorem C9_frequency_table (S : Str) (hb : ∀ b : Byte, S.count b < 2147483648) :
    create_node_array S
      = ((List.range 256).filter (fun i => decide (i ∈ S.map Fin.val))).map
          (fun (i : Nat) => Node_ptr.leaf (i : Int) ((S.map Fin.val).count i))
        ++ [Node_ptr.leaf 256 1]
    ∧ (∀ t ∈ create_node_array S, 1 ≤ t.freq)
    ∧ (create_node_array S).length = S.toFinset.card + 1
    ∧ 1 ≤ (create_node_array S).length
    ∧ (create_node_array S).length ≤ 257
    ∧ (S = [] → create_node_array S = [Node_ptr.leaf 256 1]) := by
  have hb' := bounded_of_count S hb
  have hform := create_node_array_of_bounded S hb'
  have hfilter : present_bytes S
      = (List.range 256).filter (fun i => decide (i ∈ S.map Fin.val)) := by
    unfold present_bytes occurrences
    apply List.filter_congr
    intro i _
    rw [decide_eq_decide]
    exact List.count_pos_iff
  have hlen : (create_node_array S).length = S.toFinset.card + 1 := by
    rw [hform, List.length_append, List.length_map, present_bytes_length]
    rfl
  have hcard : S.toFinset.card ≤ 256 := by
    rw [← present_bytes_length]
    exact present_bytes_length_le S
  refine ⟨?_, ?_, hlen, by omega, by omega, ?_⟩
  · rw [hform, hfilter]
    rfl
  · intro t ht
    rw [hform, List.mem_append, List.mem_map, List.mem_singleton] at ht
    rcases ht with ⟨i, hi, rfl⟩ | rfl
    · unfold present_bytes at hi
      have := of_decide_eq_true (List.mem_filter.1 hi).2
      rw [freq_leaf]
      exact this
    · exact le_refl 1
  · intro hS
    subst hS
    exact create_node_array_nil

set_option maxRecDepth 1000000 in
theorem C9_witness :
    (∀ b : Byte, ([97, 97, 97, 98] : Str).count b < 2147483648)
    ∧ (create_node_array [97, 97, 97, 98]).length = ([97, 97, 97, 98] : Str).toFinset.card + 1
    ∧ create_node_array [97, 97, 97, 98]
      = [Node_ptr.leaf 97 3, Node_ptr.leaf 98 1, Node_ptr.leaf 256 1] :=
  ⟨by decide, (C9_frequency_table [97, 97, 97, 98] (by decide)).2.2.1, by decide⟩

/-- C9 as stated fails: in `2^31` copies of the byte 0 the byte occurs, but its
`int` counter has wrapped to a negative value and `freq[i] <= 0` skips it; the
array holds the entry `(256, 1)` only. -/
theorem C9_counterexample :
    (0 : Byte) ∈ List.replicate 2147483648 (0 : Byte)
    ∧ create_node_array (List.replicate 2147483648 (0 : Byte)) = [Node_ptr.leaf 256 1] :=
  ⟨List.mem_replicate.2 ⟨by norm_num, rfl⟩, create_node_array_overflow 0⟩

/-- C11 (amended). Frequent symbols never get longer codes: for every input of
fewer than `2^32 - 1` bytes and every two symbols `s` and `t` of its code table
with `count[s] > count[t]`, `length(code[s]) ≤ length(code[t])`, however the
priority queue breaks ties. -/
theorem C11_frequent_not_longer (P : PriorityQueue) (S : Str)
    (hlen : S.length + 1 < 4294967296) :
    ∃ table,
      calculate_huffman_codes (create_huffman_tree P (create_pq P (create_node_array S)))
        = .ok table
      ∧ ∀ e1 ∈ table, ∀ e2 ∈ table, symbol_count S e2.1 < symbol_count S e1.1 →
          e1.2.length ≤ e2.2.length := by
  refine ⟨code_table P S, calculate_huffman_codes_eq P S, ?_⟩
  intro e1 h1 e2 h2 hlt
  obtain ⟨p1, hp1, rfl⟩ := (code_table_mem P S e1).1 h1
  obtain ⟨p2, hp2, rfl⟩ := (code_table_mem P S e2).1 h2
  have hperm : ((huffman_root P S).leaves).Perm (create_node_array S) :=
    Quotient.exact (huffman_root_shape P S).2.2
  have hfreq : ∀ p ∈ (huffman_root P S).leaf_paths, p.2.1 = symbol_count S p.1 := by
    intro p hp
    apply node_array_symbol_count S (by omega)
    rw [← hperm.mem_iff, ← Node_ptr.leaf_paths_leaves, List.mem_map]
    exact ⟨p, hp, rfl⟩
  have hW : ((create_node_array S).map Node_ptr.freq).sum < 4294967296 :=
    lt_of_le_of_lt (node_array_sum_le S (by omega)) hlen
  simp only at hlt ⊢
  rw [← hfreq p1 hp1, ← hfreq p2 hp2] at hlt
  exact create_huffman_tree_monotone P (create_node_array S) (create_node_array_isLeaf S)
    (create_node_array_ne_nil S) hW p1 p2 hp1 hp2 hlt

set_option maxRecDepth 1000000 in
theorem C11_witness :
    ([97, 97, 97, 98] : Str).length + 1 < 4294967296
    ∧ (∃ table,
      calculate_huffman_codes
          (create_huffman_tree ListQueue (create_pq ListQueue (create_node_array [97, 97, 97, 98])))
        = .ok table
      ∧ ∀ e1 ∈ table, ∀ e2 ∈ table,
          symbol_count [97, 97, 97, 98] e2.1 < symbol_count [97, 97, 97, 98] e1.1 →
          e1.2.length ≤ e2.2.length)
    ∧ calculate_huffman_codes
          (create_huffman_tree ListQueue (create_pq ListQueue (create_node_array [97, 97, 97, 98])))
        = .ok [(97, [49]), (98, [48, 49]), (256, [48, 48])] :=
  ⟨by decide, C11_frequent_not_longer ListQueue [97, 97, 97, 98] (by decide), by decide⟩

/-- C11 as stated fails for an input of `2^32` bytes or more, because the
weights of merged nodes wrap: in `big_input` (8589934741 bytes, no byte value
`2^31` times) the byte 6 occurs 2147483647 times and the byte 4 only
1073741864 times, yet the code of 6 has length 3 and the code of 4 length 2.
No two weights compared are equal, so the order of ties plays no part. -/
theorem C11_counterexample :
    calculate_huffman_codes
        (create_huffman_tree ListQueue (create_pq ListQueue (create_node_array big_input)))
      = .ok [(0, [48, 48, 49, 48, 49]), (1, [48, 48, 49, 49]), (2, [48, 49, 48]),
          (3, [48, 49, 49]), (4, [49, 48]), (5, [49, 49]), (6, [48, 48, 48]),
          (256, [48, 48, 49, 48, 48])]
    ∧ symbol_count big_input 6 = 2147483647
    ∧ symbol_count big_input 4 = 1073741864 := by
  refine ⟨?_, ?_, ?_⟩
  · rw [create_node_array_big_input]
    decide
  · have h := symbol_count_byte big_input 6 (by norm_num)
    rw [occurrences_big_input] at h
    exact h
  · have h := symbol_count_byte big_input 4 (by norm_num)
    rw [occurrences_big_input] at h
    exact h

/-- C12 (amended). Single-distinct-byte input: for every input of `n` copies of
one byte value `z` with `1 ≤ n < 2^31`, the code table has exactly two entries,
`z` and the sentinel 256, each with a code of length exactly 1, the two codes
different, and `decompress` on the output of `compress` returns the input. -/
theorem C12_single_byte (P : PriorityQueue) (z : Byte) (n : Nat) (hn : 1 ≤ n)
    (hlt : n < 2147483648) :
    ∃ c1 c2 : Str,
      calculate_huffman_codes
          (create_huffman_tree P (create_pq P (create_node_array (List.replicate n z))))
        = .ok [((z.val : Int), c1), (256, c2)]
      ∧ c1.length = 1 ∧ c2.length = 1 ∧ c1 ≠ c2
      ∧ decompress (compress P (List.replicate n z)).out = ⟨List.replicate n z, .finished⟩ := by
  obtain ⟨c1, c2, h1, h2, h3, h4⟩ := code_table_replicate P n hn hlt z
  have hb : ∀ i, occurrences (List.replicate n z) i < 2147483648 := by
    intro i
    rw [occurrences_replicate]
    split <;> omega
  refine ⟨c1, c2, ?_, h2, h3, h4, (decompress_compress P _ hb).2⟩
  rw [← h1]
  exact calculate_huffman_codes_eq P _

theorem C12_witness :
    1 ≤ 4 ∧ 4 < 2147483648
    ∧ ∃ c1 c2 : Str,
      calculate_huffman_codes
          (create_huffman_tree ListQueue
            (create_pq ListQueue (create_node_array (List.replicate 4 (122 : Byte)))))
        = .ok [((((122 : Byte).val : Nat) : Int), c1), (256, c2)]
      ∧ c1.length = 1 ∧ c2.length = 1 ∧ c1 ≠ c2
      ∧ decompress (compress ListQueue (List.replicate 4 (122 : Byte))).out
        = ⟨List.replicate 4 (122 : Byte), .finished⟩ :=
  ⟨by norm_num, by norm_num, C12_single_byte ListQueue 122 4 (by norm_num) (by norm_num)⟩

/-- C12 as stated fails for `n = 2^31`: the counter of `z` has wrapped, the
code table has the single entry 256 with the empty code, and `compress` ends
with "Can't find the huffman code of character". -/
theorem C12_counterexample :
    calculate_huffman_codes
        (create_huffman_tree ListQueue
          (create_pq ListQueue (create_node_array (List.replicate 2147483648 (122 : Byte)))))
      = .ok [(256, [])]
    ∧ (compress ListQueue (List.replicate 2147483648 (122 : Byte))).status
      = .exited (.no_code_of_character 122) := by
  constructor
  · rw [create_node_array_overflow]
    decide
  · rw [compress_overflow ListQueue 122]

/-- C13 (amended). The encoding-consistency error is unreachable when no byte
value occurs `2^31` times or more: for every such input `S` the lookup
`table.find` succeeds for every byte of `S` and for the sentinel 256, and
`compress` finishes without taking a "Can't find the huffman code" branch. -/
theorem C13_lookup_succeeds (P : PriorityQueue) (S : Str)
    (hb : ∀ b : Byte, S.count b < 2147483648) :
    ∃ table,
      calculate_huffman_codes (create_huffman_tree P (create_pq P (create_node_array S)))
        = .ok table
      ∧ (∀ c ∈ S, ∃ s, table.find c.val = some s)
      ∧ (∃ s, table.find 256 = some s)
      ∧ (compress P S).status = .finished := by
  have hb' := bounded_of_count S hb
  refine ⟨code_table P S, calculate_huffman_codes_eq P S, ?_, ?_, (decompress_compress P S hb').1⟩
  · intro c hc
    obtain ⟨code, h, _⟩ := code_table_find_some P S _ (byte_in_node_array S hb' c hc)
    exact ⟨code, h⟩
  · obtain ⟨code, h, _⟩ := code_table_find_some P S _ (eof_in_node_array S)
    exact ⟨code, h⟩

set_option maxRecDepth 1000000 in
theorem C13_witness :
    (∀ b : Byte, ([97, 97, 97, 98] : Str).count b < 2147483648)
    ∧ ∃ table,
      calculate_huffman_codes
          (create_huffman_tree ListQueue (create_pq ListQueue (create_node_array [97, 97, 97, 98])))
        = .ok table
      ∧ (∀ c ∈ ([97, 97, 97, 98] : Str), ∃ s, table.find c.val = some s)
      ∧ (∃ s, table.find 256 = some s)
      ∧ (compress ListQueue [97, 97, 97, 98]).status = .finished :=
  ⟨by decide, C13_lookup_succeeds ListQueue [97, 97, 97, 98] (by decide)⟩

/-- C13 as stated fails: for `2^31` copies of the byte 0 the table holds only
the sentinel, the lookup of the first byte fails, and `compress` takes the
"Can't find the huffman code of character" branch. -/
theorem C13_counterexample :
    Table.find [(256, [])] (((0 : Byte).val : Nat) : Int) = none
    ∧ calculate_huffman_codes
        (create_huffman_tree ListQueue
          (create_pq ListQueue (create_node_array (List.replicate 2147483648 (0 : Byte)))))
      = .ok [(256, [])]
    ∧ (compress ListQueue (List.replicate 2147483648 (0 : Byte))).status
      = .exited (.no_code_of_character 0) := by
  refine ⟨by decide, ?_, ?_⟩
  · rw [create_node_array_overflow]
    decide
  · rw [compress_overflow ListQueue 0]

/-- C14. Build error iff empty: `create_huffman_tree` followed by
`calculate_huffman_codes` ends with "Build the huffman tree failed or no
characters are counted" if and only if the collection of entries pushed into
the priority queue is empty; and `compress` never ends with that error. -/
theorem C14_build_error_iff_empty (P : PriorityQueue) :
    (∀ entries : List (Int × Nat),
      calculate_huffman_codes (create_huffman_tree P (create_pq P (entry_nodes entries)))
        = .error (.exited .build_failed) ↔ entries = [])
    ∧ ∀ S : Str, (compress P S).status ≠ .exited .build_failed := by
  constructor
  · intro entries
    constructor
    · intro h
      by_contra hne
      have hne' : entry_nodes entries ≠ [] := by
        unfold entry_nodes
        simpa using hne
      have hF := (create_huffman_tree_shape P _ (entry_nodes_isLeaf entries) hne').1
      unfold calculate_huffman_codes at h
      rw [if_neg hF.ne_null, create_map_table_eq _ hF] at h
      cases h
    · intro h
      subst h
      have : create_huffman_tree P (create_pq P (entry_nodes [])) = Node_ptr.NULL := by
        apply create_huffman_tree_of_empty
        rw [create_pq_contents]
        rfl
      rw [this]
      rfl
  · intro S
    rw [compress_eq]
    rcases do_compress_status S (create_node_array S).length (code_table P S) with h | h | ⟨c, h⟩
    · rw [h]; simp
    · rw [h]; simp
    · rw [h]; simp

/-- C15 (amended). Tree shape invariant: for every non-empty collection of (symbol,
count) entries with pairwise distinct symbols and total count below `2^32`,
the tree left in `root` by `create_huffman_tree` has as leaves exactly those
entries, each symbol once; every node is a leaf or has exactly two children;
every internal node's `freq` is the sum of its two children's `freq`; and the
root's `freq` is the sum of all counts. Under `compress`, when no byte value
occurs `2^31` times or more, that sum is the input length plus one. -/
theorem C15_tree_shape (P : PriorityQueue) (entries : List (Int × Nat)) (hne : entries ≠ [])
    (hnd : (entries.map Prod.fst).Nodup) (hW : (entries.map Prod.snd).sum < 4294967296) :
    (huffman_tree_of P entries).Full
    ∧ ((huffman_tree_of P entries).leaves).Perm (entry_nodes entries)
    ∧ (((huffman_tree_of P entries).leaves).map Node_ptr.id).Nodup
    ∧ (huffman_tree_of P entries).ExactSums
    ∧ (huffman_tree_of P entries).freq = (entries.map Prod.snd).sum
    ∧ (∀ S : Str, (∀ b : Byte, S.count b < 2147483648) → S.length + 1 < 4294967296 →
        (create_huffman_tree P (create_pq P (create_node_array S))).freq = S.length + 1) := by
  have hl := entry_nodes_isLeaf entries
  have hne' : entry_nodes entries ≠ [] := by
    unfold entry_nodes
    simpa using hne
  have hW' : ((entry_nodes entries).map Node_ptr.freq).sum < 4294967296 := by
    rw [entry_nodes_freq]; exact hW
  obtain ⟨hF, _, hleaves⟩ := create_huffman_tree_shape P _ hl hne'
  have hperm : ((huffman_tree_of P entries).leaves).Perm (entry_nodes entries) :=
    Quotient.exact hleaves
  have hids : (entry_nodes entries).map Node_ptr.id = entries.map Prod.fst := by
    unfold entry_nodes
    rw [List.map_map]
    apply List.map_congr_left
    intro e _
    rfl
  refine ⟨hF, hperm, ?_, create_huffman_tree_exactSums P _ hl hne' hW', ?_, ?_⟩
  · rw [(hperm.map Node_ptr.id).nodup_iff, hids]
    exact hnd
  · have := (create_huffman_tree_optimal P _ hl hne' hW').1
    rw [entry_nodes_freq] at this
    exact this
  · intro S hb hlen
    have hsum := node_array_sum S (bounded_of_count S hb)
    have := (create_huffman_tree_optimal P (create_node_array S) (create_node_array_isLeaf S)
      (create_node_array_ne_nil S) (by rw [hsum]; exact hlen)).1
    rw [this, hsum]

theorem C15_witness :
    ([(97, 3), (98, 1), (256, 1)] : List (Int × Nat)) ≠ []
    ∧ (([(97, 3), (98, 1), (256, 1)] : List (Int × Nat)).map Prod.fst).Nodup
    ∧ (([(97, 3), (98, 1), (256, 1)] : List (Int × Nat)).map Prod.snd).sum < 4294967296
    ∧ (huffman_tree_of ListQueue [(97, 3), (98, 1), (256, 1)]).Full
    ∧ (huffman_tree_of ListQueue [(97, 3), (98, 1), (256, 1)]).freq
      = (([(97, 3), (98, 1), (256, 1)] : List (Int × Nat)).map Prod.snd).sum :=
  ⟨by decide, by decide, by decide,
    (C15_tree_shape ListQueue [(97, 3), (98, 1), (256, 1)] (by decide) (by decide) (by decide)).1,
    (C15_tree_shape ListQueue [(97, 3), (98, 1), (256, 1)] (by decide) (by decide)
      (by decide)).2.2.2.2.1⟩

/-- C15 as stated fails in its remark on `compress`: for `2^31` copies of the
byte 0 the input length plus one is 2147483649, below `2^32`, but the counter
of the byte has wrapped, the only entry is the pseudo-EOF, and the root's
`freq` is 1. -/
theorem C15_counterexample :
    (create_huffman_tree ListQueue
        (create_pq ListQueue (create_node_array (List.replicate 2147483648 (0 : Byte))))).freq = 1
    ∧ (List.replicate 2147483648 (0 : Byte)).length + 1 = 2147483649
    ∧ (2147483649 : Nat) < 4294967296 := by
  refine ⟨?_, by rw [List.length_replicate], by norm_num⟩
  rw [create_node_array_overflow]
  decide

/-- C16 (amended). Rebuild inverts encode: for every non-empty input byte
sequence in which no byte value occurs `2^31` times or more, the output of
`compress` starts with the header of the code table, `rebuild_huffman_tree` on
it succeeds, the rebuilt tree is the tree built by `create_huffman_tree` with
every `freq` set to 0 (the same shape, the same `id` at every node), walking it
with `create_map_table` yields the identical table, and the `table` member
filled during the rebuild is that table too. -/
theorem C16_rebuild_inverts (P : PriorityQueue) (S : Str) (hne : S ≠ [])
    (hb : ∀ b : Byte, S.count b < 2147483648) :
    ∃ (table : Table) (body : Str) (st : RebuildState),
      calculate_huffman_codes (create_huffman_tree P (create_pq P (create_node_array S)))
        = .ok table
      ∧ (compress P S).out = write_header table.length table ++ body
      ∧ rebuild_huffman_tree (IStream.open (compress P S).out) = .ok st
      ∧ st.root = (create_huffman_tree P (create_pq P (create_node_array S))).erase_freq
      ∧ create_map_table st.root [] [] = some table
      ∧ st.table = table := by
  have hb' := bounded_of_count S hb
  obtain ⟨id1, code1, hre⟩ := rebuild_of_compress P S hb' hne
    (pack_groups (pad_bits (full_bit_string (code_table P S) S)))
  have hout : (compress P S).out = write_header (code_table P S).length (code_table P S)
      ++ pack_groups (pad_bits (full_bit_string (code_table P S) S)) := by
    rw [compress_of_bounded P S hb']
  refine ⟨code_table P S, _,
    ⟨⟨chrNL :: pack_groups (pad_bits (full_bit_string (code_table P S) S)), false, false⟩,
      id1, code1, (huffman_root P S).erase_freq, code_table P S⟩,
    calculate_huffman_codes_eq P S, hout, ?_, rfl, ?_, rfl⟩
  · rw [hout]
    exact hre
  · show create_map_table (huffman_root P S).erase_freq [] [] = some (code_table P S)
    rw [create_map_table_eq _ (Node_ptr.full_erase_freq _ (huffman_root_shape P S).1),
      code_list_erase_freq]
    rfl

set_option maxRecDepth 1000000 in
theorem C16_witness :
    ([97, 97, 97, 98] : Str) ≠ []
    ∧ (∀ b : Byte, ([97, 97, 97, 98] : Str).count b < 2147483648)
    ∧ ∃ (table : Table) (body : Str) (st : RebuildState),
      calculate_huffman_codes
          (create_huffman_tree ListQueue (create_pq ListQueue (create_node_array [97, 97, 97, 98])))
        = .ok table
      ∧ (compress ListQueue [97, 97, 97, 98]).out = write_header table.length table ++ body
      ∧ rebuild_huffman_tree (IStream.open (compress ListQueue [97, 97, 97, 98]).out) = .ok st
      ∧ st.root = (create_huffman_tree ListQueue
          (create_pq ListQueue (create_node_array [97, 97, 97, 98]))).erase_freq
      ∧ create_map_table st.root [] [] = some table
      ∧ st.table = table :=
  ⟨by decide, by decide, C16_rebuild_inverts ListQueue [97, 97, 97, 98] (by decide) (by decide)⟩

set_option maxRecDepth 1000000 in
/-- C16 as stated fails for an input with at least one byte: for `2^31` copies
of the byte 0 the table is `256 ↦ ""`, the header is `"1\n256 \n"`, and
`rebuild_huffman_tree` on it reads no code: the rebuilt tree is a root with
`id` 0 and not the leaf 256, its `table` member stays empty, and
`create_map_table` on it gives `0 ↦ ""`. -/
theorem C16_counterexample :
    calculate_huffman_codes
        (create_huffman_tree ListQueue
          (create_pq ListQueue (create_node_array (List.replicate 2147483648 (0 : Byte)))))
      = .ok [(256, [])]
    ∧ write_header 1 [(256, [])] = [49, 10, 50, 53, 54, 32, 10]
    ∧ (rebuild_huffman_tree (IStream.open [49, 10, 50, 53, 54, 32, 10])).map
        (fun st => (st.root, st.table)) = .ok (Node_ptr.node 0 0 Node_ptr.NULL Node_ptr.NULL, [])
    ∧ create_map_table (Node_ptr.node 0 0 Node_ptr.NULL Node_ptr.NULL) [] [] = some [(0, [])] := by
  refine ⟨?_, by decide, by decide, by decide⟩
  rw [create_node_array_overflow]
  decide

/-- C17 (amended). Header consistency: for every input byte sequence `S` in
which no byte value occurs `2^31` times or more, the output of `compress`
starts with a header that declares as symbol count the number of code lines
that follow it, which is the number of distinct bytes in `S` plus one and lies
between 1 and 257; the lines list the symbols of the frequency table, each
once, in strictly ascending order with the sentinel 256 last. -/
theorem C17_header_consistent (P : PriorityQueue) (S : Str)
    (hb : ∀ b : Byte, S.count b < 2147483648) :
    ∃ (table : Table) (body : Str),
      calculate_huffman_codes (create_huffman_tree P (create_pq P (create_node_array S)))
        = .ok table
      ∧ (compress P S).out
        = show_int table.length ++ [chrNL] ++ (table.map header_line).flatten ++ body
      ∧ table.length = S.toFinset.card + 1
      ∧ 1 ≤ table.length ∧ table.length ≤ 257
      ∧ table.map Prod.fst = (create_node_array S).map Node_ptr.id
      ∧ (table.map Prod.fst).Sorted (· < ·)
      ∧ (table.map Prod.fst).getLast? = some 256 := by
  have hb' := bounded_of_count S hb
  have hlen : (code_table P S).length = S.toFinset.card + 1 := by
    rw [code_table_length, create_node_array_of_bounded S hb', List.length_append,
      List.length_map, present_bytes_length]
    rfl
  have hcard : S.toFinset.card ≤ 256 := by
    rw [← present_bytes_length]
    exact present_bytes_length_le S
  refine ⟨code_table P S, pack_groups (pad_bits (full_bit_string (code_table P S) S)),
    calculate_huffman_codes_eq P S, ?_, hlen, by omega, by omega, code_table_keys P S,
    (code_table_spec P S).1, ?_⟩
  · rw [compress_of_bounded P S hb']
    rfl
  · rw [code_table_keys, create_node_array_ids, List.getLast?_append]
    rfl

set_option maxRecDepth 1000000 in
theorem C17_witness :
    (∀ b : Byte, ([97, 97, 97, 98] : Str).count b < 2147483648)
    ∧ (∃ (table : Table) (body : Str),
      calculate_huffman_codes
          (create_huffman_tree ListQueue (create_pq ListQueue (create_node_array [97, 97, 97, 98])))
        = .ok table
      ∧ (compress ListQueue [97, 97, 97, 98]).out
        = show_int table.length ++ [chrNL] ++ (table.map header_line).flatten ++ body
      ∧ table.length = ([97, 97, 97, 98] : Str).toFinset.card + 1
      ∧ 1 ≤ table.length ∧ table.length ≤ 257
      ∧ table.map Prod.fst = (create_node_array [97, 97, 97, 98]).map Node_ptr.id
      ∧ (table.map Prod.fst).Sorted (· < ·)
      ∧ (table.map Prod.fst).getLast? = some 256)
    ∧ compress ListQueue [97, 97, 97, 98]
      = ⟨[51, 10, 57, 55, 32, 49, 10, 57, 56, 32, 48, 49, 10, 50, 53, 54, 32, 48, 48, 10, 232],
          .finished⟩ :=
  ⟨by decide, C17_header_consistent ListQueue [97, 97, 97, 98] (by decide), by decide⟩

/-- C17 as stated fails: for `2^31` copies of the byte 0 the header written is
`"1\n256 \n"`, which declares 1 symbol, while the number of distinct bytes
plus one is 2; the byte 0 of the input has no line. -/
theorem C17_counterexample :
    compress ListQueue (List.replicate 2147483648 (0 : Byte))
      = ⟨[49, 10, 50, 53, 54, 32, 10], .exited (.no_code_of_character 0)⟩
    ∧ (List.replicate 2147483648 (0 : Byte)).toFinset.card + 1 = 2 := by
  refine ⟨compress_overflow ListQueue 0, ?_⟩
  rw [List.toFinset_replicate_of_ne_zero (by norm_num)]
  rfl

/-- C18 (amended). Child order of merges: in every tree built by
`create_huffman_tree` from leaf entries, at every internal node the left child
(the first-extracted node of the merge) has a stored `freq` no greater than
that of the right child (the second-extracted node); and when the counts add
up to less than `2^32`, following `'0'` from any node leads to a subtree whose
leaf counts add up to no more than those of the subtree that `'1'` leads to. -/
theorem C18_left_lighter (P : PriorityQueue) (entries : List (Int × Nat)) :
    (huffman_tree_of P entries).LeftLighter
    ∧ ((entries.map Prod.snd).sum < 4294967296 →
        ∀ q : Str, ((huffman_tree_of P entries).walk (q ++ [chr0])).weight
          ≤ ((huffman_tree_of P entries).walk (q ++ [chr1])).weight) := by
  by_cases hne : entries = []
  · subst hne
    have : huffman_tree_of P [] = Node_ptr.NULL := by
      apply create_huffman_tree_of_empty
      rw [create_pq_contents]
      rfl
    rw [this]
    exact ⟨trivial, fun _ q => Node_ptr.walk_weight_le _ (Or.inl rfl) q⟩
  · have hne' : entry_nodes entries ≠ [] := by
      unfold entry_nodes
      simpa using hne
    have hl := entry_nodes_isLeaf entries
    have hshape := create_huffman_tree_shape P _ hl hne'
    have hL := Node_ptr.leftLighter_of_mergeOrdered _ hshape.2.1
    refine ⟨hL, ?_⟩
    intro hW q
    have hW' : ((entry_nodes entries).map Node_ptr.freq).sum < 4294967296 := by
      rw [entry_nodes_freq]; exact hW
    exact Node_ptr.walk_weight_le _
      (Or.inr ⟨hshape.1, create_huffman_tree_exactSums P _ hl hne' hW', hL⟩) q

theorem C18_witness :
    (([(97, 3), (98, 1), (256, 1)] : List (Int × Nat)).map Prod.snd).sum < 4294967296
    ∧ (huffman_tree_of ListQueue [(97, 3), (98, 1), (256, 1)]).LeftLighter
    ∧ ∀ q : Str, ((huffman_tree_of ListQueue [(97, 3), (98, 1), (256, 1)]).walk
          (q ++ [chr0])).weight
        ≤ ((huffman_tree_of ListQueue [(97, 3), (98, 1), (256, 1)]).walk (q ++ [chr1])).weight :=
  ⟨by decide, (C18_left_lighter ListQueue [(97, 3), (98, 1), (256, 1)]).1,
    (C18_left_lighter ListQueue [(97, 3), (98, 1), (256, 1)]).2 (by decide)⟩

/-- C18 as stated fails when the counts add up to `2^32` or more: in the tree
built for `big_entries` the stored `freq` of the root's left child is
2147483708 and that of its right child 2147483738, but the leaf counts below
the left child add up to 6442451004 and those below the right child to
2147483738, so the `'0'` branch leads to the heavier subtree. -/
theorem C18_counterexample :
    ((huffman_tree_of ListQueue big_entries).walk [chr0]).freq = 2147483708
    ∧ ((huffman_tree_of ListQueue big_entries).walk [chr1]).freq = 2147483738
    ∧ ((huffman_tree_of ListQueue big_entries).walk [chr0]).weight = 6442451004
    ∧ ((huffman_tree_of ListQueue big_entries).walk [chr1]).weight = 2147483738
    ∧ (big_entries.map Prod.snd).sum = 8589934742 := by
  decide

/-- C19 (amended). Streaming packing equals one-shot packing with zero padding:
for every input byte sequence `S` in which no byte value occurs `2^31` times or
more, `do_compress` (with the `size` and `table` that `compress` computed)
finishes, and the body it writes after the header is byte for byte
`one_shot_pack B` for the single bit string
`B = code[s_1] ++ ... ++ code[s_n] ++ code[256]`: `ceil(|B| / 8)` bytes, byte
`k` holding the bits `8k .. 8k+7` of `B`, first bit most significant, with 0
for every position past the end of `B`. -/
theorem C19_streaming_is_one_shot (P : PriorityQueue) (S : Str)
    (hb : ∀ b : Byte, S.count b < 2147483648) :
    ∃ table,
      calculate_huffman_codes (create_huffman_tree P (create_pq P (create_node_array S)))
        = .ok table
      ∧ compress P S = do_compress S (create_node_array S).length table
      ∧ do_compress S (create_node_array S).length table
        = ⟨write_header (create_node_array S).length table
            ++ one_shot_pack (full_bit_string table S), .finished⟩
      ∧ (one_shot_pack (full_bit_string table S)).length
        = ((full_bit_string table S).length + 7) / 8
      ∧ full_bit_string table S
        = (S.map (fun c => (table.find c.val).getD [])).flatten ++ (table.find 256).getD [] := by
  have hb' := bounded_of_count S hb
  refine ⟨code_table P S, calculate_huffman_codes_eq P S, compress_eq P S, ?_,
    one_shot_pack_length _, rfl⟩
  apply do_compress_one_shot
  · intro c hc
    obtain ⟨code, h, _⟩ := code_table_find_some P S _ (byte_in_node_array S hb' c hc)
    exact ⟨code, h⟩
  · obtain ⟨code, h, _⟩ := code_table_find_some P S _ (eof_in_node_array S)
    exact ⟨code, h⟩

set_option maxRecDepth 1000000 in
theorem C19_witness :
    (∀ b : Byte, ([97, 98, 99, 100, 101, 102, 103, 104] : Str).count b < 2147483648)
    ∧ (∃ table,
      calculate_huffman_codes (create_huffman_tree ListQueue
          (create_pq ListQueue (create_node_array [97, 98, 99, 100, 101, 102, 103, 104])))
        = .ok table
      ∧ compress ListQueue [97, 98, 99, 100, 101, 102, 103, 104]
        = do_compress [97, 98, 99, 100, 101, 102, 103, 104]
            (create_node_array [97, 98, 99, 100, 101, 102, 103, 104]).length table
      ∧ do_compress [97, 98, 99, 100, 101, 102, 103, 104]
          (create_node_array [97, 98, 99, 100, 101, 102, 103, 104]).length table
        = ⟨write_header (create_node_array [97, 98, 99, 100, 101, 102, 103, 104]).length table
            ++ one_shot_pack (full_bit_string table [97, 98, 99, 100, 101, 102, 103, 104]),
          .finished⟩
      ∧ (one_shot_pack (full_bit_string table [97, 98, 99, 100, 101, 102, 103, 104])).length
        = ((full_bit_string table [97, 98, 99, 100, 101, 102, 103, 104]).length + 7) / 8
      ∧ full_bit_string table [97, 98, 99, 100, 101, 102, 103, 104]
        = (([97, 98, 99, 100, 101, 102, 103, 104] : Str).map
            (fun c => (table.find c.val).getD [])).flatten ++ (table.find 256).getD [])
    ∧ calculate_huffman_codes (create_huffman_tree ListQueue
          (create_pq ListQueue (create_node_array [97, 98, 99, 100, 101, 102, 103, 104])))
        = .ok [(97, [49, 49, 48]), (98, [49, 49, 49, 49]), (99, [49, 49, 49, 48]),
            (100, [48, 48, 49]), (101, [48, 48, 48]), (102, [48, 49, 49]), (103, [48, 49, 48]),
            (104, [49, 48, 49]), (256, [49, 48, 48])]
    ∧ encode_loop [(97, [49, 49, 48]), (98, [49, 49, 49, 49]), (99, [49, 49, 49, 48]),
            (100, [48, 48, 49]), (101, [48, 48, 48]), (102, [48, 49, 49]), (103, [48, 49, 48]),
            (104, [49, 48, 49]), (256, [49, 48, 48])]
          [97, 98, 99, 100, 101, 102, 103, 104] [] []
        = .ok ([48, 48, 49, 49, 48, 49, 48, 49, 48, 49], [223, 196])
    ∧ one_shot_pack (full_bit_string [(97, [49, 49, 48]), (98, [49, 49, 49, 49]),
            (99, [49, 49, 49, 48]), (100, [48, 48, 49]), (101, [48, 48, 48]),
            (102, [48, 49, 49]), (103, [48, 49, 48]), (104, [49, 48, 49]), (256, [49, 48, 48])]
          [97, 98, 99, 100, 101, 102, 103, 104])
        = [223, 196, 53, 96] :=
  ⟨by decide, C19_streaming_is_one_shot ListQueue [97, 98, 99, 100, 101, 102, 103, 104]
    (by decide), by decide, by decide, by decide⟩

/-- C19 as stated fails: for `2^31` copies of the byte 0 the table has no code
for that byte, so the bit string `B` does not exist; `do_compress` ends at the
first byte with "Can't find the huffman code of character 0" and writes no
body after the header `"1\n256 \n"`. -/
theorem C19_counterexample :
    calculate_huffman_codes
        (create_huffman_tree ListQueue
          (create_pq ListQueue (create_node_array (List.replicate 2147483648 (0 : Byte)))))
      = .ok [(256, [])]
    ∧ Table.find [(256, [])] (((0 : Byte).val : Nat) : Int) = none
    ∧ compress ListQueue (List.replicate 2147483648 (0 : Byte))
      = ⟨write_header 1 [(256, [])], .exited (.no_code_of_character 0)⟩ := by
  refine ⟨?_, by decide, ?_⟩
  · rw [create_node_array_overflow]
    decide
  · rw [compress_overflow ListQueue 0]
    decide

/-- C20 (amended). Decode walk never falls off the tree: for every non-empty
input byte sequence `S` in which no byte value occurs `2^31` times or more,
the tree rebuilt from the header of `compress(S)`, whatever bytes follow the
header, has only nodes that are leaves or have both children, and
`decompress` finishes on every such file: no step of `decode_huffman` follows
a null pointer. -/
theorem C20_decode_stays_on_tree (P : PriorityQueue) (S : Str) (hne : S ≠ [])
    (hb : ∀ b : Byte, S.count b < 2147483648) (body : Str) :
    ∃ (table : Table) (packed : Str) (st : RebuildState),
      calculate_huffman_codes (create_huffman_tree P (create_pq P (create_node_array S)))
        = .ok table
      ∧ (compress P S).out = write_header table.length table ++ packed
      ∧ rebuild_huffman_tree (IStream.open (write_header table.length table ++ body)) = .ok st
      ∧ st.root.Full
      ∧ (decompress (write_header table.length table ++ body)).status = .finished := by
  have hb' := bounded_of_count S hb
  obtain ⟨id1, code1, hre⟩ := rebuild_of_compress P S hb' hne body
  have hout : (compress P S).out = write_header (code_table P S).length (code_table P S)
      ++ pack_groups (pad_bits (full_bit_string (code_table P S) S)) := by
    rw [compress_of_bounded P S hb']
  exact ⟨code_table P S, _, _, calculate_huffman_codes_eq P S, hout, hre,
    Node_ptr.full_erase_freq _ (huffman_root_shape P S).1, decompress_any_body P S hb' hne body⟩

set_option maxRecDepth 1000000 in
theorem C20_witness :
    ([97, 97, 97, 98] : Str) ≠ []
    ∧ (∀ b : Byte, ([97, 97, 97, 98] : Str).count b < 2147483648)
    ∧ ∃ (table : Table) (packed : Str) (st : RebuildState),
      calculate_huffman_codes
          (create_huffman_tree ListQueue (create_pq ListQueue (create_node_array [97, 97, 97, 98])))
        = .ok table
      ∧ (compress ListQueue [97, 97, 97, 98]).out = write_header table.length table ++ packed
      ∧ rebuild_huffman_tree (IStream.open (write_header table.length table ++ [255, 255]))
        = .ok st
      ∧ st.root.Full
      ∧ (decompress (write_header table.length table ++ [255, 255])).status = .finished :=
  ⟨by decide, by decide,
    C20_decode_stays_on_tree ListQueue [97, 97, 97, 98] (by decide) (by decide) [255, 255]⟩

set_option maxRecDepth 1000000 in
/-- C20 as stated fails for an input with at least one byte: for `2^31` copies
of the byte 0 the header is `"1\n256 \n"`; followed by the bytes `"1\n\0"`
it is rebuilt into a root with a right child only, and the first bit of the
byte 0 makes `decode_huffman` follow the null left pointer. -/
theorem C20_counterexample :
    (compress ListQueue (List.replicate 2147483648 (0 : Byte))).out
      = [49, 10, 50, 53, 54, 32, 10]
    ∧ (rebuild_huffman_tree (IStream.open ([49, 10, 50, 53, 54, 32, 10] ++ [49, 10, 0]))).map
        (fun st => st.root)
      = .ok (Node_ptr.node 0 0 Node_ptr.NULL (Node_ptr.node 256 0 Node_ptr.NULL Node_ptr.NULL))
    ∧ decompress ([49, 10, 50, 53, 54, 32, 10] ++ [49, 10, 0]) = ⟨[], .undefined⟩ := by
  rw [compress_overflow ListQueue 0]
  decide

end Huffman
